import Mathlib

/-!
# Clustering heuristics of VROOM (`src/problems/cvrp/heuristics/clustering.cpp`)

A shallow embedding of `clustering::clustering`, `update_cost`,
`clustering::parallel_clustering` and `clustering::sequential_clustering`,
followed by the properties established about them.

Conventions of the embedding.

* Vectors indexed by a vehicle rank or a job rank (`costs`, `parents`,
  `regrets`, `capacities`, `clusters`, per-vehicle `candidates`) are total
  functions on `Nat`; the code only reads and writes them at ranks below `V`,
  respectively `J`.
* A candidate vector is a `List Nat`; position `i` is read with `nth`.
* `cost_t` is declared outside the given sources, so its largest value
  `std::numeric_limits<cost_t>::max()` is the parameter `cost_max`; additions
  into `edges_cost` wrap modulo `cost_max + 1`.
* `regret_coeff` is a `double` and enters the code only through the comparison
  made by `eval_lambda`; the embedding takes that comparison as the parameter
  `eval`, and `exact_eval p q` is the comparison for the coefficient `p / q`
  evaluated without rounding.
* Amounts and capacities are scalars of a signed integer type (`Int`).
* The iteration order of the `std::unordered_set` named `candidates_set` is
  not fixed by the language; it is the parameter `set_order`.
* `std::make_heap`, `std::pop_heap`, `std::max_element` and
  `std::min_element` follow the GNU libstdc++ algorithms.
* `higher_amount_init_lambda (v)`, `nearest_init_lambda (v)` and the
  `eval_lambda (v)` of the parallel heuristic return a closure that captures
  by reference the parameter `v` of the enclosing lambda; that parameter no
  longer exists when a standard algorithm calls the closure, so the rank that
  the closure reads is not fixed by the language; it is the parameter
  `dangling`, with `dangling v = v` in a run where the read gives back the
  value that `v` had.  A value of `dangling v` that is not below `V` is a read
  outside the tables, of which the embedding says nothing more than the value
  of its total functions there.  The `eval_lambda` of the sequential heuristic
  captures the loop variable and reads `v` itself.
-/

namespace Vroom

/-! ## Standard algorithms -/

/-- Element `a[i]` of a vector of ranks. -/
def nth (a : List Nat) (i : Nat) : Nat := a.getD i 0

/-- Loop of libstdc++ `__push_heap`: the hole climbs while it is below
`topIndex` and its parent compares less than `value`; `value` is then stored
in the hole.  The first argument bounds the number of iterations. -/
def push_heap_loop (comp : Nat → Nat → Bool) (topIndex value : Nat) :
    Nat → List Nat → Nat → List Nat
  | 0, a, holeIndex => a.set holeIndex value
  | fuel + 1, a, holeIndex =>
    if topIndex < holeIndex ∧ comp (nth a ((holeIndex - 1) / 2)) value = true then
      push_heap_loop comp topIndex value fuel
        (a.set holeIndex (nth a ((holeIndex - 1) / 2))) ((holeIndex - 1) / 2)
    else a.set holeIndex value

/-- The libstdc++ `__push_heap (first, holeIndex, topIndex, value, comp)`. -/
def push_heap (comp : Nat → Nat → Bool) (a : List Nat) (holeIndex topIndex value : Nat) :
    List Nat :=
  push_heap_loop comp topIndex value holeIndex a holeIndex

/-- First loop of libstdc++ `__adjust_heap`: the hole descends to the larger
child while it has two children.  (`holeIndex` and `secondChild` are equal at
every loop head, so one index is kept.)  Returns the vector and the hole. -/
def adjust_heap_loop (comp : Nat → Nat → Bool) (len : Nat) :
    Nat → List Nat → Nat → List Nat × Nat
  | 0, a, secondChild => (a, secondChild)
  | fuel + 1, a, secondChild =>
    if secondChild < (len - 1) / 2 then
      adjust_heap_loop comp len fuel
        (a.set secondChild
          (nth a (if comp (nth a (2 * (secondChild + 1))) (nth a (2 * (secondChild + 1) - 1)) = true
                  then 2 * (secondChild + 1) - 1 else 2 * (secondChild + 1))))
        (if comp (nth a (2 * (secondChild + 1))) (nth a (2 * (secondChild + 1) - 1)) = true
          then 2 * (secondChild + 1) - 1 else 2 * (secondChild + 1))
    else (a, secondChild)

/-- Second part of libstdc++ `__adjust_heap`: when `len` is even and the hole
is the last inner node, it moves to its only child. -/
def adjust_heap_last (len : Nat) (s : List Nat × Nat) : List Nat × Nat :=
  if len % 2 = 0 ∧ s.2 = (len - 2) / 2 then
    (s.1.set s.2 (nth s.1 (2 * (s.2 + 1) - 1)), 2 * (s.2 + 1) - 1)
  else s

/-- The libstdc++ `__adjust_heap (first, holeIndex, len, value, comp)`. -/
def adjust_heap (comp : Nat → Nat → Bool) (a : List Nat) (holeIndex len value : Nat) :
    List Nat :=
  push_heap comp (adjust_heap_last len (adjust_heap_loop comp len len a holeIndex)).1
    (adjust_heap_last len (adjust_heap_loop comp len len a holeIndex)).2 holeIndex value

/-- Loop of libstdc++ `__make_heap`, from index `parent` down to `0`. -/
def make_heap_loop (comp : Nat → Nat → Bool) (len : Nat) : Nat → List Nat → List Nat
  | 0, a => adjust_heap comp a 0 len (nth a 0)
  | parent + 1, a =>
    make_heap_loop comp len parent (adjust_heap comp a (parent + 1) len (nth a (parent + 1)))

/-- The call `std::make_heap (a.begin(), a.end(), comp)`. -/
def make_heap (comp : Nat → Nat → Bool) (a : List Nat) : List Nat :=
  if a.length < 2 then a else make_heap_loop comp a.length ((a.length - 2) / 2) a

/-- The call `std::pop_heap (a.begin(), a.end(), comp)`: the first element goes to
the last position and the former last element is sifted into the rest. -/
def pop_heap (comp : Nat → Nat → Bool) (a : List Nat) : List Nat :=
  if 1 < a.length then
    adjust_heap comp (a.set (a.length - 1) (nth a 0)) 0 (a.length - 1) (nth a (a.length - 1))
  else a

/-- The call `a.pop_back()`. -/
def pop_back (a : List Nat) : List Nat := a.dropLast

/-- Loop of `std::max_element`: `result` moves to position `i` when the element
there compares greater. -/
def max_element_loop (comp : Nat → Nat → Bool) (a : List Nat) : List Nat → Nat → Nat → Nat
  | [], _, result => result
  | x :: rest, i, result =>
    max_element_loop comp a rest (i + 1) (if comp (nth a result) x = true then i else result)

/-- The call `std::max_element (a.cbegin(), a.cend(), comp)` as a position; the
position `a.length` is `a.cend()`. -/
def max_element (comp : Nat → Nat → Bool) (a : List Nat) : Nat :=
  match a with
  | [] => 0
  | _ :: rest => max_element_loop comp a rest 1 0

/-- Loop of `std::min_element`: `result` moves to position `i` when the element
there compares less. -/
def min_element_loop (comp : Nat → Nat → Bool) (a : List Nat) : List Nat → Nat → Nat → Nat
  | [], _, result => result
  | x :: rest, i, result =>
    min_element_loop comp a rest (i + 1) (if comp x (nth a result) = true then i else result)

/-- The call `std::min_element (a.cbegin(), a.cend(), comp)` as a position; the
position `a.length` is `a.cend()`. -/
def min_element (comp : Nat → Nat → Bool) (a : List Nat) : Nat :=
  match a with
  | [] => 0
  | _ :: rest => min_element_loop comp a rest 1 0

/-! ## Data model -/

/-- The fields of `job_t` read by the clustering code. -/
structure job_t where
  /-- Location index `index()` of the job in the matrix. -/
  index : Nat
  /-- Demand `amount.get()`. -/
  amount : Int

/-- The fields of `vehicle_t` read by the clustering code. -/
structure vehicle_t where
  /-- Location index of `start`, when `has_start()`. -/
  start : Option Nat
  /-- Location index of `end`, when `has_end()`. -/
  end_ : Option Nat
  /-- The value `capacity.get()`. -/
  capacity : Int

/-- The parts of `input` read by the clustering code. -/
structure input where
  /-- Jobs `_jobs`. -/
  _jobs : List job_t
  /-- Vehicles `_vehicles`. -/
  _vehicles : List vehicle_t
  /-- The matrix `get_matrix()`: `matrix a b` is `m[a][b]`. -/
  matrix : Nat → Nat → Nat
  /-- The table `_vehicle_to_job_compatibility[v][j]`. -/
  _vehicle_to_job_compatibility : Nat → Nat → Bool

/-- Initialisation policies `INIT_T`. -/
inductive INIT_T where
  | NONE
  | HIGHER_AMOUNT
  | NEAREST
  deriving DecidableEq

/-- Heuristics `CLUSTERING_T`. -/
inductive CLUSTERING_T where
  | PARALLEL
  | SEQUENTIAL
  deriving DecidableEq

/-- What the run depends on besides `input`, the heuristic and the policy. -/
structure config where
  /-- The comparison of `eval_lambda`: `eval ri ci rj cj` is the value of
  `regret_coeff * double(ri) - double(ci) < regret_coeff * double(rj) - double(cj)`. -/
  eval : Nat → Nat → Nat → Nat → Bool
  /-- The constant `std::numeric_limits<cost_t>::max()`. -/
  cost_max : Nat
  /-- Iteration order of `candidates_set` after the insertion of `0 .. J-1`. -/
  set_order : List Nat
  /-- The rank `dangling v` is what a comparator built by
  `higher_amount_init_lambda (v)`, `nearest_init_lambda (v)` or the
  `eval_lambda (v)` of the parallel heuristic reads in place of `v` (lines
  144-155, 218-225 and 392-404): the closure refers to the parameter `v` of
  the enclosing lambda, which is gone when the comparator runs. -/
  dangling : Nat → Nat

/-- The comparison of `eval_lambda` for `regret_coeff = p / q` (with `0 < q`) in
exact arithmetic: `p/q * ri - ci < p/q * rj - cj`. -/
def exact_eval (p q : Nat) (ri ci rj cj : Nat) : Bool :=
  decide (p * ri + q * cj < p * rj + q * ci)

/-- Number of vehicles. -/
def input.V (inp : input) : Nat := inp._vehicles.length

/-- Number of jobs. -/
def input.J (inp : input) : Nat := inp._jobs.length

/-- The value `jobs[j].index()`. -/
def input.loc (inp : input) (j : Nat) : Nat := (inp._jobs.getD j ⟨0, 0⟩).index

/-- The value `jobs[j].amount.get()`. -/
def input.amount (inp : input) (j : Nat) : Int := (inp._jobs.getD j ⟨0, 0⟩).amount

/-- The vehicle `vehicles[v]`. -/
def input.vehicle (inp : input) (v : Nat) : vehicle_t := inp._vehicles.getD v ⟨none, none, 0⟩

/-- A trace record, emitted at each placement (`vehicle;parent->job`), together
with the rank of the job and the value of the maintained cost of the job for
that vehicle at that moment. -/
structure placement where
  /-- Rank of the vehicle. -/
  v : Nat
  /-- Rank of the job. -/
  j : Nat
  /-- The logged parent, `parents[v][j]`. -/
  parent : Nat
  /-- The maintained cost `costs[v][j]` when the job is placed. -/
  cost : Nat
  /-- Whether the placement is a seed. -/
  seed : Bool
  deriving DecidableEq

/-! ## `update_cost` -/

/-- Body of the loop of `update_cost` for candidate `j`. -/
def update_cost_step (from_index : Nat) (inp : input) (cp : (Nat → Nat) × (Nat → Nat)) (j : Nat) :
    (Nat → Nat) × (Nat → Nat) :=
  if min (inp.matrix from_index (inp.loc j)) (inp.matrix (inp.loc j) from_index) < cp.1 j then
    (Function.update cp.1 j
        (min (inp.matrix from_index (inp.loc j)) (inp.matrix (inp.loc j) from_index)),
      Function.update cp.2 j from_index)
  else cp

/-- The function `update_cost (from_index, costs, parents, candidates, jobs, m)`;
returns the new `costs` and `parents`. -/
def update_cost (from_index : Nat) (costs parents : Nat → Nat) (candidates : List Nat)
    (inp : input) : (Nat → Nat) × (Nat → Nat) :=
  candidates.foldl (update_cost_step from_index inp) (costs, parents)

/-- Costs and parents of a vehicle after the updates from its start and end
(lines 97-111 and 424-438), from `costs = max` and `parents = 0`.  A vehicle
with neither start nor end fails `assert(vehicles[v].has_end())`; the tables
are then left as they are. -/
def endpoint_costs (inp : input) (cfg : config) (v : Nat) (candidates : List Nat) :
    (Nat → Nat) × (Nat → Nat) :=
  match (inp.vehicle v).start with
  | some start_index =>
    match (inp.vehicle v).end_ with
    | some end_index =>
      if start_index ≠ end_index then
        update_cost end_index
          (update_cost start_index (fun _ => cfg.cost_max) (fun _ => 0) candidates inp).1
          (update_cost start_index (fun _ => cfg.cost_max) (fun _ => 0) candidates inp).2
          candidates inp
      else update_cost start_index (fun _ => cfg.cost_max) (fun _ => 0) candidates inp
    | none => update_cost start_index (fun _ => cfg.cost_max) (fun _ => 0) candidates inp
  | none =>
    match (inp.vehicle v).end_ with
    | some end_index => update_cost end_index (fun _ => cfg.cost_max) (fun _ => 0) candidates inp
    | none => (fun _ => cfg.cost_max, fun _ => 0)

/-! ## State shared by both heuristics -/

/-- The comparison of `eval_lambda` on two job ranks, for the row of regrets and
the row of costs that it reads. -/
def eval_lambda (cfg : config) (regrets costs : Nat → Nat) (i j : Nat) : Bool :=
  cfg.eval (regrets i) (costs i) (regrets j) (costs j)

/-- The comparison of `higher_amount_init_lambda` for the row of costs that it
reads. -/
def higher_amount_init_lambda (inp : input) (costs : Nat → Nat) (lhs rhs : Nat) : Bool :=
  decide (inp.amount lhs < inp.amount rhs ∨
    (inp.amount lhs = inp.amount rhs ∧ costs lhs < costs rhs))

/-- The comparison of `nearest_init_lambda` for the row of costs that it
reads. -/
def nearest_init_lambda (costs : Nat → Nat) (lhs rhs : Nat) : Bool :=
  decide (costs lhs < costs rhs)

/-- Position `init_job` chosen by the policy among `candidates` (lines 159-169
and 445-455); `candidates.length` stands for `cend()`. -/
def init_job (inp : input) (init : INIT_T) (costs : Nat → Nat) (candidates : List Nat) : Nat :=
  match init with
  | INIT_T.NONE => candidates.length
  | INIT_T.HIGHER_AMOUNT => max_element (higher_amount_init_lambda inp costs) candidates
  | INIT_T.NEAREST => min_element (nearest_init_lambda costs) candidates

/-- The value `std::min (m[a][b], m[b][a])` for the locations of two jobs. -/
def new_cost (inp : input) (job_rank j : Nat) : Nat :=
  min (inp.matrix (inp.loc job_rank) (inp.loc j)) (inp.matrix (inp.loc j) (inp.loc job_rank))

/-! ## Parallel heuristic -/

/-- The variables of `parallel_clustering` and the members of the object it
fills. -/
structure pstate where
  /-- Table `costs[v][j]`. -/
  costs : Nat → Nat → Nat
  /-- Table `parents[v][j]`. -/
  parents : Nat → Nat → Nat
  /-- Vectors `candidates[v]`. -/
  candidates : Nat → List Nat
  /-- Remaining capacities `capacities[v]`. -/
  capacities : Nat → Int
  /-- Table `regrets[v][j]`. -/
  regrets : Nat → Nat → Nat
  /-- Member `clusters[v]`. -/
  clusters : Nat → List Nat
  /-- Member `unassigned`. -/
  unassigned : List Nat
  /-- Member `edges_cost`. -/
  edges_cost : Nat
  /-- Loop flag `candidates_remaining`. -/
  candidates_remaining : Bool
  /-- Trace records emitted so far, oldest first. -/
  trace : List placement

/-- The comparison made by the closure `eval_lambda (v)` of the parallel
heuristic (lines 218-225) when `std::make_heap` or `std::pop_heap` calls it:
it reads the rows of `regrets` and `costs` of the rank `dangling v`. -/
def parallel_eval (cfg : config) (st : pstate) (v : Nat) : Nat → Nat → Bool :=
  eval_lambda cfg (st.regrets (cfg.dangling v)) (st.costs (cfg.dangling v))

/-- Candidates of vehicle `v` (lines 89-95): the compatible job ranks, in
increasing order. -/
def parallel_candidates (inp : input) (v : Nat) : List Nat :=
  if v < inp.V then (List.range inp.J).filter (fun j => inp._vehicle_to_job_compatibility v j)
  else []

/-- The value `current_regret` of lines 126-134. -/
def current_regret (inp : input) (cfg : config) (costs : Nat → Nat → Nat) (v j : Nat) : Nat :=
  (List.range inp.V).foldl
    (fun cur other_v =>
      if v = other_v ∨ costs other_v j = cfg.cost_max then cur else min cur (costs other_v j))
    cfg.cost_max

/-- Table `regrets` after lines 123-137: `current_regret` at the candidates of
each vehicle, `0` elsewhere. -/
def initial_regrets (inp : input) (cfg : config) (costs : Nat → Nat → Nat)
    (candidates : Nat → List Nat) : Nat → Nat → Nat :=
  fun v j => if v < inp.V ∧ j ∈ candidates v then current_regret inp cfg costs v j else 0

/-- State of `parallel_clustering` after line 137, given the member
`unassigned` as the constructor filled it. -/
def parallel_init (inp : input) (cfg : config) (unassigned : List Nat) : pstate where
  costs := fun v => (endpoint_costs inp cfg v (parallel_candidates inp v)).1
  parents := fun v => (endpoint_costs inp cfg v (parallel_candidates inp v)).2
  candidates := parallel_candidates inp
  capacities := fun v => (inp.vehicle v).capacity
  regrets := initial_regrets inp cfg
    (fun v => (endpoint_costs inp cfg v (parallel_candidates inp v)).1) (parallel_candidates inp)
  clusters := fun _ => []
  unassigned := unassigned
  edges_cost := 0
  candidates_remaining := true
  trace := []

/-- Table `regrets` after the loops of lines 191-202 and 306-317: for each `j`
left in the candidates `cands` of vehicle `v` and each other vehicle whose cost
for `j` is not the maximum, the regret is lowered to `new_cost`.  (An entry is
written once for each occurrence of `j`; `min` is idempotent.) -/
def regret_update (inp : input) (cfg : config) (v job_rank : Nat) (cands : List Nat)
    (costs regrets : Nat → Nat → Nat) : Nat → Nat → Nat :=
  fun other_v j =>
    if other_v < inp.V ∧ other_v ≠ v ∧ j ∈ cands ∧ costs other_v j ≠ cfg.cost_max then
      min (regrets other_v j) (new_cost inp job_rank j)
    else regrets other_v j

/-- Vectors `candidates` after the loops of lines 204-213 and 319-326: vehicle
`v` keeps `cands`, the first occurrence of `job_rank` is erased elsewhere. -/
def erase_candidate (inp : input) (v job_rank : Nat) (cands : List Nat)
    (candidates : Nat → List Nat) : Nat → List Nat :=
  fun other_v =>
    if other_v = v then cands
    else if other_v < inp.V then (candidates other_v).erase job_rank
    else candidates other_v

/-- Whether some `candidates[v]` with `v < V` is not empty. -/
def any_candidate (inp : input) (candidates : Nat → List Nat) : Bool :=
  (List.range inp.V).any (fun v => !(candidates v).isEmpty)

/-- Placement of `job_rank` in the cluster of vehicle `v` (lines 173-213 for a
seed, 286-326 in the main loop): `cands` is `candidates[v]` once the job has
been removed from it and `cost` the amount added to `edges_cost`. -/
def parallel_place (inp : input) (cfg : config) (st : pstate) (candidates : Nat → List Nat)
    (v job_rank : Nat) (cands : List Nat) (cost : Nat) (seed : Bool) : pstate where
  costs := Function.update st.costs v
    (update_cost (inp.loc job_rank) (st.costs v) (st.parents v) cands inp).1
  parents := Function.update st.parents v
    (update_cost (inp.loc job_rank) (st.costs v) (st.parents v) cands inp).2
  candidates := erase_candidate inp v job_rank cands candidates
  capacities := Function.update st.capacities v (st.capacities v - inp.amount job_rank)
  regrets := regret_update inp cfg v job_rank cands st.costs st.regrets
  clusters := Function.update st.clusters v (st.clusters v ++ [job_rank])
  unassigned := st.unassigned.erase job_rank
  edges_cost := (st.edges_cost + cost) % (cfg.cost_max + 1)
  candidates_remaining :=
    if seed = true then st.candidates_remaining
    else any_candidate inp (erase_candidate inp v job_rank cands candidates)
  trace := st.trace ++ [⟨v, job_rank, st.parents v job_rank, st.costs v job_rank, seed⟩]

/-- Body of the seeding loop for vehicle `v` (lines 159-214).  The comparator
handed to `std::max_element` or `std::min_element` reads the row of `costs` of
the rank `dangling v`; the placement reads `costs[v]`. -/
def parallel_seed (inp : input) (cfg : config) (init : INIT_T) (st : pstate) (v : Nat) : pstate :=
  if init_job inp init (st.costs (cfg.dangling v)) (st.candidates v) ≠ (st.candidates v).length then
    parallel_place inp cfg st st.candidates v
      (nth (st.candidates v) (init_job inp init (st.costs (cfg.dangling v)) (st.candidates v)))
      ((st.candidates v).eraseIdx
        (init_job inp init (st.costs (cfg.dangling v)) (st.candidates v)))
      (st.costs v
        (nth (st.candidates v) (init_job inp init (st.costs (cfg.dangling v)) (st.candidates v))))
      true
  else st

/-- State after the seeding of lines 157-216. -/
def parallel_seeds (inp : input) (cfg : config) (init : INIT_T) (st : pstate) : pstate :=
  if init ≠ INIT_T.NONE then (List.range inp.V).foldl (parallel_seed inp cfg init) st else st

/-- The variables `capacity_ok`, `best_v`, `best_j`, `best_cost` of a round. -/
structure selection where
  /-- Variable `capacity_ok`. -/
  capacity_ok : Bool
  /-- Variable `best_v`. -/
  best_v : Nat
  /-- Variable `best_j` (not set by the code before the loop; `0` here). -/
  best_j : Nat
  /-- Variable `best_cost`. -/
  best_cost : Nat
  deriving DecidableEq

/-- Body of the selection loop for vehicle `v` (lines 237-258), on the
candidate vectors and the selection so far. -/
def select_step (inp : input) (cfg : config) (st : pstate)
    (acc : (Nat → List Nat) × selection) (v : Nat) : (Nat → List Nat) × selection :=
  if (acc.1 v).isEmpty then acc
  else if inp.amount (nth (make_heap (parallel_eval cfg st v) (acc.1 v)) 0)
        ≤ st.capacities v ∧
      (st.costs v (nth (make_heap (parallel_eval cfg st v) (acc.1 v)) 0)
          < acc.2.best_cost ∨
        (st.costs v (nth (make_heap (parallel_eval cfg st v) (acc.1 v)) 0)
            = acc.2.best_cost ∧
          st.capacities acc.2.best_v < st.capacities v)) then
    (Function.update acc.1 v (make_heap (parallel_eval cfg st v) (acc.1 v)),
      ⟨true, v, nth (make_heap (parallel_eval cfg st v) (acc.1 v)) 0,
        st.costs v (nth (make_heap (parallel_eval cfg st v) (acc.1 v)) 0)⟩)
  else
    (Function.update acc.1 v (make_heap (parallel_eval cfg st v) (acc.1 v)),
      acc.2)

/-- The selection loop of a round (lines 231-259). -/
def select_best (inp : input) (cfg : config) (st : pstate) : (Nat → List Nat) × selection :=
  (List.range inp.V).foldl (select_step inp cfg st) (st.candidates, ⟨false, 0, 0, cfg.cost_max⟩)

/-- Vectors `candidates` after the drop branch (lines 270-280), from the
heapified vectors. -/
def drop_tops (inp : input) (cfg : config) (st : pstate) (cands : Nat → List Nat) :
    Nat → List Nat :=
  fun v =>
    if v < inp.V ∧ !(cands v).isEmpty then
      pop_back (pop_heap (parallel_eval cfg st v) (cands v))
    else cands v

/-- The assignment of a round (lines 286-329), from the heapified vectors and
the selection. -/
def parallel_assign (inp : input) (cfg : config) (st : pstate) (cands : Nat → List Nat)
    (sel : selection) : pstate :=
  parallel_place inp cfg st cands sel.best_v sel.best_j
    (pop_back (pop_heap (parallel_eval cfg st sel.best_v) (cands sel.best_v)))
    sel.best_cost false

/-- One iteration of the main loop (lines 230-329). -/
def parallel_round (inp : input) (cfg : config) (st : pstate) : pstate :=
  if (select_best inp cfg st).2.capacity_ok = false then
    { st with
      candidates := drop_tops inp cfg st (select_best inp cfg st).1
      candidates_remaining := any_candidate inp (drop_tops inp cfg st (select_best inp cfg st).1) }
  else parallel_assign inp cfg st (select_best inp cfg st).1 (select_best inp cfg st).2

/-- The main loop `while (candidates_remaining)`, for at most `fuel` rounds. -/
def parallel_loop (inp : input) (cfg : config) : Nat → pstate → pstate
  | 0, st => st
  | fuel + 1, st =>
    if st.candidates_remaining = true then parallel_loop inp cfg fuel (parallel_round inp cfg st)
    else st

/-- The method `clustering::parallel_clustering`, given the member `unassigned`
as the constructor filled it.  The main loop ends within `2 * J + 1` rounds
(see `parallel_loop_terminates`). -/
def parallel_clustering (inp : input) (cfg : config) (init : INIT_T) (unassigned : List Nat) :
    pstate :=
  parallel_loop inp cfg (2 * inp.J + 1)
    (parallel_seeds inp cfg init (parallel_init inp cfg unassigned))

/-! ## Sequential heuristic -/

/-- Entry `vehicles_to_job_costs[v][j]` (lines 353-366). -/
def vehicles_to_job_costs (inp : input) (cfg : config) (v j : Nat) : Nat :=
  match (inp.vehicle v).end_ with
  | some end_index =>
    min
      (match (inp.vehicle v).start with
        | some start_index => min cfg.cost_max (inp.matrix start_index (inp.loc j))
        | none => cfg.cost_max)
      (inp.matrix (inp.loc j) end_index)
  | none =>
    match (inp.vehicle v).start with
    | some start_index => min cfg.cost_max (inp.matrix start_index (inp.loc j))
    | none => cfg.cost_max

/-- The loop of lines 380-385, from index `i` for `n` iterations. -/
def sequential_regrets_loop (inp : input) (cfg : config) :
    Nat → Nat → (Nat → Nat → Nat) → Nat → Nat → Nat
  | 0, _, regrets => regrets
  | n + 1, i, regrets =>
    sequential_regrets_loop inp cfg n (i + 1)
      (Function.update regrets (inp.V - i)
        (fun j =>
          if j < inp.J then
            min (regrets (inp.V - i + 1) j) (vehicles_to_job_costs inp cfg (inp.V - i + 1) j)
          else regrets (inp.V - i) j))

/-- Table `regrets` of the sequential heuristic (lines 372-386). -/
def sequential_regrets (inp : input) (cfg : config) : Nat → Nat → Nat :=
  if 1 < inp.V then
    sequential_regrets_loop inp cfg (inp.V - 2) 3
      (Function.update (fun _ _ => 0) (inp.V - 2)
        (fun j => if j < inp.J then vehicles_to_job_costs inp cfg (inp.V - 1) j else 0))
  else fun _ _ => 0

/-- The members of the object and the set `candidates_set`, in its iteration
order. -/
structure sstate where
  /-- Set `candidates_set`. -/
  candidates_set : List Nat
  /-- Member `clusters[v]`. -/
  clusters : Nat → List Nat
  /-- Member `unassigned`. -/
  unassigned : List Nat
  /-- Member `edges_cost`. -/
  edges_cost : Nat
  /-- Trace records emitted so far, oldest first. -/
  trace : List placement

/-- The variables local to the body of the loop over vehicles, with the
members of the object. -/
structure vstate where
  /-- Vector `candidates`. -/
  candidates : List Nat
  /-- Vector `costs`. -/
  costs : Nat → Nat
  /-- Vector `parents`. -/
  parents : Nat → Nat
  /-- Variable `capacity`. -/
  capacity : Int
  /-- The members of the object and `candidates_set`. -/
  g : sstate

/-- Local candidates of vehicle `v` (lines 409-415). -/
def sequential_candidates (inp : input) (v : Nat) (candidates_set : List Nat) : List Nat :=
  candidates_set.filter
    (fun i => inp._vehicle_to_job_compatibility v i && decide (inp.amount i ≤ (inp.vehicle v).capacity))

/-- State for vehicle `v` after line 441. -/
def sequential_begin (inp : input) (cfg : config) (v : Nat) (g : sstate) : vstate where
  candidates := sequential_candidates inp v g.candidates_set
  costs := (endpoint_costs inp cfg v (sequential_candidates inp v g.candidates_set)).1
  parents := (endpoint_costs inp cfg v (sequential_candidates inp v g.candidates_set)).2
  capacity := (inp.vehicle v).capacity
  g := g

/-- Placement of `job_rank` in the cluster of vehicle `v` (lines 459-474 for a
seed, 491-504 in the main loop): `cands` is the vector `candidates` handed to
`update_cost` and `cost` the amount added to `edges_cost`. -/
def sequential_place (inp : input) (cfg : config) (v : Nat) (s : vstate) (job_rank : Nat)
    (cands : List Nat) (cost : Nat) (seed : Bool) : vstate where
  candidates := cands
  costs := (update_cost (inp.loc job_rank) s.costs s.parents cands inp).1
  parents := (update_cost (inp.loc job_rank) s.costs s.parents cands inp).2
  capacity := s.capacity - inp.amount job_rank
  g :=
    { candidates_set := s.g.candidates_set.erase job_rank
      clusters := Function.update s.g.clusters v (s.g.clusters v ++ [job_rank])
      unassigned := s.g.unassigned.erase job_rank
      edges_cost := (s.g.edges_cost + cost) % (cfg.cost_max + 1)
      trace := s.g.trace ++ [⟨v, job_rank, s.parents job_rank, s.costs job_rank, seed⟩] }

/-- Seeding of vehicle `v` (lines 444-476).  The comparator handed to
`std::max_element` or `std::min_element` reads the row of
`vehicles_to_job_costs` of the rank `dangling v`; the placement reads
`vehicles_to_job_costs[v]`. -/
def sequential_seed (inp : input) (cfg : config) (init : INIT_T) (v : Nat) (s : vstate) : vstate :=
  if init ≠ INIT_T.NONE ∧
      init_job inp init (vehicles_to_job_costs inp cfg (cfg.dangling v)) s.candidates ≠
        s.candidates.length then
    sequential_place inp cfg v s
      (nth s.candidates
        (init_job inp init (vehicles_to_job_costs inp cfg (cfg.dangling v)) s.candidates))
      (s.candidates.eraseIdx
        (init_job inp init (vehicles_to_job_costs inp cfg (cfg.dangling v)) s.candidates))
      (vehicles_to_job_costs inp cfg v
        (nth s.candidates
          (init_job inp init (vehicles_to_job_costs inp cfg (cfg.dangling v)) s.candidates)))
      true
  else s

/-- The conditional of lines 490-505 on the heapified vector `heap`. -/
def sequential_try (inp : input) (cfg : config) (v : Nat) (s : vstate) (heap : List Nat) : vstate :=
  if inp.amount (nth heap 0) ≤ s.capacity then
    sequential_place inp cfg v s (nth heap 0) heap (s.costs (nth heap 0)) false
  else { s with candidates := heap }

/-- Lines 507-508: `pop_heap` under the current costs, then `pop_back`. -/
def sequential_pop (cfg : config) (regrets : Nat → Nat) (s : vstate) : vstate :=
  { s with candidates := pop_back (pop_heap (eval_lambda cfg regrets s.costs) s.candidates) }

/-- One iteration of the loop `while (!candidates.empty())` (lines 486-508). -/
def sequential_step (inp : input) (cfg : config) (regrets : Nat → Nat) (v : Nat) (s : vstate) :
    vstate :=
  sequential_pop cfg regrets
    (sequential_try inp cfg v s (make_heap (eval_lambda cfg regrets s.costs) s.candidates))

/-- The loop `while (!candidates.empty())`, for at most `fuel` iterations. -/
def sequential_loop (inp : input) (cfg : config) (regrets : Nat → Nat) (v : Nat) :
    Nat → vstate → vstate
  | 0, s => s
  | fuel + 1, s =>
    if s.candidates.isEmpty then s
    else sequential_loop inp cfg regrets v fuel (sequential_step inp cfg regrets v s)

/-- Body of the loop over vehicles (lines 407-509).  The inner loop runs once
for each candidate left after seeding (see `sequential_loop_length`). -/
def sequential_vehicle (inp : input) (cfg : config) (init : INIT_T) (g : sstate) (v : Nat) :
    sstate :=
  (sequential_loop inp cfg (sequential_regrets inp cfg v) v
    (sequential_seed inp cfg init v (sequential_begin inp cfg v g)).candidates.length
    (sequential_seed inp cfg init v (sequential_begin inp cfg v g))).g

/-- The members of the object and `candidates_set` when the loop over vehicles
starts, given the member `unassigned` as the constructor filled it. -/
def sequential_start (cfg : config) (unassigned : List Nat) : sstate where
  candidates_set := cfg.set_order
  clusters := fun _ => []
  unassigned := unassigned
  edges_cost := 0
  trace := []

/-- The method `clustering::sequential_clustering`, given the member
`unassigned` as the constructor filled it. -/
def sequential_clustering (inp : input) (cfg : config) (init : INIT_T) (unassigned : List Nat) :
    sstate :=
  (List.range inp.V).foldl (sequential_vehicle inp cfg init) (sequential_start cfg unassigned)

/-! ## The constructor -/

/-- The public members of `clustering` once constructed. -/
structure clustering where
  /-- Member `clusters`, one vector for each vehicle. -/
  clusters : List (List Nat)
  /-- Member `edges_cost`. -/
  edges_cost : Nat
  /-- Member `unassigned`. -/
  unassigned : List Nat
  deriving DecidableEq

set_option linter.dupNamespace false in
/-- The constructor `clustering::clustering (input, t, i, c)`: every job rank
starts unassigned, then the heuristic `t` runs. -/
def clustering.clustering (inp : input) (cfg : config) (t : CLUSTERING_T) (i : INIT_T) :
    clustering :=
  match t with
  | CLUSTERING_T.PARALLEL =>
    { clusters := (List.range inp.V).map (parallel_clustering inp cfg i (List.range inp.J)).clusters
      edges_cost := (parallel_clustering inp cfg i (List.range inp.J)).edges_cost
      unassigned := (parallel_clustering inp cfg i (List.range inp.J)).unassigned }
  | CLUSTERING_T.SEQUENTIAL =>
    { clusters :=
        (List.range inp.V).map (sequential_clustering inp cfg i (List.range inp.J)).clusters
      edges_cost := (sequential_clustering inp cfg i (List.range inp.J)).edges_cost
      unassigned := (sequential_clustering inp cfg i (List.range inp.J)).unassigned }

/-! ## Test inputs -/

/-- Square matrix given by rows; entries outside are `0`. -/
def matrix_of (rows : List (List Nat)) (a b : Nat) : Nat := (rows.getD a []).getD b 0

/-- Scenario 2 of the specification: depot `0`, jobs at `1`, `2`, `3`. -/
def scenario2 : input where
  _jobs := [⟨1, 1⟩, ⟨2, 1⟩, ⟨3, 1⟩]
  _vehicles := [⟨some 0, some 0, 100⟩]
  matrix := matrix_of [[0, 10, 20, 15], [10, 0, 10, 5], [20, 10, 0, 5], [15, 5, 5, 0]]
  _vehicle_to_job_compatibility := fun _ _ => true

/-- A configuration with `regret_coeff = 1`, 32-bit costs, the set iterated in
decreasing order (as GNU libstdc++ iterates a `std::unordered_set` filled
with `0 .. J-1`), and
comparators that read the rank of their own vehicle. -/
def cfg32 (J : Nat) : config where
  eval := exact_eval 1 1
  cost_max := 4294967295
  set_order := (List.range J).reverse
  dangling := id

/-- The favourite of vehicle `v` in a round: the front of `candidates[v]` after
`std::make_heap` under the comparator built by `eval_lambda (v)`. -/
def top_candidate (cfg : config) (st : pstate) (v : Nat) : Nat :=
  nth (make_heap (parallel_eval cfg st v) (st.candidates v)) 0

/-- Vehicle `v` has a candidate and its favourite fits the remaining capacity. -/
def feasible_top (inp : input) (cfg : config) (st : pstate) (v : Nat) : Prop :=
  st.candidates v ≠ [] ∧ inp.amount (top_candidate cfg st v) ≤ st.capacities v

/-- The job ranks `0 .. J-1` are split between `unassigned` and the clusters of
the vehicles: listing `unassigned` and then every `clusters[v]` gives each rank
exactly once. -/
def partition (inp : input) (unassigned : List Nat) (clusters : Nat → List Nat) : Prop :=
  (unassigned ++ (List.range inp.V).flatMap clusters).Perm (List.range inp.J)

/-- States of `parallel_clustering`: after line 137, after the body of the
seeding loop, and after an iteration of the main loop. -/
inductive parallel_reach (inp : input) (cfg : config) (init : INIT_T) : pstate → Prop where
  | start : parallel_reach inp cfg init (parallel_init inp cfg (List.range inp.J))
  | seed (st : pstate) (v : Nat) :
    parallel_reach inp cfg init st → parallel_reach inp cfg init (parallel_seed inp cfg init st v)
  | round (st : pstate) :
    parallel_reach inp cfg init st → parallel_reach inp cfg init (parallel_round inp cfg st)

/-- Facts kept by every placement and every drop of the parallel heuristic. -/
structure parallel_inv (inp : input) (st : pstate) : Prop where
  /-- No rank occurs twice in a candidate vector. -/
  nodup : ∀ v, (st.candidates v).Nodup
  /-- A candidate of `v` is unassigned and compatible with `v`, and `v < V`. -/
  cand : ∀ v j, j ∈ st.candidates v →
    v < inp.V ∧ j ∈ st.unassigned ∧ inp._vehicle_to_job_compatibility v j = true
  /-- The ranks are split between `unassigned` and the clusters. -/
  part : partition inp st.unassigned st.clusters
  /-- A member of a cluster is compatible with its vehicle. -/
  clus : ∀ v j, j ∈ st.clusters v → inp._vehicle_to_job_compatibility v j = true

/-- State after the seeding loop has handled the vehicles `0 .. k-1`. -/
def parallel_seeded (inp : input) (cfg : config) (init : INIT_T) (k : Nat) : pstate :=
  (List.range k).foldl (parallel_seed inp cfg init) (parallel_init inp cfg (List.range inp.J))

/-- State after `n` iterations of the main loop body. -/
def parallel_rounds (inp : input) (cfg : config) (init : INIT_T) (n : Nat) : pstate :=
  (parallel_round inp cfg)^[n]
    (parallel_seeds inp cfg init (parallel_init inp cfg (List.range inp.J)))

/-- Members of the object once the loop over vehicles has handled the vehicles
`0 .. k-1`. -/
def sequential_vehicles (inp : input) (cfg : config) (init : INIT_T) (k : Nat) : sstate :=
  (List.range k).foldl (sequential_vehicle inp cfg init)
    (sequential_start cfg (List.range inp.J))

/-- State for vehicle `v` after its seeding (lines 407-476). -/
def sequential_seeded (inp : input) (cfg : config) (init : INIT_T) (v : Nat) : vstate :=
  sequential_seed inp cfg init v (sequential_begin inp cfg v (sequential_vehicles inp cfg init v))

/-- State for vehicle `v` after its seeding and `n` iterations of its loop (or
all of them when the loop ends earlier). -/
def sequential_steps (inp : input) (cfg : config) (init : INIT_T) (v n : Nat) : vstate :=
  sequential_loop inp cfg (sequential_regrets inp cfg v) v n (sequential_seeded inp cfg init v)

/-- Facts kept by the members of the object between two vehicles of the
sequential heuristic. -/
structure sstate_inv (inp : input) (g : sstate) : Prop where
  /-- The set `candidates_set` holds the unassigned ranks, each once. -/
  set : g.candidates_set.Perm g.unassigned
  /-- The ranks are split between `unassigned` and the clusters. -/
  part : partition inp g.unassigned g.clusters
  /-- A member of a cluster is compatible with its vehicle. -/
  clus : ∀ w j, j ∈ g.clusters w → inp._vehicle_to_job_compatibility w j = true

/-- Facts kept by every placement and every pop for vehicle `v` of the
sequential heuristic. -/
structure sequential_inv (inp : input) (v : Nat) (s : vstate) : Prop where
  /-- No rank occurs twice in `candidates`. -/
  nodup : s.candidates.Nodup
  /-- A candidate is in `candidates_set` and compatible with `v`. -/
  cand : ∀ j, j ∈ s.candidates →
    j ∈ s.g.candidates_set ∧ inp._vehicle_to_job_compatibility v j = true
  /-- The facts on the members of the object. -/
  glob : sstate_inv inp s.g

/-- The cluster of vehicle `v` as the trace tells it: the jobs of the records
of `v`, oldest first. -/
def trace_cluster (trace : List placement) (v : Nat) : List Nat :=
  (trace.filter (fun p => decide (p.v = v))).map placement.j

/-- Sum, over the placements of the trace, of the maintained cost of the job
for its vehicle at the moment of the placement. -/
def maintained_sum (trace : List placement) : Nat := (trace.map placement.cost).sum

/-- What a placement of the sequential heuristic adds to `edges_cost`: the entry
of `vehicles_to_job_costs` for a seed, the maintained cost otherwise. -/
def charged (inp : input) (cfg : config) (p : placement) : Nat :=
  if p.seed = true then vehicles_to_job_costs inp cfg p.v p.j else p.cost

/-- Sum of `charged` over the placements of the trace. -/
def charged_sum (inp : input) (cfg : config) (trace : List placement) : Nat :=
  (trace.map (charged inp cfg)).sum

/-- One vehicle of capacity `5` based at location `0` and one job of demand
`10` at location `1`, at distance `7` in both directions. -/
def overload : input where
  _jobs := [⟨1, 10⟩]
  _vehicles := [⟨some 0, some 0, 5⟩]
  matrix := matrix_of [[0, 7], [7, 0]]
  _vehicle_to_job_compatibility := fun _ _ => true

/-- One vehicle with a start at location `0` and no end, one job at location
`1`; going to the job costs `5`, coming back `3`. -/
def one_way : input where
  _jobs := [⟨1, 1⟩]
  _vehicles := [⟨some 0, none, 10⟩]
  matrix := matrix_of [[0, 5], [3, 0]]
  _vehicle_to_job_compatibility := fun _ _ => true

/-- The input with its matrix replaced by `M`. -/
def with_matrix (inp : input) (M : Nat → Nat → Nat) : input := { inp with matrix := M }

/-- The matrix `M` with the entry `M[a0][b0]` replaced by `x`. -/
def raise (M : Nat → Nat → Nat) (a0 b0 x : Nat) (a b : Nat) : Nat :=
  if a = a0 ∧ b = b0 then x else M a b

/-- Two vehicles starting at locations `0` and `1`, without end, and two jobs
at locations `2` and `3`, both at distance `10` from location `0`; from
location `1` the first job costs `5` and the second `3`, and both cost `1`
in the other direction. -/
def two_starts : input where
  _jobs := [⟨2, 1⟩, ⟨3, 1⟩]
  _vehicles := [⟨some 0, none, 10⟩, ⟨some 1, none, 10⟩]
  matrix := matrix_of [[0, 0, 10, 10], [0, 0, 5, 3], [10, 1, 0, 10], [10, 1, 10, 0]]
  _vehicle_to_job_compatibility := fun _ _ => true

/-- The distance used by the clustering between location `a` and the location
of job `j`: the cheaper of the two directions. -/
def dist (inp : input) (a j : Nat) : Nat :=
  min (inp.matrix a (inp.loc j)) (inp.matrix (inp.loc j) a)

/-- The selection made by the round that follows `n` iterations of the main
loop of the parallel heuristic. -/
def round_selection (inp : input) (cfg : config) (init : INIT_T) (n : Nat) : selection :=
  (select_best inp cfg (parallel_rounds inp cfg init n)).2

/-- Two vehicles of capacities `10` and `5` based at location `0` and one job
of demand `3` at location `1`, at distance `7`. -/
def tie_large_first : input where
  _jobs := [⟨1, 3⟩]
  _vehicles := [⟨some 0, some 0, 10⟩, ⟨some 0, some 0, 5⟩]
  matrix := matrix_of [[0, 7], [7, 0]]
  _vehicle_to_job_compatibility := fun _ _ => true

/-- As `tie_large_first`, with the vehicle of capacity `5` first. -/
def tie_small_first : input where
  _jobs := [⟨1, 3⟩]
  _vehicles := [⟨some 0, some 0, 5⟩, ⟨some 0, some 0, 10⟩]
  matrix := matrix_of [[0, 7], [7, 0]]
  _vehicle_to_job_compatibility := fun _ _ => true

/-- Length of the longest of the vectors `candidates[v]`, `v < V`. -/
def max_candidates (inp : input) (candidates : Nat → List Nat) : Nat :=
  ((List.range inp.V).map (fun v => (candidates v).length)).foldr max 0

/-- Number of rounds that place a job among the first `n` rounds of the main
loop of the parallel heuristic. -/
def assigning_rounds (inp : input) (cfg : config) (init : INIT_T) (n : Nat) : Nat :=
  ((List.range n).filter (fun m => (round_selection inp cfg init m).capacity_ok)).length

/-- The first `len` elements of `a` form a heap below index `p` for the key
`key`: an element at an index whose parent is `p` or later has a key not above
that of its parent. -/
def heap_from (key : Nat → Int) (a : List Nat) (len p : Nat) : Prop :=
  ∀ c, 0 < c → c < len → p ≤ (c - 1) / 2 → key (nth a c) ≤ key (nth a ((c - 1) / 2))

/-- Index `h` is `p` or lies below `p` in the tree of indices. -/
def is_desc (p h : Nat) : Prop := ∃ k, (fun i => (i - 1) / 2)^[k] h = p

/-- The heap condition below `p` with a hole at `h`: it holds between indices
other than `h`, and the children of `h` have keys not above that of the parent
of `h`. -/
def hole_inv (key : Nat → Int) (a : List Nat) (len p h : Nat) : Prop :=
  (∀ c, 0 < c → c < len → p ≤ (c - 1) / 2 → c ≠ h → (c - 1) / 2 ≠ h →
    key (nth a c) ≤ key (nth a ((c - 1) / 2))) ∧
  (p < h → ∀ c, 0 < c → c < len → (c - 1) / 2 = h →
    key (nth a c) ≤ key (nth a ((h - 1) / 2)))

/-- Facts kept by the parallel heuristic on an input with one vehicle whose
capacity covers the total demand. -/
structure single_inv (inp : input) (cfg : config) (st : pstate) : Prop where
  /-- An unassigned job is a candidate of the vehicle. -/
  un : ∀ j, j ∈ st.unassigned → j ∈ st.candidates 0
  /-- The demands of the unassigned jobs fit the remaining capacity. -/
  cap : (st.unassigned.map inp.amount).sum ≤ st.capacities 0
  /-- The regret of a candidate is the maximum of `cost_t`. -/
  reg : ∀ j, j ∈ st.candidates 0 → st.regrets 0 j = cfg.cost_max

/-- Facts kept by the sequential heuristic on an input with one vehicle whose
capacity covers the total demand. -/
structure single_seq_inv (inp : input) (s : vstate) : Prop where
  /-- The facts kept for every input. -/
  base : sequential_inv inp 0 s
  /-- An unassigned job is a candidate of the vehicle. -/
  un : ∀ j, j ∈ s.g.unassigned → j ∈ s.candidates
  /-- The demands of the unassigned jobs fit the remaining capacity. -/
  cap : (s.g.unassigned.map inp.amount).sum ≤ s.capacity

/-- The key ordered by `exact_eval p q`: `p * regret - q * cost`. -/
def exact_key (p q : Nat) (regrets costs : Nat → Nat) (j : Nat) : Int :=
  (p : Int) * (regrets j : Int) - (q : Int) * (costs j : Int)

/-- One vehicle based at location `0` and two jobs at locations `1` and `2`;
location `1` is at distance `10` from the base, location `2` is at the maximum
of `cost_t` from both other locations. -/
def far_job : input where
  _jobs := [⟨1, 1⟩, ⟨2, 1⟩]
  _vehicles := [⟨some 0, some 0, 10⟩]
  matrix := matrix_of
    [[0, 10, 4294967295], [10, 0, 4294967295], [4294967295, 4294967295, 0]]
  _vehicle_to_job_compatibility := fun _ _ => true

/-- One vehicle with a start at location `0` and no end, two jobs at locations
`1` and `2`; going to location `1` costs `10` and coming back `1`, location
`2` is at `5` in both directions, the jobs are `10` apart. -/
def cheap_return : input where
  _jobs := [⟨1, 1⟩, ⟨2, 1⟩]
  _vehicles := [⟨some 0, none, 10⟩]
  matrix := matrix_of [[0, 10, 5], [1, 0, 10], [5, 10, 0]]
  _vehicle_to_job_compatibility := fun _ _ => true

/-- The favourite among the candidates of the current vehicle of the sequential
heuristic: the front after `std::make_heap` under `eval_lambda`. -/
def sequential_top (cfg : config) (regrets : Nat → Nat) (s : vstate) : Nat :=
  nth (make_heap (eval_lambda cfg regrets s.costs) s.candidates) 0

/-- Two vehicles based at location `0` and two jobs at locations `1` and `2`;
the three locations are `3000000000` apart, which is below the maximum of a
32-bit `cost_t`.  Vehicle `0` is compatible with job `0` only and vehicle `1`
with job `1` only, so that no candidate vector ever holds two jobs: no
comparator is called and the order of `candidates_set` has no effect. -/
def far_pair : input where
  _jobs := [⟨1, 1⟩, ⟨2, 1⟩]
  _vehicles := [⟨some 0, some 0, 10⟩, ⟨some 0, some 0, 10⟩]
  matrix := matrix_of
    [[0, 3000000000, 3000000000], [3000000000, 0, 3000000000], [3000000000, 3000000000, 0]]
  _vehicle_to_job_compatibility := fun v j => decide (v = j)

/-- A configuration with `regret_coeff = 0`, 32-bit costs, the set iterated in
decreasing order, and comparators that read the rank of their own vehicle. -/
def cfg_zero (J : Nat) : config where
  eval := exact_eval 0 1
  cost_max := 4294967295
  set_order := (List.range J).reverse
  dangling := id

/-- Location `n` is bound to vehicle `v`: it is its start, its end, or the
location of a member of its cluster. -/
def bound_node (inp : input) (clusters : Nat → List Nat) (v n : Nat) : Prop :=
  (inp.vehicle v).start = some n ∨ (inp.vehicle v).end_ = some n ∨
    ∃ i, i ∈ clusters v ∧ inp.loc i = n

/-- The job that the policy `init` picks for vehicle `v` of the sequential
heuristic in state `s` (lines 445-455 and 458). -/
def sequential_pick (inp : input) (cfg : config) (init : INIT_T) (v : Nat) (s : vstate) : Nat :=
  nth s.candidates
    (init_job inp init (vehicles_to_job_costs inp cfg (cfg.dangling v)) s.candidates)

/-- The job that the policy `init` picks for vehicle `v` of the parallel
heuristic in state `st` (lines 159-169 and 172). -/
def parallel_pick (inp : input) (cfg : config) (init : INIT_T) (st : pstate) (v : Nat) : Nat :=
  nth (st.candidates v) (init_job inp init (st.costs (cfg.dangling v)) (st.candidates v))

/-! ## The output document (`utils/output_json.cpp`) -/

namespace output_json

/-- A `rapidjson::Value`: the members of an object and the elements of an array
are kept in insertion order; a `double` is kept as its bit pattern. -/
inductive json where
  | null : json
  | uint (n : Nat) : json
  | double (bits : Nat) : json
  | string (s : String) : json
  | array (elements : List json) : json
  | object (members : List (String × json)) : json

/-- The call `value.AddMember (name, member, allocator)` on an object: the
member is appended after the existing ones. -/
def AddMember (value : json) (name : String) (member : json) : json :=
  match value with
  | json.object members => json.object (members ++ [(name, member)])
  | other => other

/-- The call `value.PushBack (element, allocator)` on an array: the element is
appended after the existing ones. -/
def PushBack (value : json) (element : json) : json :=
  match value with
  | json.array elements => json.array (elements ++ [element])
  | other => other

/-- Members after `value[name].SetString (s)`: the value of the first member
called `name` becomes the string `s`. -/
def set_first (name : String) (s : String) : List (String × json) → List (String × json)
  | [] => []
  | (key, member) :: rest =>
    if key = name then (key, json.string s) :: rest
    else (key, member) :: set_first name s rest

/-- The statement `value[name].SetString (s.c_str(), s.size())` on an object. -/
def SetString (value : json) (name : String) (s : String) : json :=
  match value with
  | json.object members => json.object (set_first name s members)
  | other => other

/-- The fields of `location_t` that the output reads: `has_coordinates()`,
`lon()` and `lat()`. -/
structure location_t where
  /-- Result of `has_coordinates()`. -/
  has_coordinates : Bool
  /-- Result of `lon()`. -/
  lon : Nat
  /-- Result of `lat()`. -/
  lat : Nat

/-- The fields of `job_t` that the output reads: a location with an `id`. -/
structure job_t extends location_t where
  /-- Member `id`. -/
  id : Nat

/-- The enumeration `TYPE` of the steps. -/
inductive TYPE where
  | START
  | JOB
  | END
  deriving DecidableEq

/-- The fields of `step` that the output reads. -/
structure step where
  /-- Member `type`. -/
  type : TYPE
  /-- Member `location`. -/
  location : location_t
  /-- Member `job`. -/
  job : Nat

/-- The fields of `route_t` that the output reads. -/
structure route_t where
  /-- Member `vehicle`. -/
  vehicle : Nat
  /-- Member `cost`. -/
  cost : Nat
  /-- Member `distance`. -/
  distance : Nat
  /-- Member `duration`. -/
  duration : Nat
  /-- Member `geometry`. -/
  geometry : String
  /-- Member `steps`. -/
  steps : List step

/-- The fields of `computing_times_t` that the output reads. -/
structure computing_times_t where
  /-- Member `loading`. -/
  loading : Nat
  /-- Member `solving`. -/
  solving : Nat
  /-- Member `routing`. -/
  routing : Nat

/-- The fields of `summary_t` that the output reads. -/
structure summary_t where
  /-- Member `cost`. -/
  cost : Nat
  /-- Member `unassigned`. -/
  unassigned : Nat
  /-- Member `distance`. -/
  distance : Nat
  /-- Member `duration`. -/
  duration : Nat
  /-- Member `computing_times`. -/
  computing_times : computing_times_t

/-- The fields of `solution` that the output reads. -/
structure solution where
  /-- Member `code`. -/
  code : Nat
  /-- Member `error`. -/
  error : String
  /-- Member `summary`. -/
  summary : summary_t
  /-- Member `unassigned`. -/
  unassigned : List job_t
  /-- Member `routes`. -/
  routes : List route_t

/-- The function `to_json (const location_t&, allocator)`. -/
def to_json_location (loc : location_t) : json :=
  PushBack (PushBack (json.array []) (json.double loc.lon)) (json.double loc.lat)

/-- The function `to_json (const step&, allocator)`. -/
def to_json_step (s : step) : json :=
  let json_step := AddMember (json.object []) "type" json.null
  let str_type :=
    match s.type with
    | TYPE.START => "start"
    | TYPE.END => "end"
    | TYPE.JOB => "job"
  let json_step := SetString json_step "type" str_type
  let json_step :=
    if s.location.has_coordinates = true then
      AddMember json_step "location" (to_json_location s.location)
    else json_step
  if s.type = TYPE.JOB then AddMember json_step "job" (json.uint s.job) else json_step

/-- The function `to_json (const computing_times_t&, geometry, allocator)`. -/
def to_json_computing_times (ct : computing_times_t) (geometry : Bool) : json :=
  let json_ct := AddMember (json.object []) "loading" (json.uint ct.loading)
  let json_ct := AddMember json_ct "solving" (json.uint ct.solving)
  if geometry = true then AddMember json_ct "routing" (json.uint ct.routing) else json_ct

/-- The function `to_json (const route_t&, allocator)`. -/
def to_json_route (route : route_t) : json :=
  let json_route := AddMember (json.object []) "vehicle" (json.uint route.vehicle)
  let json_route := AddMember json_route "cost" (json.uint route.cost)
  let json_route :=
    if route.geometry ≠ "" then
      AddMember (AddMember json_route "distance" (json.uint route.distance))
        "duration" (json.uint route.duration)
    else json_route
  let json_steps :=
    route.steps.foldl (fun json_steps s => PushBack json_steps (to_json_step s)) (json.array [])
  let json_route := AddMember json_route "steps" json_steps
  if route.geometry ≠ "" then
    SetString (AddMember json_route "geometry" json.null) "geometry" route.geometry
  else json_route

/-- The function `to_json (const summary_t&, geometry, allocator)`. -/
def to_json_summary (summary : summary_t) (geometry : Bool) : json :=
  let json_summary := AddMember (json.object []) "cost" (json.uint summary.cost)
  let json_summary := AddMember json_summary "unassigned" (json.uint summary.unassigned)
  let json_summary :=
    if geometry = true then
      AddMember (AddMember json_summary "distance" (json.uint summary.distance))
        "duration" (json.uint summary.duration)
    else json_summary
  AddMember json_summary "computing_times"
    (to_json_computing_times summary.computing_times geometry)

/-- Body of the loop over `sol.unassigned` (lines 27-34): the object for one
job is pushed at the back of `json_unassigned`. -/
def push_unassigned (json_unassigned : json) (job : job_t) : json :=
  let json_job := AddMember (json.object []) "id" (json.uint job.id)
  let json_job :=
    if job.has_coordinates = true then
      AddMember json_job "location" (to_json_location job.tolocation_t)
    else json_job
  PushBack json_unassigned json_job

/-- The function `to_json (const solution&, geometry)`. -/
def to_json (sol : solution) (geometry : Bool) : json :=
  let json_output := AddMember (json.object []) "code" (json.uint sol.code)
  if sol.code ≠ 0 then
    SetString (AddMember json_output "error" json.null) "error" sol.error
  else
    let json_output := AddMember json_output "summary" (to_json_summary sol.summary geometry)
    let json_unassigned := sol.unassigned.foldl push_unassigned (json.array [])
    let json_output := AddMember json_output "unassigned" json_unassigned
    let json_routes :=
      sol.routes.foldl (fun json_routes route => PushBack json_routes (to_json_route route))
        (json.array [])
    AddMember json_output "routes" json_routes

/-- The object pushed for one unassigned job. -/
def unassigned_entry (job : job_t) : json :=
  if job.has_coordinates = true then
    json.object [("id", json.uint job.id), ("location", to_json_location job.tolocation_t)]
  else json.object [("id", json.uint job.id)]

end output_json

/-- The entry `costs j` is the least distance between job `j` and the nodes
bound to vehicle `v`: a bound node is at that distance and none is nearer. -/
def least_cost (inp : input) (clusters : Nat → List Nat) (costs : Nat → Nat) (v j : Nat) : Prop :=
  (∃ n, bound_node inp clusters v n ∧ costs j = dist inp n j) ∧
    ∀ m, bound_node inp clusters v m → costs j ≤ dist inp m j

/-- The record `p` of a trace is consistent with the records `pre` before it:
its parent is the start or the end of its vehicle or the location of a job
placed earlier in the same cluster, and the recorded cost is the distance
between that parent and the job. -/
def parent_consistent (inp : input) (pre : List placement) (p : placement) : Prop :=
  ((inp.vehicle p.v).start = some p.parent ∨ (inp.vehicle p.v).end_ = some p.parent ∨
      ∃ q, q ∈ pre ∧ q.v = p.v ∧ inp.loc q.j = p.parent) ∧
    dist inp p.parent p.j = p.cost

/-- Every record of the trace is consistent with the records before it. -/
def trace_consistent (inp : input) (trace : List placement) : Prop :=
  ∀ pre p post, trace = pre ++ p :: post → parent_consistent inp pre p

/-- The baseline of vehicle `v` for job `j` in the words of the specification:
the least of `m[start][loc j]`, when `v` has a start, and `m[loc j][end]`, when
`v` has an end; there is none for a vehicle with neither. -/
def baseline (inp : input) (v j : Nat) : Option Nat :=
  match (inp.vehicle v).start, (inp.vehicle v).end_ with
  | some s, some e => some (min (inp.matrix s (inp.loc j)) (inp.matrix (inp.loc j) e))
  | some s, none => some (inp.matrix s (inp.loc j))
  | none, some e => some (inp.matrix (inp.loc j) e)
  | none, none => none

/-- Three vehicles based at location `0`, of capacity `10`, and one job at
location `1`, at distance `7` in both directions. -/
def three_vehicles : input where
  _jobs := [⟨1, 3⟩]
  _vehicles := [⟨some 0, some 0, 10⟩, ⟨some 0, some 0, 10⟩, ⟨some 0, some 0, 10⟩]
  matrix := matrix_of [[0, 7], [7, 0]]
  _vehicle_to_job_compatibility := fun _ _ => true

/-- Sum of the demands of the jobs of `clusters[v]`. -/
def cluster_demand (inp : input) (clusters : Nat → List Nat) (v : Nat) : Int :=
  ((clusters v).map inp.amount).sum

/-- Facts on the capacity kept by the sequential heuristic while it fills the
cluster of vehicle `v`. -/
structure capacity_inv (inp : input) (v : Nat) (s : vstate) : Prop where
  /-- The remaining capacity is not negative. -/
  nonneg : 0 ≤ s.capacity
  /-- The remaining capacity is the capacity less the demands of the cluster. -/
  left : s.capacity = (inp.vehicle v).capacity - cluster_demand inp s.g.clusters v
  /-- The clusters of the later vehicles are empty. -/
  later : ∀ w, v < w → s.g.clusters w = []
  /-- The demands of every other cluster are within the capacity. -/
  other : ∀ w, w < inp.V → w ≠ v → cluster_demand inp s.g.clusters w ≤ (inp.vehicle w).capacity

/-- Two vehicles of capacities `c0` and `c1` that start at the locations `0`
and `1`, and three jobs of demand `1` at the locations `2`, `3` and `4`, all
compatible.  The matrix is symmetric: the jobs are at `1`, `5` and `9` from
location `0` and at `12`, `8` and `3` from location `1`; every other pair of
locations is `20` apart. -/
def two_bases (c0 c1 : Int) : input where
  _jobs := [⟨2, 1⟩, ⟨3, 1⟩, ⟨4, 1⟩]
  _vehicles := [⟨some 0, none, c0⟩, ⟨some 1, none, c1⟩]
  matrix := matrix_of
    [[0, 20, 1, 5, 9], [20, 0, 12, 8, 3], [1, 12, 0, 20, 20], [5, 8, 20, 0, 20],
      [9, 3, 20, 20, 0]]
  _vehicle_to_job_compatibility := fun _ _ => true

/-- As `cfg32`, with comparators that read the rank `0` in place of the rank of
their vehicle. -/
def cfg32_stale (J : Nat) : config where
  eval := exact_eval 1 1
  cost_max := 4294967295
  set_order := (List.range J).reverse
  dangling := fun _ => 0

/-! ## Properties -/

theorem nth_eq_getElem (a : List Nat) (i : Nat) (h : i < a.length) : nth a i = a[i] := by
  simp [nth, h]

theorem nth_set (a : List Nat) (i j x : Nat) :
    nth (a.set i x) j = if i = j ∧ i < a.length then x else nth a j := by
  unfold nth
  simp only [List.getD_eq_getElem?_getD, List.getElem?_set]
  by_cases hij : i = j
  · subst hij
    by_cases hi : i < a.length
    · simp [hi]
    · simp [hi, List.getElem?_eq_none (Nat.le_of_not_lt hi)]
  · simp [hij]

theorem nth_mem (a : List Nat) (i : Nat) (h : i < a.length) : nth a i ∈ a := by
  rw [nth_eq_getElem a i h]
  exact List.getElem_mem h

theorem set_hole_perm (a : List Nat) (i j x : Nat) (hi : i < a.length) (hj : j < a.length)
    (hij : i ≠ j) : ((a.set i (nth a j)).set j x).Perm (a.set i x) := by
  rw [List.perm_iff_count]
  intro b
  rw [List.count_set _ _ _ _ (by simpa using hj), List.count_set _ _ _ _ hi,
    List.count_set _ _ _ _ hi]
  simp only [List.getElem_set_ne hij, nth_eq_getElem a j hj]
  omega

theorem push_heap_loop_length (comp : Nat → Nat → Bool) (top value : Nat) :
    ∀ (fuel : Nat) (a : List Nat) (hole : Nat),
      (push_heap_loop comp top value fuel a hole).length = a.length := by
  intro fuel
  induction fuel with
  | zero => intro a hole; simp [push_heap_loop]
  | succ n ih =>
    intro a hole
    unfold push_heap_loop
    split
    · rw [ih]; simp
    · simp

theorem push_heap_loop_perm (comp : Nat → Nat → Bool) (top value : Nat) :
    ∀ (fuel : Nat) (a : List Nat) (hole : Nat), hole < a.length →
      (push_heap_loop comp top value fuel a hole).Perm (a.set hole value) := by
  intro fuel
  induction fuel with
  | zero => intro a hole _; simp [push_heap_loop]
  | succ n ih =>
    intro a hole hh
    unfold push_heap_loop
    split
    · rename_i hc
      have hp : (hole - 1) / 2 < hole := by omega
      refine (ih _ _ (by simp; omega)).trans ?_
      exact set_hole_perm a hole _ value hh (by omega) (by omega)
    · exact List.Perm.refl _

theorem push_heap_loop_frame (comp : Nat → Nat → Bool) (top value : Nat) :
    ∀ (fuel : Nat) (a : List Nat) (hole i : Nat), hole < i →
      nth (push_heap_loop comp top value fuel a hole) i = nth a i := by
  intro fuel
  induction fuel with
  | zero => intro a hole i hi; simp [push_heap_loop, nth_set]; omega
  | succ n ih =>
    intro a hole i hi
    unfold push_heap_loop
    split
    · rw [ih _ _ _ (by omega), nth_set]; simp; omega
    · rw [nth_set]; simp; omega

theorem adjust_heap_loop_length (comp : Nat → Nat → Bool) (len : Nat) :
    ∀ (fuel : Nat) (a : List Nat) (s : Nat),
      (adjust_heap_loop comp len fuel a s).1.length = a.length := by
  intro fuel
  induction fuel with
  | zero => intro a s; simp [adjust_heap_loop]
  | succ n ih =>
    intro a s
    unfold adjust_heap_loop
    split
    · rw [ih]; simp
    · rfl

theorem adjust_heap_loop_hole (comp : Nat → Nat → Bool) (len : Nat) (hlen : 0 < len) :
    ∀ (fuel : Nat) (a : List Nat) (s : Nat), s < len →
      s ≤ (adjust_heap_loop comp len fuel a s).2 ∧ (adjust_heap_loop comp len fuel a s).2 < len := by
  intro fuel
  induction fuel with
  | zero => intro a s hs; simp [adjust_heap_loop, hs]
  | succ n ih =>
    intro a s hs
    unfold adjust_heap_loop
    split
    · rename_i hc
      split
      · have := ih (a.set s (nth a (2 * (s + 1) - 1))) (2 * (s + 1) - 1) (by omega)
        omega
      · have := ih (a.set s (nth a (2 * (s + 1)))) (2 * (s + 1)) (by omega)
        omega
    · exact ⟨le_refl _, hs⟩

theorem adjust_heap_loop_perm (comp : Nat → Nat → Bool) (len value : Nat) :
    ∀ (fuel : Nat) (a : List Nat) (s : Nat), len ≤ a.length → s < len →
      ((adjust_heap_loop comp len fuel a s).1.set (adjust_heap_loop comp len fuel a s).2 value).Perm
        (a.set s value) := by
  intro fuel
  induction fuel with
  | zero => intro a s _ _; simp [adjust_heap_loop]
  | succ n ih =>
    intro a s hl hs
    unfold adjust_heap_loop
    split
    · rename_i hc
      split
      · refine (ih _ _ (by simpa using hl) (by omega)).trans ?_
        exact set_hole_perm a s _ value (by omega) (by omega) (by omega)
      · refine (ih _ _ (by simpa using hl) (by omega)).trans ?_
        exact set_hole_perm a s _ value (by omega) (by omega) (by omega)
    · exact List.Perm.refl _

theorem adjust_heap_loop_frame (comp : Nat → Nat → Bool) (len : Nat) :
    ∀ (fuel : Nat) (a : List Nat) (s i : Nat), (i < s ∨ len ≤ i) →
      nth (adjust_heap_loop comp len fuel a s).1 i = nth a i := by
  intro fuel
  induction fuel with
  | zero => intro a s i _; simp [adjust_heap_loop]
  | succ n ih =>
    intro a s i hi
    unfold adjust_heap_loop
    split
    · rename_i hc
      split
      · rw [ih _ _ _ (by omega), nth_set]; simp; omega
      · rw [ih _ _ _ (by omega), nth_set]; simp; omega
    · rfl

theorem adjust_heap_length (comp : Nat → Nat → Bool) (a : List Nat) (hole len value : Nat) :
    (adjust_heap comp a hole len value).length = a.length := by
  unfold adjust_heap push_heap adjust_heap_last
  rw [push_heap_loop_length]
  split
  · simp [adjust_heap_loop_length]
  · simp [adjust_heap_loop_length]

theorem adjust_heap_perm (comp : Nat → Nat → Bool) (a : List Nat) (hole len value : Nat)
    (hl : len ≤ a.length) (hh : hole < len) :
    (adjust_heap comp a hole len value).Perm (a.set hole value) := by
  have h1 := adjust_heap_loop_hole comp len (by omega) len a hole hh
  have h2 := adjust_heap_loop_perm comp len value len a hole hl hh
  have h3 := adjust_heap_loop_length comp len len a hole
  unfold adjust_heap push_heap adjust_heap_last
  split
  · rename_i hc
    refine (push_heap_loop_perm _ _ _ _ _ _ (by simp; omega)).trans ?_
    refine (set_hole_perm _ _ _ value (by omega) (by omega) (by omega)).trans h2
  · exact (push_heap_loop_perm _ _ _ _ _ _ (by omega)).trans h2

theorem adjust_heap_frame (comp : Nat → Nat → Bool) (a : List Nat) (hole len value i : Nat)
    (hh : hole < len) (hi : len ≤ i) :
    nth (adjust_heap comp a hole len value) i = nth a i := by
  have h1 := adjust_heap_loop_hole comp len (by omega) len a hole hh
  have h2 := adjust_heap_loop_frame comp len len a hole i (Or.inr hi)
  unfold adjust_heap push_heap adjust_heap_last
  split
  · rename_i hc
    rw [push_heap_loop_frame _ _ _ _ _ _ _ (by simp; omega), nth_set]
    simp only [h2]
    simp; omega
  · rw [push_heap_loop_frame _ _ _ _ _ _ _ (by omega), h2]

theorem make_heap_loop_length (comp : Nat → Nat → Bool) (len : Nat) :
    ∀ (p : Nat) (a : List Nat), (make_heap_loop comp len p a).length = a.length := by
  intro p
  induction p with
  | zero => intro a; simp [make_heap_loop, adjust_heap_length]
  | succ n ih => intro a; unfold make_heap_loop; rw [ih, adjust_heap_length]

theorem set_nth_self : ∀ (a : List Nat) (i : Nat), a.set i (nth a i) = a := by
  intro a
  induction a with
  | nil => intro i; simp
  | cons x t ih =>
    intro i
    cases i with
    | zero => simp [nth]
    | succ n =>
      have := ih n
      simp only [nth, List.getD_cons_succ, List.set_cons_succ] at this ⊢
      rw [this]

theorem make_heap_loop_perm (comp : Nat → Nat → Bool) (len : Nat) :
    ∀ (p : Nat) (a : List Nat), len ≤ a.length → p < len →
      (make_heap_loop comp len p a).Perm a := by
  intro p
  induction p with
  | zero =>
    intro a hl hp
    unfold make_heap_loop
    have := adjust_heap_perm comp a 0 len (nth a 0) hl hp
    rwa [set_nth_self] at this
  | succ n ih =>
    intro a hl hp
    unfold make_heap_loop
    have h := adjust_heap_perm comp a (n + 1) len (nth a (n + 1)) hl hp
    rw [set_nth_self] at h
    exact (ih _ (by rw [adjust_heap_length]; exact hl) (by omega)).trans h

theorem make_heap_perm (comp : Nat → Nat → Bool) (a : List Nat) : (make_heap comp a).Perm a := by
  unfold make_heap
  split
  · exact List.Perm.refl _
  · exact make_heap_loop_perm comp a.length _ a (le_refl _) (by omega)

theorem make_heap_length (comp : Nat → Nat → Bool) (a : List Nat) :
    (make_heap comp a).length = a.length := (make_heap_perm comp a).length_eq

theorem pop_heap_length (comp : Nat → Nat → Bool) (a : List Nat) :
    (pop_heap comp a).length = a.length := by
  unfold pop_heap
  split
  · rw [adjust_heap_length]; simp
  · rfl

theorem pop_heap_perm (comp : Nat → Nat → Bool) (a : List Nat) : (pop_heap comp a).Perm a := by
  unfold pop_heap
  split
  · rename_i h
    refine (adjust_heap_perm comp _ 0 (a.length - 1) _ (by simp) (by omega)).trans ?_
    have := set_hole_perm a (a.length - 1) 0 (nth a (a.length - 1)) (by omega) (by omega) (by omega)
    rw [set_nth_self] at this
    exact this
  · exact List.Perm.refl _

theorem pop_heap_last (comp : Nat → Nat → Bool) (a : List Nat) :
    nth (pop_heap comp a) (a.length - 1) = nth a 0 := by
  unfold pop_heap
  split
  · rename_i h
    rw [adjust_heap_frame _ _ _ _ _ _ (by omega) (le_refl _), nth_set]
    rw [if_pos ⟨rfl, by omega⟩]
  · rename_i h
    have : a.length - 1 = 0 := by omega
    rw [this]

/-- What `pop_heap` followed by `pop_back` keeps is a rearrangement of the vector without its
first element. -/
theorem pop_back_pop_heap_perm (comp : Nat → Nat → Bool) (a : List Nat) :
    (pop_back (pop_heap comp a)).Perm a.tail := by
  cases a with
  | nil => simp [pop_heap, pop_back]
  | cons x t =>
    have hne : pop_heap comp (x :: t) ≠ [] := by
      intro h
      have := pop_heap_length comp (x :: t)
      rw [h] at this; simp at this
    have hlast : (pop_heap comp (x :: t)).getLast hne = x := by
      have h1 := pop_heap_last comp (x :: t)
      have hl := pop_heap_length comp (x :: t)
      rw [List.getLast_eq_getElem]
      rw [nth_eq_getElem _ _ (by rw [hl]; simp)] at h1
      simp only [hl]
      simpa [nth] using h1
    have h2 := List.dropLast_append_getLast hne
    rw [hlast] at h2
    have h3 := pop_heap_perm comp (x :: t)
    rw [← h2] at h3
    have h4 : (x :: (pop_heap comp (x :: t)).dropLast).Perm (x :: t) :=
      (List.perm_append_singleton x _).symm.trans h3
    simpa [pop_back] using (List.perm_cons x).1 h4

theorem max_element_loop_lt (comp : Nat → Nat → Bool) (a : List Nat) :
    ∀ (rest : List Nat) (i r : Nat), r < i → i + rest.length = a.length →
      max_element_loop comp a rest i r < a.length := by
  intro rest
  induction rest with
  | nil => intro i r hr hl; simp [max_element_loop] at hl ⊢; omega
  | cons x t ih =>
    intro i r hr hl
    unfold max_element_loop
    simp only [List.length_cons] at hl
    split
    · exact ih _ _ (by omega) (by omega)
    · exact ih _ _ (by omega) (by omega)

theorem max_element_lt (comp : Nat → Nat → Bool) (a : List Nat) (h : a ≠ []) :
    max_element comp a < a.length := by
  cases a with
  | nil => exact absurd rfl h
  | cons x t =>
    unfold max_element
    exact max_element_loop_lt comp (x :: t) t 1 0 (by omega) (by simp; omega)

theorem min_element_loop_lt (comp : Nat → Nat → Bool) (a : List Nat) :
    ∀ (rest : List Nat) (i r : Nat), r < i → i + rest.length = a.length →
      min_element_loop comp a rest i r < a.length := by
  intro rest
  induction rest with
  | nil => intro i r hr hl; simp [min_element_loop] at hl ⊢; omega
  | cons x t ih =>
    intro i r hr hl
    unfold min_element_loop
    simp only [List.length_cons] at hl
    split
    · exact ih _ _ (by omega) (by omega)
    · exact ih _ _ (by omega) (by omega)

theorem min_element_lt (comp : Nat → Nat → Bool) (a : List Nat) (h : a ≠ []) :
    min_element comp a < a.length := by
  cases a with
  | nil => exact absurd rfl h
  | cons x t =>
    unfold min_element
    exact min_element_loop_lt comp (x :: t) t 1 0 (by omega) (by simp; omega)

theorem init_job_le (inp : input) (init : INIT_T) (costs : Nat → Nat) (a : List Nat) :
    init_job inp init costs a ≤ a.length := by
  cases a with
  | nil => cases init <;> simp [init_job, max_element, min_element]
  | cons x t =>
    cases init
    · simp [init_job]
    · show max_element _ (x :: t) ≤ _
      exact Nat.le_of_lt (max_element_lt _ (x :: t) (by simp))
    · show min_element _ (x :: t) ≤ _
      exact Nat.le_of_lt (min_element_lt _ (x :: t) (by simp))

theorem nth_cons_eraseIdx_perm : ∀ (a : List Nat) (i : Nat), i < a.length →
    (nth a i :: a.eraseIdx i).Perm a := by
  intro a
  induction a with
  | nil => intro i h; simp at h
  | cons x t ih =>
    intro i h
    cases i with
    | zero => simp [nth]
    | succ n =>
      have h1 := ih n (by simpa using h)
      simp only [nth, List.getD_cons_succ, List.eraseIdx_cons_succ] at h1 ⊢
      exact (List.Perm.swap _ _ _).trans (h1.cons x)

theorem nth_zero_cons_tail (a : List Nat) (h : a ≠ []) : nth a 0 :: a.tail = a := by
  cases a with
  | nil => exact absurd rfl h
  | cons x t => simp [nth]

theorem flatMap_update_perm (f : Nat → List Nat) (v x : Nat) :
    ∀ (l : List Nat), l.Nodup → v ∈ l →
      (l.flatMap (Function.update f v (f v ++ [x]))).Perm (x :: l.flatMap f) := by
  intro l
  induction l with
  | nil => intro _ h; simp at h
  | cons y t ih =>
    intro hn hv
    rw [List.nodup_cons] at hn
    simp only [List.flatMap_cons]
    by_cases hy : y = v
    · subst hy
      have ht : t.flatMap (Function.update f y (f y ++ [x])) = t.flatMap f := by
        apply List.flatMap_congr
        intro w hw
        have : w ≠ y := fun h => hn.1 (h ▸ hw)
        simp [Function.update, this]
      rw [ht]
      simp only [Function.update_same]
      rw [List.append_assoc]
      exact (List.perm_middle).trans (List.Perm.refl _) |>.trans (by simp)
    · have hv2 : v ∈ t := by
        rcases List.mem_cons.1 hv with h | h
        · exact absurd h.symm hy
        · exact h
      rw [Function.update_noteq hy]
      exact ((ih hn.2 hv2).append_left (f y)).trans List.perm_middle

theorem make_heap_nil (comp : Nat → Nat → Bool) : make_heap comp [] = [] := by
  simp [make_heap]

theorem isEmpty_false_iff (a : List Nat) : a.isEmpty = false ↔ a ≠ [] := by
  cases a <;> simp

/-- Result of the selection loop over the vehicles `0 .. n-1`. -/
theorem select_fold (inp : input) (cfg : config) (st : pstate) :
    ∀ n : Nat,
      (∀ v, ((List.range n).foldl (select_step inp cfg st)
          (st.candidates, ⟨false, 0, 0, cfg.cost_max⟩)).1 v =
        if v < n then make_heap (parallel_eval cfg st v) (st.candidates v)
        else st.candidates v) ∧
      (((List.range n).foldl (select_step inp cfg st)
          (st.candidates, ⟨false, 0, 0, cfg.cost_max⟩)).2.capacity_ok = true →
        (∃ sel, sel = ((List.range n).foldl (select_step inp cfg st)
          (st.candidates, ⟨false, 0, 0, cfg.cost_max⟩)).2 ∧
        sel.best_v < n ∧ feasible_top inp cfg st sel.best_v ∧
        sel.best_j = top_candidate cfg st sel.best_v ∧
        sel.best_cost = st.costs sel.best_v sel.best_j ∧
        ∀ v, v < n → feasible_top inp cfg st v →
          sel.best_cost ≤ st.costs v (top_candidate cfg st v) ∧
          (st.costs v (top_candidate cfg st v) = sel.best_cost →
            st.capacities v ≤ st.capacities sel.best_v))) ∧
      (((List.range n).foldl (select_step inp cfg st)
          (st.candidates, ⟨false, 0, 0, cfg.cost_max⟩)).2.capacity_ok = false →
        (∃ sel, sel = ((List.range n).foldl (select_step inp cfg st)
          (st.candidates, ⟨false, 0, 0, cfg.cost_max⟩)).2 ∧
        sel.best_v = 0 ∧ sel.best_j = 0 ∧ sel.best_cost = cfg.cost_max ∧
        ∀ v, v < n → feasible_top inp cfg st v →
          cfg.cost_max ≤ st.costs v (top_candidate cfg st v) ∧
          (st.costs v (top_candidate cfg st v) = cfg.cost_max →
            st.capacities v ≤ st.capacities 0))) := by
  intro n
  induction n with
  | zero =>
    refine ⟨fun v => by simp, fun h => by simp at h, fun _ => ⟨_, rfl, rfl, rfl, rfl, ?_⟩⟩
    intro v hv; omega
  | succ n ih =>
    rw [List.range_succ, List.foldl_append]
    simp only [List.foldl_cons, List.foldl_nil]
    generalize (List.range n).foldl (select_step inp cfg st)
      (st.candidates, ⟨false, 0, 0, cfg.cost_max⟩) = acc at ih ⊢
    obtain ⟨ih1, ih2, ih3⟩ := ih
    have hn : acc.1 n = st.candidates n := by rw [ih1 n]; simp
    have hfe : ∀ v, v < n + 1 → feasible_top inp cfg st v → v ≠ n → v < n := by
      intro v hv _ hne; omega
    unfold select_step
    rw [hn]
    by_cases he : (st.candidates n).isEmpty = true
    · -- nothing to consider for this vehicle
      rw [if_pos he]
      have he2 : st.candidates n = [] := by simpa using he
      have hnf : ¬ feasible_top inp cfg st n := fun h => h.1 he2
      refine ⟨?_, ?_, ?_⟩
      · intro v
        rw [ih1 v]
        by_cases hv : v < n
        · simp [hv, Nat.lt_succ_of_lt hv]
        · by_cases hvn : v = n
          · subst hvn; simp [he2, make_heap_nil]
          · have : ¬ v < n + 1 := by omega
            simp [hv, this]
      · intro hok
        obtain ⟨sel, hs, h1, h2, h3, h4, h5⟩ := ih2 hok
        refine ⟨sel, hs, by omega, h2, h3, h4, ?_⟩
        intro v hv hf
        by_cases hvn : v = n
        · subst hvn; exact absurd hf hnf
        · exact h5 v (by omega) hf
      · intro hok
        obtain ⟨sel, hs, h1, h2, h3, h5⟩ := ih3 hok
        refine ⟨sel, hs, h1, h2, h3, ?_⟩
        intro v hv hf
        by_cases hvn : v = n
        · subst hvn; exact absurd hf hnf
        · exact h5 v (by omega) hf
    · rw [if_neg he]
      have he2 : st.candidates n ≠ [] := by simpa using he
      have hfst : ∀ (s : selection) (v : Nat),
          (Function.update acc.1 n
            (make_heap (parallel_eval cfg st n) (st.candidates n)), s).1 v =
          if v < n + 1 then
            make_heap (parallel_eval cfg st v) (st.candidates v)
          else st.candidates v := by
        intro s v
        by_cases hvn : v = n
        · subst hvn; simp
        · simp only [Function.update_noteq hvn]
          rw [ih1 v]
          by_cases hv : v < n
          · simp [hv, Nat.lt_succ_of_lt hv]
          · have : ¬ v < n + 1 := by omega
            simp [hv, this]
      have htop : nth (make_heap (parallel_eval cfg st n) (st.candidates n)) 0
          = top_candidate cfg st n := rfl
      rw [htop]
      split
      · rename_i hsel
        refine ⟨hfst _, ?_, fun h => by simp at h⟩
        intro _
        refine ⟨_, rfl, by simp, ⟨he2, hsel.1⟩, rfl, rfl, ?_⟩
        intro v hv hf
        simp only
        by_cases hvn : v = n
        · subst hvn; simp
        · have hv' : v < n := by omega
          cases hok : acc.2.capacity_ok with
          | true =>
            obtain ⟨sel, hs, h1, h2, h3, h4, h5⟩ := ih2 hok
            subst hs
            have := h5 v hv' hf
            rcases hsel.2 with h | h
            · constructor
              · omega
              · intro; omega
            · constructor
              · omega
              · intro; omega
          | false =>
            obtain ⟨sel, hs, h1, h2, h3, h5⟩ := ih3 hok
            subst hs
            have := h5 v hv' hf
            rw [h3, h1] at hsel
            rcases hsel.2 with h | h
            · constructor
              · omega
              · intro; omega
            · constructor
              · omega
              · intro; omega
      · rename_i hsel
        refine ⟨hfst _, ?_, ?_⟩
        · intro hok
          obtain ⟨sel, hs, h1, h2, h3, h4, h5⟩ := ih2 hok
          refine ⟨sel, hs, by omega, h2, h3, h4, ?_⟩
          intro v hv hf
          by_cases hvn : v = n
          · subst hvn
            subst hs
            have hsel' := hsel
            rw [not_and_or] at hsel'
            rcases hsel' with h | h
            · exact absurd hf.2 h
            · rw [not_or, not_and_or] at h
              constructor
              · omega
              · intro heq
                rcases h.2 with h' | h'
                · omega
                · omega
          · exact h5 v (by omega) hf
        · intro hok
          obtain ⟨sel, hs, h1, h2, h3, h5⟩ := ih3 hok
          refine ⟨sel, hs, h1, h2, h3, ?_⟩
          intro v hv hf
          by_cases hvn : v = n
          · subst hvn
            subst hs
            have hsel' := hsel
            rw [h3, h1] at hsel'
            rw [not_and_or] at hsel'
            rcases hsel' with h | h
            · exact absurd hf.2 h
            · rw [not_or, not_and_or] at h
              constructor
              · omega
              · intro heq
                rcases h.2 with h' | h'
                · omega
                · omega
          · exact h5 v (by omega) hf

theorem select_best_fst (inp : input) (cfg : config) (st : pstate) (v : Nat) :
    (select_best inp cfg st).1 v =
      if v < inp.V then make_heap (parallel_eval cfg st v) (st.candidates v)
      else st.candidates v :=
  (select_fold inp cfg st inp.V).1 v

theorem select_best_perm (inp : input) (cfg : config) (st : pstate) (v : Nat) :
    ((select_best inp cfg st).1 v).Perm (st.candidates v) := by
  rw [select_best_fst]
  split
  · exact make_heap_perm _ _
  · exact List.Perm.refl _

theorem select_best_ok (inp : input) (cfg : config) (st : pstate)
    (h : (select_best inp cfg st).2.capacity_ok = true) :
    (select_best inp cfg st).2.best_v < inp.V ∧
    feasible_top inp cfg st (select_best inp cfg st).2.best_v ∧
    (select_best inp cfg st).2.best_j = top_candidate cfg st (select_best inp cfg st).2.best_v ∧
    (select_best inp cfg st).2.best_cost =
      st.costs (select_best inp cfg st).2.best_v (select_best inp cfg st).2.best_j ∧
    ∀ v, v < inp.V → feasible_top inp cfg st v →
      (select_best inp cfg st).2.best_cost ≤ st.costs v (top_candidate cfg st v) ∧
      (st.costs v (top_candidate cfg st v) = (select_best inp cfg st).2.best_cost →
        st.capacities v ≤ st.capacities (select_best inp cfg st).2.best_v) := by
  obtain ⟨sel, hs, h1, h2, h3, h4, h5⟩ := (select_fold inp cfg st inp.V).2.1 h
  have hs' : sel = (select_best inp cfg st).2 := hs
  rw [← hs']
  exact ⟨h1, h2, h3, h4, h5⟩

theorem select_best_none (inp : input) (cfg : config) (st : pstate)
    (h : (select_best inp cfg st).2.capacity_ok = false) :
    ∀ v, v < inp.V → feasible_top inp cfg st v →
      cfg.cost_max ≤ st.costs v (top_candidate cfg st v) ∧
      (st.costs v (top_candidate cfg st v) = cfg.cost_max →
        st.capacities v ≤ st.capacities 0) := by
  obtain ⟨sel, hs, h1, h2, h3, h5⟩ := (select_fold inp cfg st inp.V).2.2 h
  exact h5

theorem parallel_init_inv (inp : input) (cfg : config) :
    parallel_inv inp (parallel_init inp cfg (List.range inp.J)) := by
  refine ⟨?_, ?_, ?_, ?_⟩
  · intro v
    simp only [parallel_init, parallel_candidates]
    split
    · exact (List.nodup_range _).filter _
    · exact List.nodup_nil
  · intro v j hj
    simp only [parallel_init, parallel_candidates] at hj ⊢
    split at hj
    · rename_i hv
      rw [List.mem_filter] at hj
      exact ⟨hv, hj.1, hj.2⟩
    · simp at hj
  · have h0 : ∀ l : List Nat, (l.flatMap fun _ => ([] : List Nat)) = [] := by
      intro l; induction l with
      | nil => rfl
      | cons x t ih => simp [List.flatMap_cons, ih]
    simp [partition, parallel_init, h0]
  · intro v j hj
    simp [parallel_init] at hj

theorem parallel_place_inv (inp : input) (cfg : config) (st : pstate)
    (candidates : Nat → List Nat) (v job_rank : Nat) (cands : List Nat) (cost : Nat)
    (seed : Bool) (h : parallel_inv inp st)
    (hc : ∀ w, (candidates w).Perm (st.candidates w))
    (hj : (job_rank :: cands).Perm (candidates v)) :
    parallel_inv inp (parallel_place inp cfg st candidates v job_rank cands cost seed) := by
  have hjm : job_rank ∈ st.candidates v :=
    (hc v).subset (hj.subset (List.mem_cons_self _ _))
  obtain ⟨hv, hju, hjc⟩ := h.cand v job_rank hjm
  have hnd : (job_rank :: cands).Nodup := (hj.trans (hc v)).nodup_iff.2 (h.nodup v)
  rw [List.nodup_cons] at hnd
  refine ⟨?_, ?_, ?_, ?_⟩
  · intro w
    simp only [parallel_place, erase_candidate]
    split
    · exact hnd.2
    · split
      · exact ((hc w).nodup_iff.2 (h.nodup w)).erase _
      · exact (hc w).nodup_iff.2 (h.nodup w)
  · intro w j hjw
    simp only [parallel_place, erase_candidate] at hjw ⊢
    split at hjw
    · rename_i hw
      subst hw
      have hne : j ≠ job_rank := fun e => hnd.1 (e ▸ hjw)
      have hm : j ∈ st.candidates w := (hc w).subset (hj.subset (List.mem_cons_of_mem _ hjw))
      obtain ⟨a, b, c⟩ := h.cand w j hm
      exact ⟨a, (List.mem_erase_of_ne hne).2 b, c⟩
    · split at hjw
      · have hnw := (hc w).nodup_iff.2 (h.nodup w)
        rw [hnw.mem_erase_iff] at hjw
        obtain ⟨a, b, c⟩ := h.cand w j ((hc w).subset hjw.2)
        exact ⟨a, (List.mem_erase_of_ne hjw.1).2 b, c⟩
      · rename_i hw
        exact absurd (h.cand w j ((hc w).subset hjw)).1 hw
  · have hp := h.part
    unfold partition at hp ⊢
    simp only [parallel_place]
    have h1 := flatMap_update_perm st.clusters v job_rank (List.range inp.V)
      (List.nodup_range _) (List.mem_range.2 hv)
    have h2 : st.unassigned.Perm (job_rank :: st.unassigned.erase job_rank) :=
      List.perm_cons_erase hju
    refine ((List.Perm.append_left _ h1).trans ?_).trans hp
    refine List.perm_middle.trans ?_
    exact (List.Perm.append_right _ h2.symm)
  · intro w j hjw
    simp only [parallel_place] at hjw
    by_cases hw : w = v
    · subst hw
      rw [Function.update_same] at hjw
      rcases List.mem_append.1 hjw with h' | h'
      · exact h.clus w j h'
      · rw [List.mem_singleton] at h'
        rw [h']; exact hjc
    · rw [Function.update_noteq hw] at hjw
      exact h.clus w j hjw

theorem parallel_seed_inv (inp : input) (cfg : config) (init : INIT_T) (st : pstate) (v : Nat)
    (h : parallel_inv inp st) : parallel_inv inp (parallel_seed inp cfg init st v) := by
  unfold parallel_seed
  split
  · rename_i hne
    have hlt : init_job inp init (st.costs (cfg.dangling v)) (st.candidates v) < (st.candidates v).length :=
      lt_of_le_of_ne (init_job_le _ _ _ _) hne
    exact parallel_place_inv inp cfg st st.candidates v _ _ _ true h
      (fun w => List.Perm.refl _) (nth_cons_eraseIdx_perm _ _ hlt)
  · exact h

theorem pop_back_pop_heap_subperm (comp : Nat → Nat → Bool) (a : List Nat) :
    (pop_back (pop_heap comp a)).Subperm a :=
  (pop_back_pop_heap_perm comp a).subperm.trans (List.tail_sublist a).subperm

theorem drop_tops_subperm (inp : input) (cfg : config) (st : pstate) (v : Nat) :
    (drop_tops inp cfg st (select_best inp cfg st).1 v).Subperm (st.candidates v) := by
  unfold drop_tops
  split
  · exact (pop_back_pop_heap_subperm _ _).trans (select_best_perm inp cfg st v).subperm
  · exact (select_best_perm inp cfg st v).subperm

theorem best_cons_perm (inp : input) (cfg : config) (st : pstate)
    (h : (select_best inp cfg st).2.capacity_ok = true) :
    ((select_best inp cfg st).2.best_j ::
      pop_back (pop_heap (parallel_eval cfg st (select_best inp cfg st).2.best_v)
        ((select_best inp cfg st).1 (select_best inp cfg st).2.best_v))).Perm
      ((select_best inp cfg st).1 (select_best inp cfg st).2.best_v) := by
  obtain ⟨h1, h2, h3, _, _⟩ := select_best_ok inp cfg st h
  have hne : (select_best inp cfg st).1 (select_best inp cfg st).2.best_v ≠ [] := by
    intro he
    have := (select_best_perm inp cfg st (select_best inp cfg st).2.best_v)
    rw [he] at this
    exact h2.1 (List.Perm.nil_eq this).symm
  have hb : (select_best inp cfg st).2.best_j =
      nth ((select_best inp cfg st).1 (select_best inp cfg st).2.best_v) 0 := by
    rw [h3, select_best_fst, if_pos h1]; rfl
  rw [hb]
  refine ((pop_back_pop_heap_perm _ _).cons _).trans ?_
  rw [nth_zero_cons_tail _ hne]

theorem parallel_round_inv (inp : input) (cfg : config) (st : pstate)
    (h : parallel_inv inp st) : parallel_inv inp (parallel_round inp cfg st) := by
  unfold parallel_round
  split
  · refine ⟨?_, ?_, h.part, h.clus⟩
    · intro v
      obtain ⟨l, hl1, hl2⟩ := drop_tops_subperm inp cfg st v
      exact hl1.nodup_iff.1 (hl2.nodup (h.nodup v))
    · intro v j hj
      exact h.cand v j ((drop_tops_subperm inp cfg st v).subset hj)
  · rename_i hok
    have hok' : (select_best inp cfg st).2.capacity_ok = true := by simpa using hok
    exact parallel_place_inv inp cfg st _ _ _ _ _ false h (select_best_perm inp cfg st)
      (best_cons_perm inp cfg st hok')

theorem parallel_reach_inv (inp : input) (cfg : config) (init : INIT_T) (st : pstate)
    (h : parallel_reach inp cfg init st) : parallel_inv inp st := by
  induction h with
  | start => exact parallel_init_inv inp cfg
  | seed st v _ ih => exact parallel_seed_inv inp cfg init st v ih
  | round st _ ih => exact parallel_round_inv inp cfg st ih

theorem parallel_seeded_reach (inp : input) (cfg : config) (init : INIT_T) (k : Nat) :
    parallel_reach inp cfg init (parallel_seeded inp cfg init k) := by
  induction k with
  | zero => exact parallel_reach.start
  | succ n ih =>
    unfold parallel_seeded
    rw [List.range_succ, List.foldl_append]
    exact parallel_reach.seed _ n ih

theorem parallel_seed_none (inp : input) (cfg : config) (st : pstate) (v : Nat) :
    parallel_seed inp cfg INIT_T.NONE st v = st := by
  simp [parallel_seed, init_job]

theorem foldl_id_of_forall {α β : Type} (f : α → β → α) (h : ∀ a b, f a b = a) :
    ∀ (l : List β) (a : α), l.foldl f a = a := by
  intro l
  induction l with
  | nil => intro a; rfl
  | cons x t ih => intro a; rw [List.foldl_cons, h, ih]

theorem parallel_seeds_eq (inp : input) (cfg : config) (init : INIT_T) :
    parallel_seeds inp cfg init (parallel_init inp cfg (List.range inp.J)) =
      parallel_seeded inp cfg init inp.V := by
  unfold parallel_seeds parallel_seeded
  split
  · rfl
  · rename_i h
    have : init = INIT_T.NONE := by simpa using h
    subst this
    rw [foldl_id_of_forall _ (parallel_seed_none inp cfg)]

theorem parallel_rounds_reach (inp : input) (cfg : config) (init : INIT_T) (n : Nat) :
    parallel_reach inp cfg init (parallel_rounds inp cfg init n) := by
  induction n with
  | zero =>
    show parallel_reach inp cfg init (parallel_seeds _ _ _ _)
    rw [parallel_seeds_eq]
    exact parallel_seeded_reach inp cfg init _
  | succ n ih =>
    unfold parallel_rounds
    rw [Function.iterate_succ_apply']
    exact parallel_reach.round _ ih

theorem parallel_loop_reach (inp : input) (cfg : config) (init : INIT_T) :
    ∀ (fuel : Nat) (st : pstate), parallel_reach inp cfg init st →
      parallel_reach inp cfg init (parallel_loop inp cfg fuel st) := by
  intro fuel
  induction fuel with
  | zero => intro st h; exact h
  | succ n ih =>
    intro st h
    unfold parallel_loop
    split
    · exact ih _ (parallel_reach.round _ h)
    · exact h

theorem parallel_clustering_reach (inp : input) (cfg : config) (init : INIT_T) :
    parallel_reach inp cfg init (parallel_clustering inp cfg init (List.range inp.J)) :=
  parallel_loop_reach inp cfg init _ _ (parallel_rounds_reach inp cfg init 0)

theorem partition_place (inp : input) (unassigned : List Nat) (clusters : Nat → List Nat)
    (v j : Nat) (hv : v < inp.V) (hj : j ∈ unassigned) (hp : partition inp unassigned clusters) :
    partition inp (unassigned.erase j) (Function.update clusters v (clusters v ++ [j])) := by
  unfold partition at hp ⊢
  have h1 := flatMap_update_perm clusters v j (List.range inp.V)
    (List.nodup_range _) (List.mem_range.2 hv)
  have h2 : unassigned.Perm (j :: unassigned.erase j) := List.perm_cons_erase hj
  refine ((List.Perm.append_left _ h1).trans ?_).trans hp
  refine List.perm_middle.trans ?_
  exact (List.Perm.append_right _ h2.symm)

theorem partition_nodup (inp : input) (unassigned : List Nat) (clusters : Nat → List Nat)
    (hp : partition inp unassigned clusters) : unassigned.Nodup := by
  unfold partition at hp
  have := hp.nodup_iff.2 (List.nodup_range _)
  exact (List.nodup_append.1 this).1

theorem sequential_begin_inv (inp : input) (cfg : config) (v : Nat) (g : sstate)
    (h : sstate_inv inp g) : sequential_inv inp v (sequential_begin inp cfg v g) := by
  refine ⟨?_, ?_, h⟩
  · simp only [sequential_begin, sequential_candidates]
    exact (h.set.nodup_iff.2 (partition_nodup inp _ _ h.part)).filter _
  · intro j hj
    simp only [sequential_begin, sequential_candidates, List.mem_filter, Bool.and_eq_true] at hj ⊢
    exact ⟨hj.1, hj.2.1⟩

/-- A placement for vehicle `v` keeps the facts, when the candidates kept are
among the former ones and do not hold the placed job. -/
theorem sequential_place_inv (inp : input) (cfg : config) (v : Nat) (s : vstate)
    (job_rank : Nat) (upd cands : List Nat) (cost : Nat) (seed : Bool) (hv : v < inp.V)
    (h : sequential_inv inp v s) (hj : (job_rank :: cands).Perm s.candidates) :
    sequential_inv inp v
      { sequential_place inp cfg v s job_rank upd cost seed with candidates := cands } := by
  have hjm : job_rank ∈ s.candidates := hj.subset (List.mem_cons_self _ _)
  have hnd : (job_rank :: cands).Nodup := hj.nodup_iff.2 h.nodup
  rw [List.nodup_cons] at hnd
  have hsn : s.g.candidates_set.Nodup :=
    h.glob.set.nodup_iff.2 (partition_nodup inp _ _ h.glob.part)
  refine ⟨hnd.2, ?_, ?_, ?_, ?_⟩
  · intro j hjc
    have hne : j ≠ job_rank := fun e => hnd.1 (e ▸ hjc)
    obtain ⟨a, b⟩ := h.cand j (hj.subset (List.mem_cons_of_mem _ hjc))
    exact ⟨(List.mem_erase_of_ne hne).2 a, b⟩
  · exact h.glob.set.erase _
  · exact partition_place inp _ _ v job_rank hv
      (h.glob.set.subset (h.cand job_rank hjm).1) h.glob.part
  · intro w j hjw
    simp only [sequential_place] at hjw
    by_cases hw : w = v
    · subst hw
      rw [Function.update_same] at hjw
      rcases List.mem_append.1 hjw with h' | h'
      · exact h.glob.clus w j h'
      · rw [List.mem_singleton] at h'
        rw [h']; exact (h.cand job_rank hjm).2
    · rw [Function.update_noteq hw] at hjw
      exact h.glob.clus w j hjw

theorem sequential_seed_inv (inp : input) (cfg : config) (init : INIT_T) (v : Nat) (s : vstate)
    (hv : v < inp.V) (h : sequential_inv inp v s) :
    sequential_inv inp v (sequential_seed inp cfg init v s) := by
  unfold sequential_seed
  split
  · rename_i hne
    have hlt : init_job inp init (vehicles_to_job_costs inp cfg (cfg.dangling v)) s.candidates
        < s.candidates.length := lt_of_le_of_ne (init_job_le _ _ _ _) hne.2
    exact sequential_place_inv inp cfg v s _ _ _ _ true hv h (nth_cons_eraseIdx_perm _ _ hlt)
  · exact h

theorem sequential_step_inv (inp : input) (cfg : config) (regrets : Nat → Nat) (v : Nat)
    (s : vstate) (hv : v < inp.V) (hne : s.candidates ≠ []) (h : sequential_inv inp v s) :
    sequential_inv inp v (sequential_step inp cfg regrets v s) := by
  have hp := make_heap_perm (eval_lambda cfg regrets s.costs) s.candidates
  have hne2 : make_heap (eval_lambda cfg regrets s.costs) s.candidates ≠ [] := by
    intro he; rw [he] at hp; exact hne (List.Perm.nil_eq hp).symm
  unfold sequential_step sequential_try
  split
  · have hj : (nth (make_heap (eval_lambda cfg regrets s.costs) s.candidates) 0 ::
        pop_back (pop_heap (eval_lambda cfg regrets
          (update_cost (inp.loc (nth (make_heap (eval_lambda cfg regrets s.costs) s.candidates) 0))
            s.costs s.parents (make_heap (eval_lambda cfg regrets s.costs) s.candidates) inp).1)
          (make_heap (eval_lambda cfg regrets s.costs) s.candidates))).Perm s.candidates := by
      refine ((pop_back_pop_heap_perm _ _).cons _).trans ?_
      rw [nth_zero_cons_tail _ hne2]
      exact hp
    exact sequential_place_inv inp cfg v s _ _ _ _ false hv h hj
  · have hs : (pop_back (pop_heap (eval_lambda cfg regrets s.costs)
        (make_heap (eval_lambda cfg regrets s.costs) s.candidates))).Subperm s.candidates :=
      (pop_back_pop_heap_subperm _ _).trans hp.subperm
    refine ⟨?_, ?_, h.glob⟩
    · obtain ⟨l, hl1, hl2⟩ := hs
      exact hl1.nodup_iff.1 (hl2.nodup h.nodup)
    · intro j hj
      exact h.cand j (hs.subset hj)

theorem sequential_loop_inv (inp : input) (cfg : config) (regrets : Nat → Nat) (v : Nat)
    (hv : v < inp.V) :
    ∀ (fuel : Nat) (s : vstate), sequential_inv inp v s →
      sequential_inv inp v (sequential_loop inp cfg regrets v fuel s) := by
  intro fuel
  induction fuel with
  | zero => intro s h; exact h
  | succ n ih =>
    intro s h
    unfold sequential_loop
    split
    · exact h
    · rename_i hne
      exact ih _ (sequential_step_inv inp cfg regrets v s hv (by simpa using hne) h)

theorem sequential_vehicle_inv (inp : input) (cfg : config) (init : INIT_T) (g : sstate)
    (v : Nat) (hv : v < inp.V) (h : sstate_inv inp g) :
    sstate_inv inp (sequential_vehicle inp cfg init g v) :=
  (sequential_loop_inv inp cfg _ v hv _ _
    (sequential_seed_inv inp cfg init v _ hv (sequential_begin_inv inp cfg v g h))).glob

theorem sequential_start_inv (inp : input) (cfg : config)
    (hset : cfg.set_order.Perm (List.range inp.J)) :
    sstate_inv inp (sequential_start cfg (List.range inp.J)) := by
  refine ⟨hset, ?_, ?_⟩
  · have h0 : ∀ l : List Nat, (l.flatMap fun _ => ([] : List Nat)) = [] := by
      intro l; induction l with
      | nil => rfl
      | cons x t ih => simp [List.flatMap_cons, ih]
    simp [partition, sequential_start, h0]
  · intro w j hj
    simp [sequential_start] at hj

theorem sequential_vehicles_inv (inp : input) (cfg : config) (init : INIT_T)
    (hset : cfg.set_order.Perm (List.range inp.J)) :
    ∀ k, k ≤ inp.V → sstate_inv inp (sequential_vehicles inp cfg init k) := by
  intro k
  induction k with
  | zero => intro _; exact sequential_start_inv inp cfg hset
  | succ n ih =>
    intro hk
    unfold sequential_vehicles
    rw [List.range_succ, List.foldl_append]
    exact sequential_vehicle_inv inp cfg init _ n (by omega) (ih (by omega))

theorem sequential_seeded_inv (inp : input) (cfg : config) (init : INIT_T)
    (hset : cfg.set_order.Perm (List.range inp.J)) (v : Nat) (hv : v < inp.V) :
    sequential_inv inp v (sequential_seeded inp cfg init v) :=
  sequential_seed_inv inp cfg init v _ hv
    (sequential_begin_inv inp cfg v _ (sequential_vehicles_inv inp cfg init hset v (by omega)))

theorem sequential_steps_inv (inp : input) (cfg : config) (init : INIT_T)
    (hset : cfg.set_order.Perm (List.range inp.J)) (v n : Nat) (hv : v < inp.V) :
    sequential_inv inp v (sequential_steps inp cfg init v n) :=
  sequential_loop_inv inp cfg _ v hv n _ (sequential_seeded_inv inp cfg init hset v hv)

theorem sequential_clustering_eq (inp : input) (cfg : config) (init : INIT_T) :
    sequential_clustering inp cfg init (List.range inp.J) =
      sequential_vehicles inp cfg init inp.V := rfl

/-- Induction over the states of the parallel heuristic: a property of the
state after line 137 that every placement and every drop keep holds in every
state. -/
theorem parallel_reach_induction (inp : input) (cfg : config) (init : INIT_T)
    (P : pstate → Prop)
    (h0 : P (parallel_init inp cfg (List.range inp.J)))
    (hplace : ∀ (st : pstate) (candidates : Nat → List Nat) (v j : Nat) (cands : List Nat)
      (seed : Bool), parallel_inv inp st → P st →
      (∀ w, (candidates w).Perm (st.candidates w)) → (j :: cands).Perm (candidates v) →
      P (parallel_place inp cfg st candidates v j cands (st.costs v j) seed))
    (hdrop : ∀ (st : pstate) (cands : Nat → List Nat), parallel_inv inp st → P st →
      (∀ v, (cands v).Subperm (st.candidates v)) →
      P { st with candidates := cands, candidates_remaining := any_candidate inp cands }) :
    ∀ st, parallel_reach inp cfg init st → P st := by
  intro st h
  induction h with
  | start => exact h0
  | seed st v hr ih =>
    unfold parallel_seed
    split
    · rename_i hne
      have hlt : init_job inp init (st.costs (cfg.dangling v)) (st.candidates v) < (st.candidates v).length :=
        lt_of_le_of_ne (init_job_le _ _ _ _) hne
      exact hplace st st.candidates v _ _ true (parallel_reach_inv inp cfg init st hr) ih
        (fun w => List.Perm.refl _) (nth_cons_eraseIdx_perm _ _ hlt)
    · exact ih
  | round st hr ih =>
    unfold parallel_round
    split
    · exact hdrop st _ (parallel_reach_inv inp cfg init st hr) ih (drop_tops_subperm inp cfg st)
    · rename_i hok
      have hok' : (select_best inp cfg st).2.capacity_ok = true := by simpa using hok
      unfold parallel_assign
      rw [(select_best_ok inp cfg st hok').2.2.2.1]
      exact hplace st _ _ _ _ false (parallel_reach_inv inp cfg init st hr) ih
        (select_best_perm inp cfg st) (best_cons_perm inp cfg st hok')

/-- Induction over the states of the sequential heuristic: a property of the
members of the object that every placement keeps holds after every vehicle,
every seeding and every iteration. -/
theorem sequential_induction (inp : input) (cfg : config) (init : INIT_T) (P : sstate → Prop)
    (h0 : P (sequential_start cfg (List.range inp.J)))
    (hseed : ∀ (v : Nat) (s : vstate) (j : Nat) (upd : List Nat), P s.g →
      P (sequential_place inp cfg v s j upd (vehicles_to_job_costs inp cfg v j) true).g)
    (hmain : ∀ (v : Nat) (s : vstate) (j : Nat) (upd : List Nat), P s.g →
      P (sequential_place inp cfg v s j upd (s.costs j) false).g) :
    (∀ k, P (sequential_vehicles inp cfg init k)) ∧
    (∀ v n, P (sequential_steps inp cfg init v n).g) := by
  have hsd : ∀ v s, P s.g → P (sequential_seed inp cfg init v s).g := by
    intro v s h
    unfold sequential_seed
    split
    · exact hseed v s _ _ h
    · exact h
  have hst : ∀ r v s, P s.g → P (sequential_step inp cfg r v s).g := by
    intro r v s h
    unfold sequential_step sequential_pop sequential_try
    split
    · exact hmain v s _ (make_heap (eval_lambda cfg r s.costs) s.candidates) h
    · exact h
  have hlp : ∀ r v fuel s, P s.g → P (sequential_loop inp cfg r v fuel s).g := by
    intro r v fuel
    induction fuel with
    | zero => intro s h; exact h
    | succ n ih =>
      intro s h
      unfold sequential_loop
      split
      · exact h
      · exact ih _ (hst r v s h)
  have hk : ∀ k, P (sequential_vehicles inp cfg init k) := by
    intro k
    induction k with
    | zero => exact h0
    | succ n ih =>
      unfold sequential_vehicles
      rw [List.range_succ, List.foldl_append]
      exact hlp _ n _ _ (hsd n _ ih)
  exact ⟨hk, fun v n => hlp _ v n _ (hsd v _ (hk v))⟩

/-- As `sequential_induction`, for a property that a placement keeps when the
placed job is a candidate of a vehicle below `V`. -/
theorem sequential_induction_inv (inp : input) (cfg : config) (init : INIT_T)
    (hset : cfg.set_order.Perm (List.range inp.J)) (P : sstate → Prop)
    (h0 : P (sequential_start cfg (List.range inp.J)))
    (hplace : ∀ (v : Nat) (s : vstate) (j : Nat) (upd : List Nat) (cost : Nat) (seed : Bool),
      v < inp.V → sequential_inv inp v s → j ∈ s.candidates → P s.g →
      P (sequential_place inp cfg v s j upd cost seed).g) :
    (∀ k, k ≤ inp.V → P (sequential_vehicles inp cfg init k)) ∧
    (∀ v n, v < inp.V → P (sequential_steps inp cfg init v n).g) := by
  have hsd : ∀ v s, v < inp.V → sequential_inv inp v s → P s.g →
      P (sequential_seed inp cfg init v s).g := by
    intro v s hv hi h
    unfold sequential_seed
    split
    · rename_i hne
      have hlt : init_job inp init (vehicles_to_job_costs inp cfg (cfg.dangling v)) s.candidates
          < s.candidates.length := lt_of_le_of_ne (init_job_le _ _ _ _) hne.2
      exact hplace v s _ _ _ _ hv hi (nth_mem _ _ hlt) h
    · exact h
  have hst : ∀ r v s, v < inp.V → sequential_inv inp v s → s.candidates ≠ [] → P s.g →
      P (sequential_step inp cfg r v s).g := by
    intro r v s hv hi hne h
    have hp := make_heap_perm (eval_lambda cfg r s.costs) s.candidates
    have hne2 : 0 < (make_heap (eval_lambda cfg r s.costs) s.candidates).length := by
      rw [make_heap_length]; exact List.length_pos.2 hne
    unfold sequential_step sequential_pop sequential_try
    split
    · exact hplace v s _ (make_heap (eval_lambda cfg r s.costs) s.candidates) _ _ hv hi
        (hp.subset (nth_mem _ _ hne2)) h
    · exact h
  have hlp : ∀ r v fuel s, v < inp.V → sequential_inv inp v s → P s.g →
      P (sequential_loop inp cfg r v fuel s).g := by
    intro r v fuel
    induction fuel with
    | zero => intro s _ _ h; exact h
    | succ n ih =>
      intro s hv hi h
      unfold sequential_loop
      split
      · exact h
      · rename_i hne
        have hne' : s.candidates ≠ [] := by simpa using hne
        exact ih _ hv (sequential_step_inv inp cfg r v s hv hne' hi) (hst r v s hv hi hne' h)
  have hk : ∀ k, k ≤ inp.V → P (sequential_vehicles inp cfg init k) := by
    intro k
    induction k with
    | zero => intro _; exact h0
    | succ n ih =>
      intro hn
      unfold sequential_vehicles
      rw [List.range_succ, List.foldl_append]
      have hb := sequential_begin_inv inp cfg n _
        (sequential_vehicles_inv inp cfg init hset n (by omega))
      exact hlp _ n _ _ (by omega) (sequential_seed_inv inp cfg init n _ (by omega) hb)
        (hsd n _ (by omega) hb (ih (by omega)))
  refine ⟨hk, fun v n hv => ?_⟩
  have hb := sequential_begin_inv inp cfg v _
    (sequential_vehicles_inv inp cfg init hset v (by omega))
  exact hlp _ v n _ hv (sequential_seed_inv inp cfg init v _ hv hb)
    (hsd v _ hv hb (hk v (by omega)))

/-! ### Compatibility in the sequential heuristic -/

theorem sequential_place_clus (inp : input) (cfg : config) (v : Nat) (s : vstate) (j : Nat)
    (upd : List Nat) (cost : Nat) (seed : Bool)
    (hj : inp._vehicle_to_job_compatibility v j = true)
    (h : ∀ w i, i ∈ s.g.clusters w → inp._vehicle_to_job_compatibility w i = true) :
    ∀ w i, i ∈ (sequential_place inp cfg v s j upd cost seed).g.clusters w →
      inp._vehicle_to_job_compatibility w i = true := by
  intro w i hi
  simp only [sequential_place] at hi
  by_cases hw : w = v
  · subst hw
    rw [Function.update_same] at hi
    rcases List.mem_append.1 hi with h' | h'
    · exact h w i h'
    · rw [List.mem_singleton] at h'
      rw [h']; exact hj
  · rw [Function.update_noteq hw] at hi
    exact h w i hi

theorem mem_eraseIdx_mem (a : List Nat) (k i : Nat) (h : i ∈ a.eraseIdx k) : i ∈ a :=
  (List.eraseIdx_sublist a k).subset h

theorem sequential_seed_compat (inp : input) (cfg : config) (init : INIT_T) (v : Nat)
    (s : vstate)
    (h : (∀ i, i ∈ s.candidates → inp._vehicle_to_job_compatibility v i = true) ∧
      ∀ w i, i ∈ s.g.clusters w → inp._vehicle_to_job_compatibility w i = true) :
    (∀ i, i ∈ (sequential_seed inp cfg init v s).candidates →
        inp._vehicle_to_job_compatibility v i = true) ∧
      ∀ w i, i ∈ (sequential_seed inp cfg init v s).g.clusters w →
        inp._vehicle_to_job_compatibility w i = true := by
  unfold sequential_seed
  split
  · rename_i hne
    have hlt : init_job inp init (vehicles_to_job_costs inp cfg (cfg.dangling v)) s.candidates
        < s.candidates.length := lt_of_le_of_ne (init_job_le _ _ _ _) hne.2
    refine ⟨?_, sequential_place_clus inp cfg v s _ _ _ _ (h.1 _ (nth_mem _ _ hlt)) h.2⟩
    intro i hi
    exact h.1 i (mem_eraseIdx_mem _ _ _ hi)
  · exact h

theorem sequential_step_compat (inp : input) (cfg : config) (r : Nat → Nat) (v : Nat)
    (s : vstate) (hne : s.candidates ≠ [])
    (h : (∀ i, i ∈ s.candidates → inp._vehicle_to_job_compatibility v i = true) ∧
      ∀ w i, i ∈ s.g.clusters w → inp._vehicle_to_job_compatibility w i = true) :
    (∀ i, i ∈ (sequential_step inp cfg r v s).candidates →
        inp._vehicle_to_job_compatibility v i = true) ∧
      ∀ w i, i ∈ (sequential_step inp cfg r v s).g.clusters w →
        inp._vehicle_to_job_compatibility w i = true := by
  have hp := make_heap_perm (eval_lambda cfg r s.costs) s.candidates
  have hne2 : 0 < (make_heap (eval_lambda cfg r s.costs) s.candidates).length := by
    rw [make_heap_length]; exact List.length_pos.2 hne
  unfold sequential_step sequential_pop sequential_try
  split
  · refine ⟨?_, sequential_place_clus inp cfg v s _
      (make_heap (eval_lambda cfg r s.costs) s.candidates) _ _
      (h.1 _ (hp.subset (nth_mem _ _ hne2))) h.2⟩
    intro i hi
    exact h.1 i (hp.subset ((pop_back_pop_heap_subperm _ _).subset hi))
  · refine ⟨?_, h.2⟩
    intro i hi
    exact h.1 i (hp.subset ((pop_back_pop_heap_subperm _ _).subset hi))

theorem sequential_loop_compat (inp : input) (cfg : config) (r : Nat → Nat) (v : Nat) :
    ∀ (fuel : Nat) (s : vstate),
      ((∀ i, i ∈ s.candidates → inp._vehicle_to_job_compatibility v i = true) ∧
        ∀ w i, i ∈ s.g.clusters w → inp._vehicle_to_job_compatibility w i = true) →
      ∀ w i, i ∈ (sequential_loop inp cfg r v fuel s).g.clusters w →
        inp._vehicle_to_job_compatibility w i = true := by
  intro fuel
  induction fuel with
  | zero => intro s h; exact h.2
  | succ n ih =>
    intro s h
    unfold sequential_loop
    split
    · exact h.2
    · rename_i hne
      exact ih _ (sequential_step_compat inp cfg r v s (by simpa using hne) h)

theorem sequential_seeded_compat (inp : input) (cfg : config) (init : INIT_T) (v : Nat)
    (h : ∀ w i, i ∈ (sequential_vehicles inp cfg init v).clusters w →
      inp._vehicle_to_job_compatibility w i = true) :
    (∀ i, i ∈ (sequential_seeded inp cfg init v).candidates →
        inp._vehicle_to_job_compatibility v i = true) ∧
      ∀ w i, i ∈ (sequential_seeded inp cfg init v).g.clusters w →
        inp._vehicle_to_job_compatibility w i = true := by
  refine sequential_seed_compat inp cfg init v _ ⟨?_, h⟩
  intro i hi
  simp only [sequential_begin, sequential_candidates, List.mem_filter, Bool.and_eq_true] at hi
  exact hi.2.1

theorem sequential_vehicles_compat (inp : input) (cfg : config) (init : INIT_T) :
    ∀ k w i, i ∈ (sequential_vehicles inp cfg init k).clusters w →
      inp._vehicle_to_job_compatibility w i = true := by
  intro k
  induction k with
  | zero => intro w i hi; simp [sequential_vehicles, sequential_start] at hi
  | succ n ih =>
    unfold sequential_vehicles
    rw [List.range_succ, List.foldl_append]
    exact sequential_loop_compat inp cfg _ n _ _ (sequential_seeded_compat inp cfg init n ih)

/-! ### Accounting of `edges_cost` -/

theorem trace_cluster_append (trace : List placement) (p : placement) (v : Nat) :
    trace_cluster (trace ++ [p]) v =
      if p.v = v then trace_cluster trace v ++ [p.j] else trace_cluster trace v := by
  unfold trace_cluster
  rw [List.filter_append]
  by_cases h : p.v = v
  · simp [h]
  · simp [h]

theorem update_cluster_trace (clusters : Nat → List Nat) (trace : List placement)
    (p : placement) (h : ∀ v, clusters v = trace_cluster trace v) :
    ∀ v, Function.update clusters p.v (clusters p.v ++ [p.j]) v =
      trace_cluster (trace ++ [p]) v := by
  intro v
  rw [trace_cluster_append]
  by_cases hv : p.v = v
  · subst hv; simp [h]
  · rw [if_neg hv, Function.update_noteq (Ne.symm hv), h]

theorem parallel_accounting (inp : input) (cfg : config) (init : INIT_T) (st : pstate)
    (h : parallel_reach inp cfg init st) :
    st.edges_cost = maintained_sum st.trace % (cfg.cost_max + 1) ∧
      ∀ v, st.clusters v = trace_cluster st.trace v := by
  refine parallel_reach_induction inp cfg init
    (fun st => st.edges_cost = maintained_sum st.trace % (cfg.cost_max + 1) ∧
      ∀ v, st.clusters v = trace_cluster st.trace v) ?_ ?_ ?_ st h
  · simp [parallel_init, maintained_sum, trace_cluster]
  · intro st candidates v j cands seed _ hP _ _
    constructor
    · simp only [parallel_place, maintained_sum, List.map_append, List.sum_append, List.map_cons,
        List.map_nil, List.sum_cons, List.sum_nil, Nat.add_zero]
      rw [hP.1, maintained_sum, Nat.mod_add_mod]
    · exact update_cluster_trace st.clusters st.trace
        ⟨v, j, st.parents v j, st.costs v j, seed⟩ hP.2
  · intro st cands _ hP _
    exact hP

theorem sequential_accounting (inp : input) (cfg : config) (init : INIT_T) :
    (∀ k, (sequential_vehicles inp cfg init k).edges_cost =
        charged_sum inp cfg (sequential_vehicles inp cfg init k).trace % (cfg.cost_max + 1) ∧
      ∀ w, (sequential_vehicles inp cfg init k).clusters w =
        trace_cluster (sequential_vehicles inp cfg init k).trace w) ∧
    (∀ v n, (sequential_steps inp cfg init v n).g.edges_cost =
        charged_sum inp cfg (sequential_steps inp cfg init v n).g.trace % (cfg.cost_max + 1) ∧
      ∀ w, (sequential_steps inp cfg init v n).g.clusters w =
        trace_cluster (sequential_steps inp cfg init v n).g.trace w) := by
  refine sequential_induction inp cfg init
    (fun g => g.edges_cost = charged_sum inp cfg g.trace % (cfg.cost_max + 1) ∧
      ∀ w, g.clusters w = trace_cluster g.trace w) ?_ ?_ ?_
  · simp [sequential_start, charged_sum, trace_cluster]
  · intro v s j upd hP
    constructor
    · simp only [sequential_place, charged_sum, List.map_append, List.sum_append, List.map_cons,
        List.map_nil, List.sum_cons, List.sum_nil, Nat.add_zero]
      rw [hP.1, charged_sum, Nat.mod_add_mod]
      simp [charged]
    · exact update_cluster_trace s.g.clusters s.g.trace
        ⟨v, j, s.parents j, s.costs j, true⟩ hP.2
  · intro v s j upd hP
    constructor
    · simp only [sequential_place, charged_sum, List.map_append, List.sum_append, List.map_cons,
        List.map_nil, List.sum_cons, List.sum_nil, Nat.add_zero]
      rw [hP.1, charged_sum, Nat.mod_add_mod]
      simp [charged]
    · exact update_cluster_trace s.g.clusters s.g.trace
        ⟨v, j, s.parents j, s.costs j, false⟩ hP.2

/-- C1 (partition).  After the constructor has filled `unassigned`, after the
seeding loop of the parallel heuristic has handled any number `k` of vehicles,
after any number `n` of iterations of its main loop and when it returns, and,
provided `candidates_set` iterates over the ranks `0 .. J-1` once each, after
the seeding of any vehicle `v` of the sequential heuristic followed by any number
`n` of iterations of its loop and when the sequential heuristic returns:
`unassigned` followed by the clusters of all vehicles lists every job rank
`0 .. J-1` exactly once.  So a rank is either unassigned or a member, once, of
exactly one cluster.  This holds for every initialisation policy. -/
theorem partition_invariant (inp : input) (cfg : config) (init : INIT_T) :
    partition inp (List.range inp.J) (fun _ => []) ∧
    (∀ k, partition inp (parallel_seeded inp cfg init k).unassigned
      (parallel_seeded inp cfg init k).clusters) ∧
    (∀ n, partition inp (parallel_rounds inp cfg init n).unassigned
      (parallel_rounds inp cfg init n).clusters) ∧
    partition inp (parallel_clustering inp cfg init (List.range inp.J)).unassigned
      (parallel_clustering inp cfg init (List.range inp.J)).clusters ∧
    (cfg.set_order.Perm (List.range inp.J) →
      (∀ v n, v < inp.V → partition inp (sequential_steps inp cfg init v n).g.unassigned
        (sequential_steps inp cfg init v n).g.clusters) ∧
      partition inp (sequential_clustering inp cfg init (List.range inp.J)).unassigned
        (sequential_clustering inp cfg init (List.range inp.J)).clusters) := by
  refine ⟨(parallel_init_inv inp cfg).part, ?_, ?_, ?_, ?_⟩
  · intro k
    exact (parallel_reach_inv inp cfg init _ (parallel_seeded_reach inp cfg init k)).part
  · intro n
    exact (parallel_reach_inv inp cfg init _ (parallel_rounds_reach inp cfg init n)).part
  · exact (parallel_reach_inv inp cfg init _ (parallel_clustering_reach inp cfg init)).part
  · intro hset
    refine ⟨fun v n hv => (sequential_steps_inv inp cfg init hset v n hv).glob.part, ?_⟩
    rw [sequential_clustering_eq]
    exact (sequential_vehicles_inv inp cfg init hset inp.V (le_refl _)).part

/-- C1 at scenario 2 of the specification, sequential heuristic with the
nearest job as seed. -/
theorem partition_invariant_witness :
    (cfg32 3).set_order.Perm (List.range scenario2.J) ∧
    partition scenario2
      (sequential_clustering scenario2 (cfg32 3) INIT_T.NEAREST (List.range scenario2.J)).unassigned
      (sequential_clustering scenario2 (cfg32 3) INIT_T.NEAREST (List.range scenario2.J)).clusters :=
  ⟨List.reverse_perm _,
    ((partition_invariant scenario2 (cfg32 3) INIT_T.NEAREST).2.2.2.2 (List.reverse_perm _)).2⟩

/-- C2 (capacity), at an input where it fails.  On `overload` the parallel
heuristic with the policy `HIGHER_AMOUNT` places the job of demand `10` as the
seed of the vehicle of capacity `5`: the seeding (lines 157-177) has no test
of the capacity, and the remaining capacity becomes `-5`. -/
theorem capacity_exceeded_by_seed :
    (parallel_clustering overload (cfg32 1) INIT_T.HIGHER_AMOUNT (List.range 1)).clusters 0 = [0] ∧
    overload.amount 0 = 10 ∧
    (overload.vehicle 0).capacity = 5 ∧
    (parallel_clustering overload (cfg32 1) INIT_T.HIGHER_AMOUNT (List.range 1)).capacities 0
      = -5 := by
  decide

/-- C3 (unservable job), at an input where it fails.  On `overload` the demand
of job `0` exceeds the capacity of every vehicle, yet the parallel heuristic
with the policy `NEAREST` returns it as a member of the cluster of vehicle `0`
and not as unassigned. -/
theorem unservable_job_seeded :
    (∀ v, v < overload.V → (overload.vehicle v).capacity < overload.amount 0) ∧
    clustering.clustering overload (cfg32 1) CLUSTERING_T.PARALLEL INIT_T.NEAREST
      = ⟨[[0]], 7, []⟩ := by
  decide

/-- C4 (compatibility).  In the states of the parallel heuristic (after the
seeding of `k` vehicles, after `n` iterations of the main loop, at return) and
of the sequential heuristic (for vehicle `u`, after its seeding and `n`
iterations of its loop; at return), a member `j` of the cluster of vehicle `v`
has `_vehicle_to_job_compatibility[v][j]` true.  This holds for every input and
every initialisation policy. -/
theorem compatibility_invariant (inp : input) (cfg : config) (init : INIT_T) (v j : Nat) :
    (∀ k, j ∈ (parallel_seeded inp cfg init k).clusters v →
      inp._vehicle_to_job_compatibility v j = true) ∧
    (∀ n, j ∈ (parallel_rounds inp cfg init n).clusters v →
      inp._vehicle_to_job_compatibility v j = true) ∧
    (j ∈ (parallel_clustering inp cfg init (List.range inp.J)).clusters v →
      inp._vehicle_to_job_compatibility v j = true) ∧
    (∀ u n, j ∈ (sequential_steps inp cfg init u n).g.clusters v →
      inp._vehicle_to_job_compatibility v j = true) ∧
    (j ∈ (sequential_clustering inp cfg init (List.range inp.J)).clusters v →
      inp._vehicle_to_job_compatibility v j = true) := by
  refine ⟨?_, ?_, ?_, ?_, ?_⟩
  · intro k
    exact (parallel_reach_inv inp cfg init _ (parallel_seeded_reach inp cfg init k)).clus v j
  · intro n
    exact (parallel_reach_inv inp cfg init _ (parallel_rounds_reach inp cfg init n)).clus v j
  · exact (parallel_reach_inv inp cfg init _ (parallel_clustering_reach inp cfg init)).clus v j
  · intro u n
    exact sequential_loop_compat inp cfg _ u n _
      (sequential_seeded_compat inp cfg init u (sequential_vehicles_compat inp cfg init u)) v j
  · exact sequential_vehicles_compat inp cfg init inp.V v j

/-- C4 at scenario 2 of the specification: job `2` is a member of the cluster
of vehicle `0` returned by the parallel heuristic, and is compatible with it. -/
theorem compatibility_invariant_witness :
    2 ∈ (parallel_clustering scenario2 (cfg32 3) INIT_T.NEAREST
      (List.range scenario2.J)).clusters 0 ∧
    scenario2._vehicle_to_job_compatibility 0 2 = true :=
  ⟨by decide,
    (compatibility_invariant scenario2 (cfg32 3) INIT_T.NEAREST 0 2).2.2.1 (by decide)⟩

/-- C5 as stated fails: on `one_way` the sequential heuristic with the policy
`NEAREST` places job `0` as the seed of vehicle `0`; its maintained cost at
that moment is `min (5, 3) = 3`, and `edges_cost` receives
`vehicles_to_job_costs[0][0] = 5`. -/
theorem edges_cost_counterexample :
    (sequential_clustering one_way (cfg32 1) INIT_T.NEAREST (List.range 1)).clusters 0 = [0] ∧
    maintained_sum (sequential_clustering one_way (cfg32 1) INIT_T.NEAREST (List.range 1)).trace
      = 3 ∧
    (sequential_clustering one_way (cfg32 1) INIT_T.NEAREST (List.range 1)).edges_cost = 5 := by
  decide

/-- C5 as amended (cost accounting).  In every state of the parallel heuristic
(after the seeding of `k` vehicles, after `n` iterations of the main loop, at
return) the cluster of each vehicle lists the jobs of its trace records and
`edges_cost` is, modulo `cost_max + 1`, the sum over the placements of the
maintained cost `costs[v][j]` at the moment of the placement.  In every state
of the sequential heuristic the same holds with, for a seed, the entry
`vehicles_to_job_costs[v][j]` in place of the maintained cost. -/
theorem edges_cost_accounting (inp : input) (cfg : config) (init : INIT_T) :
    (∀ k, (parallel_seeded inp cfg init k).edges_cost =
        maintained_sum (parallel_seeded inp cfg init k).trace % (cfg.cost_max + 1) ∧
      ∀ v, (parallel_seeded inp cfg init k).clusters v =
        trace_cluster (parallel_seeded inp cfg init k).trace v) ∧
    (∀ n, (parallel_rounds inp cfg init n).edges_cost =
        maintained_sum (parallel_rounds inp cfg init n).trace % (cfg.cost_max + 1) ∧
      ∀ v, (parallel_rounds inp cfg init n).clusters v =
        trace_cluster (parallel_rounds inp cfg init n).trace v) ∧
    ((parallel_clustering inp cfg init (List.range inp.J)).edges_cost =
        maintained_sum (parallel_clustering inp cfg init (List.range inp.J)).trace
          % (cfg.cost_max + 1) ∧
      ∀ v, (parallel_clustering inp cfg init (List.range inp.J)).clusters v =
        trace_cluster (parallel_clustering inp cfg init (List.range inp.J)).trace v) ∧
    (∀ u n, (sequential_steps inp cfg init u n).g.edges_cost =
        charged_sum inp cfg (sequential_steps inp cfg init u n).g.trace % (cfg.cost_max + 1) ∧
      ∀ v, (sequential_steps inp cfg init u n).g.clusters v =
        trace_cluster (sequential_steps inp cfg init u n).g.trace v) ∧
    ((sequential_clustering inp cfg init (List.range inp.J)).edges_cost =
        charged_sum inp cfg (sequential_clustering inp cfg init (List.range inp.J)).trace
          % (cfg.cost_max + 1) ∧
      ∀ v, (sequential_clustering inp cfg init (List.range inp.J)).clusters v =
        trace_cluster (sequential_clustering inp cfg init (List.range inp.J)).trace v) :=
  ⟨fun k => parallel_accounting inp cfg init _ (parallel_seeded_reach inp cfg init k),
    fun n => parallel_accounting inp cfg init _ (parallel_rounds_reach inp cfg init n),
    parallel_accounting inp cfg init _ (parallel_clustering_reach inp cfg init),
    (sequential_accounting inp cfg init).2,
    (sequential_accounting inp cfg init).1 inp.V⟩

section matrix_change

variable (inp : input) (cfg : config) (M : Nat → Nat → Nat)

theorem with_matrix_V : (with_matrix inp M).V = inp.V := rfl

theorem with_matrix_J : (with_matrix inp M).J = inp.J := rfl

theorem with_matrix_loc : (with_matrix inp M).loc = inp.loc := rfl

theorem with_matrix_amount : (with_matrix inp M).amount = inp.amount := rfl

theorem with_matrix_vehicle : (with_matrix inp M).vehicle = inp.vehicle := rfl

theorem with_matrix_compat :
    (with_matrix inp M)._vehicle_to_job_compatibility = inp._vehicle_to_job_compatibility := rfl

theorem with_matrix_init_job : init_job (with_matrix inp M) = init_job inp := rfl

theorem with_matrix_parallel_candidates :
    parallel_candidates (with_matrix inp M) = parallel_candidates inp := rfl

theorem with_matrix_initial_regrets :
    initial_regrets (with_matrix inp M) = initial_regrets inp := rfl

theorem with_matrix_erase_candidate :
    erase_candidate (with_matrix inp M) = erase_candidate inp := rfl

theorem with_matrix_any_candidate : any_candidate (with_matrix inp M) = any_candidate inp := rfl

theorem with_matrix_select_best : select_best (with_matrix inp M) = select_best inp := rfl

theorem with_matrix_drop_tops : drop_tops (with_matrix inp M) = drop_tops inp := rfl

theorem with_matrix_sequential_candidates :
    sequential_candidates (with_matrix inp M) = sequential_candidates inp := rfl

variable (h : ∀ a b, min (inp.matrix a b) (inp.matrix b a) = min (M a b) (M b a))

include h

theorem with_matrix_update_cost_step (from_index : Nat) :
    update_cost_step from_index (with_matrix inp M) = update_cost_step from_index inp := by
  funext cp j
  unfold update_cost_step
  have e : min ((with_matrix inp M).matrix from_index ((with_matrix inp M).loc j))
      ((with_matrix inp M).matrix ((with_matrix inp M).loc j) from_index) =
      min (inp.matrix from_index (inp.loc j)) (inp.matrix (inp.loc j) from_index) :=
    (h _ _).symm
  rw [e]

theorem with_matrix_update_cost (from_index : Nat) (costs parents : Nat → Nat)
    (candidates : List Nat) :
    update_cost from_index costs parents candidates (with_matrix inp M) =
      update_cost from_index costs parents candidates inp := by
  unfold update_cost
  rw [with_matrix_update_cost_step inp M h]

theorem with_matrix_endpoint_costs :
    endpoint_costs (with_matrix inp M) = endpoint_costs inp := by
  funext cfg v candidates
  unfold endpoint_costs
  simp only [with_matrix_vehicle, with_matrix_update_cost inp M h]

theorem with_matrix_new_cost : new_cost (with_matrix inp M) = new_cost inp := by
  funext job_rank j
  unfold new_cost
  show min (M (inp.loc job_rank) (inp.loc j)) (M (inp.loc j) (inp.loc job_rank)) = _
  rw [← h]

theorem with_matrix_regret_update : regret_update (with_matrix inp M) = regret_update inp := by
  funext cfg v job_rank cands costs regrets other_v j
  unfold regret_update
  simp only [with_matrix_V, with_matrix_new_cost inp M h]

theorem with_matrix_parallel_init : parallel_init (with_matrix inp M) = parallel_init inp := by
  funext cfg unassigned
  unfold parallel_init
  simp only [with_matrix_vehicle, with_matrix_endpoint_costs inp M h,
    with_matrix_parallel_candidates, with_matrix_initial_regrets]

theorem with_matrix_parallel_place :
    parallel_place (with_matrix inp M) = parallel_place inp := by
  funext cfg st candidates v job_rank cands cost seed
  unfold parallel_place
  simp only [with_matrix_loc, with_matrix_amount, with_matrix_update_cost inp M h,
    with_matrix_regret_update inp M h, with_matrix_erase_candidate, with_matrix_any_candidate]

theorem with_matrix_parallel_seed : parallel_seed (with_matrix inp M) = parallel_seed inp := by
  funext cfg init st v
  unfold parallel_seed
  simp only [with_matrix_init_job, with_matrix_parallel_place inp M h]

theorem with_matrix_parallel_seeds : parallel_seeds (with_matrix inp M) = parallel_seeds inp := by
  funext cfg init st
  unfold parallel_seeds
  simp only [with_matrix_V, with_matrix_parallel_seed inp M h]

theorem with_matrix_parallel_round : parallel_round (with_matrix inp M) = parallel_round inp := by
  funext cfg st
  unfold parallel_round parallel_assign
  simp only [with_matrix_select_best, with_matrix_drop_tops, with_matrix_any_candidate,
    with_matrix_parallel_place inp M h]

theorem with_matrix_parallel_loop : parallel_loop (with_matrix inp M) = parallel_loop inp := by
  funext cfg fuel
  induction fuel with
  | zero => rfl
  | succ n ih =>
    funext st
    unfold parallel_loop
    rw [ih, with_matrix_parallel_round inp M h]

theorem with_matrix_parallel_clustering :
    parallel_clustering (with_matrix inp M) = parallel_clustering inp := by
  funext cfg init unassigned
  unfold parallel_clustering
  simp only [with_matrix_J, with_matrix_parallel_loop inp M h, with_matrix_parallel_seeds inp M h,
    with_matrix_parallel_init inp M h]

theorem with_matrix_sequential_place :
    sequential_place (with_matrix inp M) = sequential_place inp := by
  funext cfg v s job_rank cands cost seed
  unfold sequential_place
  simp only [with_matrix_loc, with_matrix_amount, with_matrix_update_cost inp M h]

theorem with_matrix_sequential_begin :
    sequential_begin (with_matrix inp M) = sequential_begin inp := by
  funext cfg v g
  unfold sequential_begin
  simp only [with_matrix_vehicle, with_matrix_endpoint_costs inp M h,
    with_matrix_sequential_candidates]

theorem with_matrix_sequential_step :
    sequential_step (with_matrix inp M) = sequential_step inp := by
  funext cfg regrets v s
  unfold sequential_step sequential_try
  simp only [with_matrix_amount, with_matrix_sequential_place inp M h]

theorem with_matrix_sequential_loop :
    sequential_loop (with_matrix inp M) = sequential_loop inp := by
  funext cfg regrets v fuel
  induction fuel with
  | zero => rfl
  | succ n ih =>
    funext s
    unfold sequential_loop
    rw [ih, with_matrix_sequential_step inp M h]

end matrix_change

theorem max_element_loop_congr (comp comp2 : Nat → Nat → Bool) (a : List Nat)
    (h : ∀ x, x ∈ a → ∀ y, y ∈ a → comp x y = comp2 x y) :
    ∀ (rest : List Nat) (i r : Nat), a.drop i = rest → r < a.length →
      max_element_loop comp a rest i r = max_element_loop comp2 a rest i r := by
  intro rest
  induction rest with
  | nil => intro i r _ _; rfl
  | cons x t ih =>
    intro i r hd hr
    have hi : i < a.length := by
      by_contra hge
      rw [List.drop_of_length_le (by omega)] at hd
      simp at hd
    have hcons := List.drop_eq_getElem_cons hi
    rw [hd] at hcons
    have hx : x ∈ a := by
      rw [(List.cons.inj hcons).1]
      exact List.getElem_mem hi
    have ht : a.drop (i + 1) = t := ((List.cons.inj hcons).2).symm
    unfold max_element_loop
    rw [h _ (nth_mem a r hr) x hx]
    apply ih (i + 1) _ ht
    split
    · exact hi
    · exact hr

theorem min_element_loop_congr (comp comp2 : Nat → Nat → Bool) (a : List Nat)
    (h : ∀ x, x ∈ a → ∀ y, y ∈ a → comp x y = comp2 x y) :
    ∀ (rest : List Nat) (i r : Nat), a.drop i = rest → r < a.length →
      min_element_loop comp a rest i r = min_element_loop comp2 a rest i r := by
  intro rest
  induction rest with
  | nil => intro i r _ _; rfl
  | cons x t ih =>
    intro i r hd hr
    have hi : i < a.length := by
      by_contra hge
      rw [List.drop_of_length_le (by omega)] at hd
      simp at hd
    have hcons := List.drop_eq_getElem_cons hi
    rw [hd] at hcons
    have hx : x ∈ a := by
      rw [(List.cons.inj hcons).1]
      exact List.getElem_mem hi
    have ht : a.drop (i + 1) = t := ((List.cons.inj hcons).2).symm
    unfold min_element_loop
    rw [h x hx _ (nth_mem a r hr)]
    apply ih (i + 1) _ ht
    split
    · exact hi
    · exact hr

/-- The position chosen by a policy depends on the costs of the candidates
only. -/
theorem init_job_congr (inp : input) (init : INIT_T) (c c2 : Nat → Nat) (a : List Nat)
    (h : ∀ j, j ∈ a → c j = c2 j) : init_job inp init c a = init_job inp init c2 a := by
  cases init with
  | NONE => rfl
  | HIGHER_AMOUNT =>
    cases a with
    | nil => rfl
    | cons x t =>
      show max_element_loop _ (x :: t) t 1 0 = max_element_loop _ (x :: t) t 1 0
      refine max_element_loop_congr (higher_amount_init_lambda inp c)
        (higher_amount_init_lambda inp c2) (x :: t) ?_ t 1 0 rfl (by simp)
      intro y hy z hz
      unfold higher_amount_init_lambda
      rw [h y hy, h z hz]
  | NEAREST =>
    cases a with
    | nil => rfl
    | cons x t =>
      show min_element_loop _ (x :: t) t 1 0 = min_element_loop _ (x :: t) t 1 0
      refine min_element_loop_congr (nearest_init_lambda c) (nearest_init_lambda c2) (x :: t)
        ?_ t 1 0 rfl (by simp)
      intro y hy z hz
      unfold nearest_init_lambda
      rw [h y hy, h z hz]

section directed_entries

variable (inp : input) (cfg : config) (M : Nat → Nat → Nat)
  (h : ∀ a b, min (inp.matrix a b) (inp.matrix b a) = min (M a b) (M b a))
  (hstart : ∀ v s j, j < inp.J → (inp.vehicle v).start = some s →
    M s (inp.loc j) = inp.matrix s (inp.loc j))
  (hend : ∀ v e j, j < inp.J → (inp.vehicle v).end_ = some e →
    M (inp.loc j) e = inp.matrix (inp.loc j) e)

include hstart hend in
theorem with_matrix_vehicles_to_job_costs (v j : Nat) (hj : j < inp.J) :
    vehicles_to_job_costs (with_matrix inp M) cfg v j = vehicles_to_job_costs inp cfg v j := by
  unfold vehicles_to_job_costs
  simp only [with_matrix_vehicle, with_matrix_loc]
  show (match (inp.vehicle v).end_ with
    | some end_index =>
      min (match (inp.vehicle v).start with
        | some start_index => min cfg.cost_max (M start_index (inp.loc j))
        | none => cfg.cost_max) (M (inp.loc j) end_index)
    | none =>
      match (inp.vehicle v).start with
      | some start_index => min cfg.cost_max (M start_index (inp.loc j))
      | none => cfg.cost_max) = _
  cases hs : (inp.vehicle v).start with
  | none =>
    cases he : (inp.vehicle v).end_ with
    | none => rfl
    | some e => simp only [hend v e j hj he]
  | some s =>
    cases he : (inp.vehicle v).end_ with
    | none => simp only [hstart v s j hj hs]
    | some e => simp only [hstart v s j hj hs, hend v e j hj he]

include hstart hend in
theorem with_matrix_sequential_regrets_loop :
    ∀ (n i : Nat) (regrets : Nat → Nat → Nat),
      sequential_regrets_loop (with_matrix inp M) cfg n i regrets =
        sequential_regrets_loop inp cfg n i regrets := by
  intro n
  induction n with
  | zero => intro i regrets; rfl
  | succ n ih =>
    intro i regrets
    unfold sequential_regrets_loop
    rw [ih]
    simp only [with_matrix_V, with_matrix_J]
    have e : (fun j => if j < inp.J then
          min (regrets (inp.V - i + 1) j)
            (vehicles_to_job_costs (with_matrix inp M) cfg (inp.V - i + 1) j)
        else regrets (inp.V - i) j) =
        (fun j => if j < inp.J then
          min (regrets (inp.V - i + 1) j) (vehicles_to_job_costs inp cfg (inp.V - i + 1) j)
        else regrets (inp.V - i) j) := by
      funext j
      by_cases hj : j < inp.J
      · rw [if_pos hj, if_pos hj, with_matrix_vehicles_to_job_costs inp cfg M hstart hend _ j hj]
      · rw [if_neg hj, if_neg hj]
    rw [e]

include hstart hend in
theorem with_matrix_sequential_regrets :
    sequential_regrets (with_matrix inp M) cfg = sequential_regrets inp cfg := by
  unfold sequential_regrets
  simp only [with_matrix_V, with_matrix_J,
    with_matrix_sequential_regrets_loop inp cfg M hstart hend]
  have e : (fun j => if j < inp.J then
        vehicles_to_job_costs (with_matrix inp M) cfg (inp.V - 1) j else 0) =
      (fun j => if j < inp.J then vehicles_to_job_costs inp cfg (inp.V - 1) j else 0) := by
    funext j
    by_cases hj : j < inp.J
    · rw [if_pos hj, if_pos hj, with_matrix_vehicles_to_job_costs inp cfg M hstart hend _ j hj]
    · rw [if_neg hj, if_neg hj]
  rw [e]

include h hstart hend in
theorem with_matrix_sequential_seed (init : INIT_T) (v : Nat) (s : vstate)
    (hs : ∀ j, j ∈ s.candidates → j < inp.J) :
    sequential_seed (with_matrix inp M) cfg init v s = sequential_seed inp cfg init v s := by
  have hi : init_job inp init (vehicles_to_job_costs (with_matrix inp M) cfg (cfg.dangling v))
      s.candidates =
      init_job inp init (vehicles_to_job_costs inp cfg (cfg.dangling v)) s.candidates :=
    init_job_congr inp init _ _ _
      (fun j hj => with_matrix_vehicles_to_job_costs inp cfg M hstart hend _ j (hs j hj))
  unfold sequential_seed
  simp only [with_matrix_init_job, with_matrix_sequential_place inp M h, hi]
  split
  · rename_i hne
    have hlt : init_job inp init (vehicles_to_job_costs inp cfg (cfg.dangling v)) s.candidates
        < s.candidates.length := lt_of_le_of_ne (init_job_le _ _ _ _) hne.2
    rw [with_matrix_vehicles_to_job_costs inp cfg M hstart hend v _ (hs _ (nth_mem _ _ hlt))]
  · rfl

include h hstart hend in
theorem with_matrix_sequential_vehicle (init : INIT_T) (g : sstate) (v : Nat)
    (hg : ∀ j, j ∈ g.candidates_set → j < inp.J) :
    sequential_vehicle (with_matrix inp M) cfg init g v = sequential_vehicle inp cfg init g v := by
  have hs : ∀ j, j ∈ (sequential_begin inp cfg v g).candidates → j < inp.J := by
    intro j hj
    exact hg j (List.mem_filter.1 hj).1
  unfold sequential_vehicle
  simp only [with_matrix_sequential_loop inp M h, with_matrix_sequential_begin inp M h,
    with_matrix_sequential_regrets inp cfg M hstart hend,
    with_matrix_sequential_seed inp cfg M h hstart hend init v _ hs]

/-- The ranks in `candidates_set` are ranks of `set_order`. -/
theorem sequential_set_subset (init : INIT_T) (hset : ∀ j, j ∈ cfg.set_order → j < inp.J) :
    ∀ k j, j ∈ (sequential_vehicles inp cfg init k).candidates_set → j < inp.J := by
  have key := (sequential_induction inp cfg init
    (fun g => ∀ j, j ∈ g.candidates_set → j < inp.J) ?_ ?_ ?_).1
  · exact key
  · intro j hj
    exact hset j hj
  · intro v s j upd hP i hi
    exact hP i (List.mem_of_mem_erase hi)
  · intro v s j upd hP i hi
    exact hP i (List.mem_of_mem_erase hi)

include h hstart hend in
theorem with_matrix_sequential_vehicles (init : INIT_T)
    (hset : ∀ j, j ∈ cfg.set_order → j < inp.J) :
    ∀ k, sequential_vehicles (with_matrix inp M) cfg init k =
      sequential_vehicles inp cfg init k := by
  intro k
  induction k with
  | zero =>
    simp only [sequential_vehicles, with_matrix_J, List.range_zero, List.foldl_nil]
  | succ n ih =>
    have e1 : sequential_vehicles (with_matrix inp M) cfg init (n + 1) =
        sequential_vehicle (with_matrix inp M) cfg init
          (sequential_vehicles (with_matrix inp M) cfg init n) n := by
      unfold sequential_vehicles
      rw [List.range_succ, List.foldl_append]
      rfl
    have e2 : sequential_vehicles inp cfg init (n + 1) =
        sequential_vehicle inp cfg init (sequential_vehicles inp cfg init n) n := by
      unfold sequential_vehicles
      rw [List.range_succ, List.foldl_append]
      rfl
    rw [e1, e2, ih]
    exact with_matrix_sequential_vehicle inp cfg M h hstart hend init _ n
      (sequential_set_subset inp cfg init hset n)

include h hstart hend in
theorem with_matrix_sequential_clustering (init : INIT_T)
    (hset : ∀ j, j ∈ cfg.set_order → j < inp.J) :
    sequential_clustering (with_matrix inp M) cfg init (List.range inp.J) =
      sequential_clustering inp cfg init (List.range inp.J) := by
  have e := with_matrix_sequential_vehicles inp cfg M h hstart hend init hset inp.V
  have e1 := sequential_clustering_eq inp cfg init
  have e2 := sequential_clustering_eq (with_matrix inp M) cfg init
  rw [with_matrix_J, with_matrix_V] at e2
  rw [e1, e2, e]

end directed_entries

/-- C6 (symmetry usage, parallel heuristic).  If the matrices `inp.matrix` and
`M` have the same minimum over the two directions for every pair of locations,
then `parallel_clustering` ends in the same state with either matrix, and the
constructed object has the same clusters (in the same order), the same
`unassigned` and the same `edges_cost`; for every initialisation policy and
every comparison `eval`. -/
theorem parallel_symmetry (inp : input) (cfg : config) (init : INIT_T) (M : Nat → Nat → Nat)
    (h : ∀ a b, min (inp.matrix a b) (inp.matrix b a) = min (M a b) (M b a)) :
    parallel_clustering (with_matrix inp M) cfg init (List.range inp.J) =
      parallel_clustering inp cfg init (List.range inp.J) ∧
    clustering.clustering (with_matrix inp M) cfg CLUSTERING_T.PARALLEL init =
      clustering.clustering inp cfg CLUSTERING_T.PARALLEL init := by
  have e := with_matrix_parallel_clustering inp M h
  refine ⟨by rw [e], ?_⟩
  unfold clustering.clustering
  simp only [with_matrix_V, with_matrix_J, e]

/-- C6 at scenario 2 of the specification, with the entry from location `1` to
location `2` raised from `10` to `50`. -/
theorem parallel_symmetry_witness :
    (∀ a b, min (scenario2.matrix a b) (scenario2.matrix b a) =
      min (raise scenario2.matrix 1 2 50 a b) (raise scenario2.matrix 1 2 50 b a)) ∧
    clustering.clustering (with_matrix scenario2 (raise scenario2.matrix 1 2 50)) (cfg32 3)
        CLUSTERING_T.PARALLEL INIT_T.NEAREST =
      clustering.clustering scenario2 (cfg32 3) CLUSTERING_T.PARALLEL INIT_T.NEAREST := by
  have h : ∀ a b, min (scenario2.matrix a b) (scenario2.matrix b a) =
      min (raise scenario2.matrix 1 2 50 a b) (raise scenario2.matrix 1 2 50 b a) := by
    intro a b
    unfold raise
    by_cases h1 : a = 1 ∧ b = 2
    · obtain ⟨rfl, rfl⟩ := h1; decide
    · by_cases h2 : b = 1 ∧ a = 2
      · obtain ⟨rfl, rfl⟩ := h2; decide
      · rw [if_neg h1, if_neg h2]
  exact ⟨h, (parallel_symmetry scenario2 (cfg32 3) INIT_T.NEAREST _ h).2⟩

/-- C7 as stated fails: on `two_starts`, lowering the entry from location `1` to
location `2` from `5` to `2` keeps every minimum over the two directions (the
other direction costs `1`), yet the sequential heuristic (no seed,
`regret_coeff = 1`) fills the cluster of vehicle `0` in the order `[0, 1]` with
the first matrix and `[1, 0]` with the second: the regret of vehicle `0` for a
job is the entry of `vehicles_to_job_costs` of vehicle `1`, which reads the
matrix in one direction. -/
theorem sequential_symmetry_counterexample :
    (∀ a b, min (two_starts.matrix a b) (two_starts.matrix b a) =
      min (raise two_starts.matrix 1 2 2 a b) (raise two_starts.matrix 1 2 2 b a)) ∧
    (sequential_clustering two_starts (cfg32 2) INIT_T.NONE (List.range 2)).clusters 0 = [0, 1] ∧
    (sequential_clustering (with_matrix two_starts (raise two_starts.matrix 1 2 2)) (cfg32 2)
      INIT_T.NONE (List.range 2)).clusters 0 = [1, 0] := by
  refine ⟨?_, by decide, by decide⟩
  intro a b
  unfold raise
  by_cases h1 : a = 1 ∧ b = 2
  · obtain ⟨rfl, rfl⟩ := h1; decide
  · by_cases h2 : b = 1 ∧ a = 2
    · obtain ⟨rfl, rfl⟩ := h2; decide
    · rw [if_neg h1, if_neg h2]

/-- C7 as amended (symmetry usage, sequential heuristic).  If the matrices
`inp.matrix` and `M` have the same minimum over the two directions for every
pair of locations and agree on the entries read by `vehicles_to_job_costs`
(from the start of a vehicle to the location of a job `j < J`, and from the
location of a job `j < J` to the end of a vehicle), and `candidates_set` holds
ranks below `J` only, then `sequential_clustering` ends in the same state with
either matrix, and the constructed object has the same clusters (in the same
order), the same `unassigned` and the same `edges_cost`. -/
theorem sequential_symmetry (inp : input) (cfg : config) (init : INIT_T) (M : Nat → Nat → Nat)
    (h : ∀ a b, min (inp.matrix a b) (inp.matrix b a) = min (M a b) (M b a))
    (hstart : ∀ v s j, j < inp.J → (inp.vehicle v).start = some s →
      M s (inp.loc j) = inp.matrix s (inp.loc j))
    (hend : ∀ v e j, j < inp.J → (inp.vehicle v).end_ = some e →
      M (inp.loc j) e = inp.matrix (inp.loc j) e)
    (hset : ∀ j, j ∈ cfg.set_order → j < inp.J) :
    sequential_clustering (with_matrix inp M) cfg init (List.range inp.J) =
      sequential_clustering inp cfg init (List.range inp.J) ∧
    clustering.clustering (with_matrix inp M) cfg CLUSTERING_T.SEQUENTIAL init =
      clustering.clustering inp cfg CLUSTERING_T.SEQUENTIAL init := by
  have e := with_matrix_sequential_clustering inp cfg M h hstart hend init hset
  have e2 : sequential_clustering (with_matrix inp M) cfg init
      (List.range (with_matrix inp M).J) =
      sequential_clustering inp cfg init (List.range inp.J) := e
  refine ⟨e, ?_⟩
  unfold clustering.clustering
  simp only [with_matrix_V, e2]

/-- C7 as amended, on `two_starts` with the entry from location `1` to location
`0` raised from `0` to `7`: that entry joins the starts of the two vehicles, no
job is at location `0`, so `vehicles_to_job_costs` does not read it. -/
theorem sequential_symmetry_witness :
    (∀ a b, min (two_starts.matrix a b) (two_starts.matrix b a) =
      min (raise two_starts.matrix 1 0 7 a b) (raise two_starts.matrix 1 0 7 b a)) ∧
    raise two_starts.matrix 1 0 7 1 0 ≠ two_starts.matrix 1 0 ∧
    clustering.clustering (with_matrix two_starts (raise two_starts.matrix 1 0 7)) (cfg32 2)
        CLUSTERING_T.SEQUENTIAL INIT_T.NONE =
      clustering.clustering two_starts (cfg32 2) CLUSTERING_T.SEQUENTIAL INIT_T.NONE := by
  have h : ∀ a b, min (two_starts.matrix a b) (two_starts.matrix b a) =
      min (raise two_starts.matrix 1 0 7 a b) (raise two_starts.matrix 1 0 7 b a) := by
    intro a b
    unfold raise
    by_cases h1 : a = 1 ∧ b = 0
    · obtain ⟨rfl, rfl⟩ := h1; decide
    · by_cases h2 : b = 1 ∧ a = 0
      · obtain ⟨rfl, rfl⟩ := h2; decide
      · rw [if_neg h1, if_neg h2]
  have hloc : ∀ j, j < two_starts.J → two_starts.loc j ≠ 0 := by
    intro j hj
    have hJ : two_starts.J = 2 := rfl
    have : j = 0 ∨ j = 1 := by omega
    rcases this with rfl | rfl <;> decide
  have hstart : ∀ v s j, j < two_starts.J → (two_starts.vehicle v).start = some s →
      raise two_starts.matrix 1 0 7 s (two_starts.loc j) =
        two_starts.matrix s (two_starts.loc j) := by
    intro v s j hj _
    unfold raise
    rw [if_neg (fun hh => hloc j hj hh.2)]
  have hend : ∀ v e j, j < two_starts.J → (two_starts.vehicle v).end_ = some e →
      raise two_starts.matrix 1 0 7 (two_starts.loc j) e =
        two_starts.matrix (two_starts.loc j) e := by
    intro v e j hj he
    exfalso
    rcases v with _ | _ | v <;> simp [two_starts, input.vehicle] at he
  have hset : ∀ j, j ∈ (cfg32 2).set_order → j < two_starts.J := by
    intro j hj
    have hJ : two_starts.J = 2 := rfl
    simp only [cfg32, List.mem_reverse, List.mem_range] at hj
    omega
  exact ⟨h, by decide,
    (sequential_symmetry two_starts (cfg32 2) INIT_T.NONE _ h hstart hend hset).2⟩

theorem update_cost_step_fst (from_index : Nat) (inp : input) (cp : (Nat → Nat) × (Nat → Nat))
    (x j : Nat) :
    (update_cost_step from_index inp cp x).1 j =
      if j = x then min (cp.1 j) (dist inp from_index j) else cp.1 j := by
  unfold update_cost_step dist
  by_cases hj : j = x
  · subst hj
    split
    · rename_i h
      simp only [Function.update_same, if_true]
      omega
    · rename_i h
      simp only [if_true]
      omega
  · split
    · simp [Function.update_noteq hj, hj]
    · simp [hj]

theorem foldl_update_cost_fst (from_index : Nat) (inp : input) :
    ∀ (l : List Nat) (cp : (Nat → Nat) × (Nat → Nat)) (j : Nat),
      (l.foldl (update_cost_step from_index inp) cp).1 j =
        if j ∈ l then min (cp.1 j) (dist inp from_index j) else cp.1 j := by
  intro l
  induction l with
  | nil => intro cp j; simp
  | cons x t ih =>
    intro cp j
    rw [List.foldl_cons, ih, update_cost_step_fst]
    by_cases hx : j = x
    · subst hx
      by_cases ht : j ∈ t
      · simp [ht, Nat.min_assoc]
      · simp [ht]
    · by_cases ht : j ∈ t
      · simp [ht, hx]
      · simp [ht, hx]

/-- The costs after `update_cost`: a candidate gets the smaller of its cost and
of its distance to `from_index`, the other jobs keep their cost. -/
theorem update_cost_fst (from_index : Nat) (costs parents : Nat → Nat) (candidates : List Nat)
    (inp : input) (j : Nat) :
    (update_cost from_index costs parents candidates inp).1 j =
      if j ∈ candidates then min (costs j) (dist inp from_index j) else costs j :=
  foldl_update_cost_fst from_index inp candidates (costs, parents) j

theorem update_cost_le (from_index : Nat) (costs parents : Nat → Nat) (candidates : List Nat)
    (inp : input) (j : Nat) :
    (update_cost from_index costs parents candidates inp).1 j ≤ costs j := by
  rw [update_cost_fst]
  split
  · exact Nat.min_le_left _ _
  · exact le_refl _

/-- The costs of a vehicle after the updates from its start and end. -/
theorem endpoint_costs_fst (inp : input) (cfg : config) (v : Nat) (candidates : List Nat)
    (j : Nat) :
    (endpoint_costs inp cfg v candidates).1 j =
      if j ∈ candidates then
        match (inp.vehicle v).start, (inp.vehicle v).end_ with
        | some s, some e => min (min cfg.cost_max (dist inp s j)) (dist inp e j)
        | some s, none => min cfg.cost_max (dist inp s j)
        | none, some e => min cfg.cost_max (dist inp e j)
        | none, none => cfg.cost_max
      else cfg.cost_max := by
  unfold endpoint_costs
  cases hs : (inp.vehicle v).start with
  | none =>
    cases he : (inp.vehicle v).end_ with
    | none => simp
    | some e => simp only [update_cost_fst]
  | some s =>
    cases he : (inp.vehicle v).end_ with
    | none => simp only [update_cost_fst]
    | some e =>
      simp only
      split
      · simp only [update_cost_fst]
        by_cases hj : j ∈ candidates
        · simp [hj]
        · simp [hj]
      · rename_i hse
        have : s = e := by simpa using hse
        subst this
        simp only [update_cost_fst]
        by_cases hj : j ∈ candidates
        · simp [hj]
        · simp [hj]

theorem dist_lt (inp : input) (cfg : config) (hM : ∀ a b, inp.matrix a b < cfg.cost_max)
    (a j : Nat) : dist inp a j < cfg.cost_max := by
  unfold dist
  exact lt_of_le_of_lt (Nat.min_le_left _ _) (hM _ _)

/-- With every entry of the matrix below the maximum and a start or an end for
every vehicle, the cost of a candidate for its vehicle stays below the maximum
in every state of the parallel heuristic. -/
theorem parallel_costs_lt (inp : input) (cfg : config) (init : INIT_T)
    (hM : ∀ a b, inp.matrix a b < cfg.cost_max)
    (hV : ∀ v, v < inp.V → (inp.vehicle v).start ≠ none ∨ (inp.vehicle v).end_ ≠ none)
    (st : pstate) (h : parallel_reach inp cfg init st) :
    ∀ v j, j ∈ st.candidates v → st.costs v j < cfg.cost_max := by
  refine parallel_reach_induction inp cfg init
    (fun st => ∀ v j, j ∈ st.candidates v → st.costs v j < cfg.cost_max) ?_ ?_ ?_ st h
  · intro v j hj
    have hv : v < inp.V := ((parallel_init_inv inp cfg).cand v j hj).1
    simp only [parallel_init] at hj ⊢
    rw [endpoint_costs_fst, if_pos hj]
    have hd := dist_lt inp cfg hM
    cases hs : (inp.vehicle v).start with
    | none =>
      cases he : (inp.vehicle v).end_ with
      | none => rcases hV v hv with h' | h' <;> simp_all
      | some e => simp only; exact lt_of_le_of_lt (Nat.min_le_right _ _) (hd e j)
    | some s =>
      cases he : (inp.vehicle v).end_ with
      | none => simp only; exact lt_of_le_of_lt (Nat.min_le_right _ _) (hd s j)
      | some e => simp only; exact lt_of_le_of_lt (Nat.min_le_right _ _) (hd e j)
  · intro st candidates v j cands seed hinv hP hc hj w i hi
    simp only [parallel_place, erase_candidate] at hi ⊢
    have hsub : i ∈ st.candidates w := by
      split at hi
      · rename_i hw
        subst hw
        exact (hc w).subset (hj.subset (List.mem_cons_of_mem _ hi))
      · split at hi
        · exact (hc w).subset (List.mem_of_mem_erase hi)
        · exact (hc w).subset hi
    by_cases hw : w = v
    · subst hw
      rw [Function.update_same]
      exact lt_of_le_of_lt (update_cost_le _ _ _ _ _ _) (hP w i hsub)
    · rw [Function.update_noteq hw]
      exact hP w i hsub
  · intro st cands _ hP hs v j hj
    exact hP v j ((hs v).subset hj)

theorem top_candidate_mem (cfg : config) (st : pstate) (v : Nat) (h : st.candidates v ≠ []) :
    top_candidate cfg st v ∈ st.candidates v := by
  unfold top_candidate
  refine (make_heap_perm _ _).subset (nth_mem _ _ ?_)
  rw [make_heap_length]
  exact List.length_pos.2 h

/-- C8 (selection and tie-break of the parallel heuristic).  Let every entry
of the matrix be below the maximum of `cost_t` and every vehicle have a start
or an end.  In the round that follows `n` iterations of the main loop, if the
favourite of some vehicle fits its remaining capacity, then `capacity_ok` is
set, the favourite of `best_v` fits its remaining capacity, `best_j` is that
favourite, `best_cost` is its cost, no vehicle with a fitting favourite has a
favourite of smaller cost, and no such vehicle with a favourite of the same
cost has more remaining capacity; the round appends `best_j` to the cluster of
`best_v`. -/
theorem parallel_selection (inp : input) (cfg : config) (init : INIT_T) (n : Nat)
    (hM : ∀ a b, inp.matrix a b < cfg.cost_max)
    (hV : ∀ v, v < inp.V → (inp.vehicle v).start ≠ none ∨ (inp.vehicle v).end_ ≠ none)
    (hf : ∃ v, v < inp.V ∧ feasible_top inp cfg (parallel_rounds inp cfg init n) v) :
    (round_selection inp cfg init n).capacity_ok = true ∧
    (round_selection inp cfg init n).best_v < inp.V ∧
    feasible_top inp cfg (parallel_rounds inp cfg init n) (round_selection inp cfg init n).best_v ∧
    (round_selection inp cfg init n).best_j =
      top_candidate cfg (parallel_rounds inp cfg init n) (round_selection inp cfg init n).best_v ∧
    (round_selection inp cfg init n).best_cost =
      (parallel_rounds inp cfg init n).costs (round_selection inp cfg init n).best_v
        (round_selection inp cfg init n).best_j ∧
    (∀ v, v < inp.V → feasible_top inp cfg (parallel_rounds inp cfg init n) v →
      (round_selection inp cfg init n).best_cost ≤
        (parallel_rounds inp cfg init n).costs v
          (top_candidate cfg (parallel_rounds inp cfg init n) v) ∧
      ((parallel_rounds inp cfg init n).costs v
          (top_candidate cfg (parallel_rounds inp cfg init n) v) =
        (round_selection inp cfg init n).best_cost →
        (parallel_rounds inp cfg init n).capacities v ≤
          (parallel_rounds inp cfg init n).capacities (round_selection inp cfg init n).best_v)) ∧
    (parallel_rounds inp cfg init (n + 1)).clusters (round_selection inp cfg init n).best_v =
      (parallel_rounds inp cfg init n).clusters (round_selection inp cfg init n).best_v ++
        [(round_selection inp cfg init n).best_j] := by
  have hok : (select_best inp cfg (parallel_rounds inp cfg init n)).2.capacity_ok = true := by
    cases hc : (select_best inp cfg (parallel_rounds inp cfg init n)).2.capacity_ok with
    | true => rfl
    | false =>
      exfalso
      obtain ⟨v, hv, hfv⟩ := hf
      have h1 := (select_best_none inp cfg _ hc v hv hfv).1
      have h2 := parallel_costs_lt inp cfg init hM hV _ (parallel_rounds_reach inp cfg init n) v
        _ (top_candidate_mem cfg _ v hfv.1)
      omega
  obtain ⟨h1, h2, h3, h4, h5⟩ := select_best_ok inp cfg _ hok
  refine ⟨hok, h1, h2, h3, h4, h5, ?_⟩
  have hr : parallel_rounds inp cfg init (n + 1) =
      parallel_round inp cfg (parallel_rounds inp cfg init n) := by
    unfold parallel_rounds
    rw [Function.iterate_succ_apply']
  rw [hr]
  unfold parallel_round
  rw [if_neg (by simp [hok])]
  simp [parallel_assign, parallel_place, round_selection]

/-- C8 at scenario 4 of the specification: the vehicle of capacity `5` comes
first, the selection of the first round keeps the vehicle of capacity `10`;
whichever vehicle comes first, the job ends in the cluster of the vehicle of
capacity `10`. -/
theorem parallel_selection_witness :
    ((round_selection tie_small_first (cfg32 1) INIT_T.NONE 0).capacity_ok = true ∧
      (round_selection tie_small_first (cfg32 1) INIT_T.NONE 0).best_v = 1) ∧
    clustering.clustering tie_small_first (cfg32 1) CLUSTERING_T.PARALLEL INIT_T.NONE
      = ⟨[[], [0]], 7, []⟩ ∧
    clustering.clustering tie_large_first (cfg32 1) CLUSTERING_T.PARALLEL INIT_T.NONE
      = ⟨[[0], []], 7, []⟩ := by
  have hM : ∀ a b, tie_small_first.matrix a b < (cfg32 1).cost_max := by
    intro a b
    rcases a with _ | _ | a <;> rcases b with _ | _ | b <;>
      simp [tie_small_first, matrix_of, cfg32]
  have hV : ∀ v, v < tie_small_first.V →
      (tie_small_first.vehicle v).start ≠ none ∨ (tie_small_first.vehicle v).end_ ≠ none := by
    intro v hv
    rcases v with _ | _ | v
    · decide
    · decide
    · have : tie_small_first.V = 2 := rfl
      omega
  have hf : ∃ v, v < tie_small_first.V ∧
      feasible_top tie_small_first (cfg32 1)
        (parallel_rounds tie_small_first (cfg32 1) INIT_T.NONE 0) v :=
    ⟨0, by decide, by unfold feasible_top; decide⟩
  have h := parallel_selection tie_small_first (cfg32 1) INIT_T.NONE 0 hM hV hf
  exact ⟨⟨h.1, by decide⟩, by decide, by decide⟩

theorem foldr_max_le (l : List Nat) (b : Nat) (h : ∀ x, x ∈ l → x ≤ b) : l.foldr max 0 ≤ b := by
  induction l with
  | nil => simp
  | cons x t ih =>
    simp only [List.foldr_cons]
    exact max_le (h x (List.mem_cons_self _ _)) (ih (fun y hy => h y (List.mem_cons_of_mem _ hy)))

theorem le_foldr_max (l : List Nat) (x : Nat) (h : x ∈ l) : x ≤ l.foldr max 0 := by
  induction l with
  | nil => simp at h
  | cons y t ih =>
    simp only [List.foldr_cons]
    rcases List.mem_cons.1 h with h' | h'
    · subst h'; exact le_max_left _ _
    · exact le_trans (ih h') (le_max_right _ _)

theorem length_le_max_candidates (inp : input) (candidates : Nat → List Nat) (v : Nat)
    (hv : v < inp.V) : (candidates v).length ≤ max_candidates inp candidates := by
  unfold max_candidates
  apply le_foldr_max
  exact List.mem_map.2 ⟨v, List.mem_range.2 hv, rfl⟩

theorem max_candidates_le (inp : input) (candidates : Nat → List Nat) (b : Nat)
    (h : ∀ v, v < inp.V → (candidates v).length ≤ b) : max_candidates inp candidates ≤ b := by
  unfold max_candidates
  apply foldr_max_le
  intro x hx
  obtain ⟨v, hv, rfl⟩ := List.mem_map.1 hx
  exact h v (List.mem_range.1 hv)

theorem any_candidate_iff (inp : input) (candidates : Nat → List Nat) :
    any_candidate inp candidates = true ↔ ∃ v, v < inp.V ∧ candidates v ≠ [] := by
  unfold any_candidate
  rw [List.any_eq_true]
  constructor
  · rintro ⟨v, hv, h⟩
    refine ⟨v, List.mem_range.1 hv, ?_⟩
    intro he; rw [he] at h; simp at h
  · rintro ⟨v, hv, h⟩
    refine ⟨v, List.mem_range.2 hv, ?_⟩
    cases hc : candidates v with
    | nil => exact absurd hc h
    | cons x t => simp

theorem any_candidate_pos (inp : input) (candidates : Nat → List Nat)
    (h : any_candidate inp candidates = true) : 0 < max_candidates inp candidates := by
  obtain ⟨v, hv, hne⟩ := (any_candidate_iff inp candidates).1 h
  exact lt_of_lt_of_le (List.length_pos.2 hne) (length_le_max_candidates inp candidates v hv)

theorem any_candidate_of_pos (inp : input) (candidates : Nat → List Nat)
    (h : any_candidate inp candidates = false) : max_candidates inp candidates = 0 := by
  apply Nat.eq_zero_of_le_zero
  apply max_candidates_le
  intro v hv
  by_cases hne : candidates v = []
  · simp [hne]
  · have := (any_candidate_iff inp candidates).2 ⟨v, hv, hne⟩
    rw [h] at this; simp at this

theorem pop_back_pop_heap_length (comp : Nat → Nat → Bool) (a : List Nat) :
    (pop_back (pop_heap comp a)).length = a.length - 1 := by
  rw [(pop_back_pop_heap_perm comp a).length_eq, List.length_tail]

theorem select_best_length (inp : input) (cfg : config) (st : pstate) (v : Nat) :
    ((select_best inp cfg st).1 v).length = (st.candidates v).length :=
  (select_best_perm inp cfg st v).length_eq

theorem parallel_round_flag (inp : input) (cfg : config) (st : pstate) :
    (parallel_round inp cfg st).candidates_remaining =
      any_candidate inp (parallel_round inp cfg st).candidates := by
  unfold parallel_round
  split
  · rfl
  · simp [parallel_assign, parallel_place]

theorem parallel_round_subperm (inp : input) (cfg : config) (st : pstate) (v : Nat) :
    ((parallel_round inp cfg st).candidates v).Subperm (st.candidates v) := by
  unfold parallel_round
  split
  · exact drop_tops_subperm inp cfg st v
  · simp only [parallel_assign, parallel_place, erase_candidate]
    split
    · rename_i hv
      rw [hv]
      exact (pop_back_pop_heap_subperm _ _).trans (select_best_perm inp cfg st _).subperm
    · split
      · exact (List.erase_sublist _ _).subperm.trans (select_best_perm inp cfg st v).subperm
      · exact (select_best_perm inp cfg st v).subperm

/-- A round started with a candidate left lowers the number of unassigned jobs
plus the length of the longest candidate vector. -/
theorem parallel_round_decreases (inp : input) (cfg : config) (st : pstate)
    (h : parallel_inv inp st) (ha : any_candidate inp st.candidates = true) :
    (parallel_round inp cfg st).unassigned.length +
        max_candidates inp (parallel_round inp cfg st).candidates + 1 ≤
      st.unassigned.length + max_candidates inp st.candidates := by
  have hpos := any_candidate_pos inp _ ha
  by_cases hok : (select_best inp cfg st).2.capacity_ok = true
  · have hsub := parallel_round_subperm inp cfg st
    have hmax : max_candidates inp (parallel_round inp cfg st).candidates ≤
        max_candidates inp st.candidates := by
      apply max_candidates_le
      intro v hv
      exact le_trans (hsub v).length_le (length_le_max_candidates inp _ v hv)
    obtain ⟨h1, h2, h3, _, _⟩ := select_best_ok inp cfg st hok
    have hmem : (select_best inp cfg st).2.best_j ∈ st.unassigned := by
      rw [h3]
      exact (h.cand _ _ (by
        unfold top_candidate
        refine (make_heap_perm _ _).subset (nth_mem _ _ ?_)
        rw [make_heap_length]
        exact List.length_pos.2 h2.1)).2.1
    have hlen : (parallel_round inp cfg st).unassigned.length = st.unassigned.length - 1 := by
      unfold parallel_round
      rw [if_neg (by simp [hok])]
      simp only [parallel_assign, parallel_place]
      rw [List.length_erase_of_mem hmem]
    have hu : 0 < st.unassigned.length := List.length_pos_of_mem hmem
    omega
  · have hok' : (select_best inp cfg st).2.capacity_ok = false := by simpa using hok
    have hmax : max_candidates inp (parallel_round inp cfg st).candidates + 1 ≤
        max_candidates inp st.candidates := by
      have : max_candidates inp (parallel_round inp cfg st).candidates ≤
          max_candidates inp st.candidates - 1 := by
        apply max_candidates_le
        intro v hv
        unfold parallel_round
        rw [if_pos hok']
        simp only [drop_tops]
        have hl := length_le_max_candidates inp st.candidates v hv
        split
        · rw [pop_back_pop_heap_length, select_best_length]; omega
        · rename_i hc
          have : (select_best inp cfg st).1 v = [] := by
            by_contra hne
            apply hc
            refine ⟨hv, ?_⟩
            cases hx : (select_best inp cfg st).1 v with
            | nil => exact absurd hx hne
            | cons x t => rfl
          rw [this]; simp
      omega
    have hlen : (parallel_round inp cfg st).unassigned = st.unassigned := by
      unfold parallel_round
      rw [if_pos hok']
    rw [hlen]
    omega

theorem parallel_terminates_from (inp : input) (cfg : config) :
    ∀ (k : Nat) (st : pstate), parallel_inv inp st →
      (st.candidates_remaining = true → any_candidate inp st.candidates = true) →
      st.unassigned.length + max_candidates inp st.candidates ≤ k →
      ∃ n, n ≤ k ∧ ((parallel_round inp cfg)^[n] st).candidates_remaining = false ∧
        ∀ m, m < n → ((parallel_round inp cfg)^[m] st).candidates_remaining = true := by
  intro k
  induction k with
  | zero =>
    intro st _ hf hk
    refine ⟨0, le_refl _, ?_, fun m hm => absurd hm (Nat.not_lt_zero m)⟩
    cases hc : st.candidates_remaining with
    | false => exact hc
    | true =>
      have := any_candidate_pos inp _ (hf hc)
      omega
  | succ k ih =>
    intro st hinv hf hk
    cases hc : st.candidates_remaining with
    | false =>
      exact ⟨0, Nat.zero_le _, hc, fun m hm => absurd hm (Nat.not_lt_zero m)⟩
    | true =>
      have hd := parallel_round_decreases inp cfg st hinv (hf hc)
      obtain ⟨n, hn, h1, h2⟩ := ih (parallel_round inp cfg st)
        (parallel_round_inv inp cfg st hinv)
        (fun h => by rw [← parallel_round_flag]; exact h) (by omega)
      refine ⟨n + 1, by omega, ?_, ?_⟩
      · rw [Function.iterate_succ_apply]; exact h1
      · intro m hm
        cases m with
        | zero => exact hc
        | succ m => rw [Function.iterate_succ_apply]; exact h2 m (by omega)

theorem parallel_loop_eq_iterate (inp : input) (cfg : config) :
    ∀ (n fuel : Nat) (st : pstate), n ≤ fuel →
      ((parallel_round inp cfg)^[n] st).candidates_remaining = false →
      (∀ m, m < n → ((parallel_round inp cfg)^[m] st).candidates_remaining = true) →
      parallel_loop inp cfg fuel st = (parallel_round inp cfg)^[n] st := by
  intro n
  induction n with
  | zero =>
    intro fuel st _ h0 _
    simp only [Function.iterate_zero, id_eq] at h0 ⊢
    cases fuel with
    | zero => rfl
    | succ f => unfold parallel_loop; rw [if_neg (by simp [h0])]
  | succ n ih =>
    intro fuel st hle h0 hm
    cases fuel with
    | zero => omega
    | succ f =>
      have hst : st.candidates_remaining = true := hm 0 (by omega)
      unfold parallel_loop
      rw [if_pos hst, Function.iterate_succ_apply]
      apply ih f _ (by omega)
      · rw [← Function.iterate_succ_apply]; exact h0
      · intro m hlt
        rw [← Function.iterate_succ_apply]
        exact hm (m + 1) (by omega)

theorem parallel_trace_length (inp : input) (cfg : config) (init : INIT_T) (st : pstate)
    (h : parallel_reach inp cfg init st) : st.trace.length + st.unassigned.length = inp.J := by
  refine parallel_reach_induction inp cfg init
    (fun st => st.trace.length + st.unassigned.length = inp.J) ?_ ?_ ?_ st h
  · simp [parallel_init]
  · intro st candidates v j cands seed hinv hP hc hj
    have hmem : j ∈ st.unassigned :=
      (hinv.cand v j ((hc v).subset (hj.subset (List.mem_cons_self _ _)))).2.1
    have hu : 0 < st.unassigned.length := List.length_pos_of_mem hmem
    simp only [parallel_place, List.length_append, List.length_singleton]
    rw [List.length_erase_of_mem hmem]
    omega
  · intro st cands _ hP _
    exact hP

theorem parallel_seed_flag (inp : input) (cfg : config) (init : INIT_T) (st : pstate) (v : Nat) :
    (parallel_seed inp cfg init st v).candidates_remaining = st.candidates_remaining := by
  unfold parallel_seed
  split
  · simp [parallel_place]
  · rfl

theorem parallel_seeded_flag (inp : input) (cfg : config) (init : INIT_T) (k : Nat) :
    (parallel_seeded inp cfg init k).candidates_remaining = true := by
  induction k with
  | zero => rfl
  | succ n ih =>
    unfold parallel_seeded
    rw [List.range_succ, List.foldl_append]
    simp only [List.foldl_cons, List.foldl_nil]
    rw [parallel_seed_flag]
    exact ih

theorem parallel_rounds_zero (inp : input) (cfg : config) (init : INIT_T) :
    parallel_rounds inp cfg init 0 = parallel_seeded inp cfg init inp.V :=
  parallel_seeds_eq inp cfg init

theorem parallel_rounds_succ (inp : input) (cfg : config) (init : INIT_T) (n : Nat) :
    parallel_rounds inp cfg init (n + 1) =
      parallel_round inp cfg (parallel_rounds inp cfg init n) := by
  unfold parallel_rounds
  rw [Function.iterate_succ_apply']

theorem parallel_rounds_iterate (inp : input) (cfg : config) (init : INIT_T) (n : Nat) :
    parallel_rounds inp cfg init n =
      (parallel_round inp cfg)^[n] (parallel_rounds inp cfg init 0) := rfl

theorem unassigned_length_le (inp : input) (st : pstate) (h : parallel_inv inp st) :
    st.unassigned.length ≤ inp.J := by
  have := h.part.length_eq
  simp only [List.length_append, List.length_range] at this
  omega

theorem max_candidates_le_unassigned (inp : input) (st : pstate) (h : parallel_inv inp st) :
    max_candidates inp st.candidates ≤ st.unassigned.length := by
  apply max_candidates_le
  intro v _
  exact (List.subperm_of_subset (h.nodup v) (fun j hj => (h.cand v j hj).2.1)).length_le

/-- The main loop of the parallel heuristic ends within `2 * J + 1` rounds. -/
theorem parallel_loop_terminates (inp : input) (cfg : config) (init : INIT_T) :
    ∃ n, n ≤ 2 * inp.J + 1 ∧ (parallel_rounds inp cfg init n).candidates_remaining = false ∧
      (∀ m, m < n → (parallel_rounds inp cfg init m).candidates_remaining = true) ∧
      parallel_clustering inp cfg init (List.range inp.J) = parallel_rounds inp cfg init n := by
  have hinv := parallel_reach_inv inp cfg init _ (parallel_rounds_reach inp cfg init 0)
  have hflag : (parallel_rounds inp cfg init 0).candidates_remaining = true := by
    rw [parallel_rounds_zero]; exact parallel_seeded_flag inp cfg init _
  have key : ∃ n, n ≤ 2 * inp.J + 1 ∧
      ((parallel_round inp cfg)^[n] (parallel_rounds inp cfg init 0)).candidates_remaining = false ∧
      ∀ m, m < n →
        ((parallel_round inp cfg)^[m] (parallel_rounds inp cfg init 0)).candidates_remaining
          = true := by
    cases ha : any_candidate inp (parallel_rounds inp cfg init 0).candidates with
    | true =>
      have h1 := unassigned_length_le inp _ hinv
      have h2 := max_candidates_le_unassigned inp _ hinv
      obtain ⟨n, hn, h3, h4⟩ := parallel_terminates_from inp cfg (2 * inp.J) _ hinv
        (fun _ => ha) (by omega)
      exact ⟨n, by omega, h3, h4⟩
    | false =>
      refine ⟨1, by omega, ?_, ?_⟩
      · rw [Function.iterate_one, parallel_round_flag]
        cases hb : any_candidate inp
            (parallel_round inp cfg (parallel_rounds inp cfg init 0)).candidates with
        | false => rfl
        | true =>
          exfalso
          obtain ⟨v, hv, hne⟩ := (any_candidate_iff inp _).1 hb
          have h0 := any_candidate_of_pos inp _ ha
          have h1 := length_le_max_candidates inp (parallel_rounds inp cfg init 0).candidates v hv
          have h2 := (parallel_round_subperm inp cfg (parallel_rounds inp cfg init 0) v).length_le
          have h3 := List.length_pos.2 hne
          omega
      · intro m hm
        have : m = 0 := by omega
        subst this
        exact hflag
  obtain ⟨n, hn, h1, h2⟩ := key
  refine ⟨n, hn, h1, h2, ?_⟩
  exact parallel_loop_eq_iterate inp cfg n _ _ hn h1 h2

theorem assigning_rounds_succ (inp : input) (cfg : config) (init : INIT_T) (n : Nat) :
    assigning_rounds inp cfg init (n + 1) =
      assigning_rounds inp cfg init n +
        (if (round_selection inp cfg init n).capacity_ok = true then 1 else 0) := by
  unfold assigning_rounds
  rw [List.range_succ, List.filter_append, List.length_append]
  cases h : (round_selection inp cfg init n).capacity_ok <;> simp [h]

/-- Each round that places a job adds one record to the trace. -/
theorem parallel_rounds_trace (inp : input) (cfg : config) (init : INIT_T) :
    ∀ n, (parallel_rounds inp cfg init n).trace.length =
      (parallel_rounds inp cfg init 0).trace.length + assigning_rounds inp cfg init n := by
  intro n
  induction n with
  | zero => simp [assigning_rounds]
  | succ n ih =>
    rw [assigning_rounds_succ, parallel_rounds_succ]
    unfold parallel_round
    cases h : (select_best inp cfg (parallel_rounds inp cfg init n)).2.capacity_ok with
    | false =>
      have h' : (round_selection inp cfg init n).capacity_ok = false := h
      rw [h']
      simp [ih]
    | true =>
      have h' : (round_selection inp cfg init n).capacity_ok = true := h
      rw [h']
      simp [parallel_assign, parallel_place, ih]
      omega

theorem assigning_rounds_le (inp : input) (cfg : config) (init : INIT_T) (n : Nat) :
    assigning_rounds inp cfg init n ≤ inp.J := by
  have h1 := parallel_rounds_trace inp cfg init n
  have h2 := parallel_trace_length inp cfg init _ (parallel_rounds_reach inp cfg init n)
  omega

theorem sequential_step_length (inp : input) (cfg : config) (r : Nat → Nat) (v : Nat)
    (s : vstate) :
    (sequential_step inp cfg r v s).candidates.length = s.candidates.length - 1 := by
  unfold sequential_step sequential_pop sequential_try
  split
  · simp only [sequential_place]
    rw [pop_back_pop_heap_length, make_heap_length]
  · simp only
    rw [pop_back_pop_heap_length, make_heap_length]

/-- After `fuel` iterations at most, the loop over the candidates of a vehicle
has removed `fuel` candidates (all of them when there are fewer). -/
theorem sequential_loop_length (inp : input) (cfg : config) (r : Nat → Nat) (v : Nat) :
    ∀ (fuel : Nat) (s : vstate),
      (sequential_loop inp cfg r v fuel s).candidates.length = s.candidates.length - fuel := by
  intro fuel
  induction fuel with
  | zero => intro s; rfl
  | succ n ih =>
    intro s
    unfold sequential_loop
    split
    · rename_i he
      have : s.candidates = [] := by simpa using he
      simp [this]
    · rw [ih, sequential_step_length]
      omega

theorem sequential_vehicles_succ (inp : input) (cfg : config) (init : INIT_T) (v : Nat) :
    sequential_vehicles inp cfg init (v + 1) =
      (sequential_steps inp cfg init v (sequential_seeded inp cfg init v).candidates.length).g := by
  unfold sequential_vehicles
  rw [List.range_succ, List.foldl_append]
  rfl

theorem sequential_trace_length (inp : input) (cfg : config) (init : INIT_T)
    (hset : cfg.set_order.Perm (List.range inp.J)) :
    (sequential_clustering inp cfg init (List.range inp.J)).trace.length +
        (sequential_clustering inp cfg init (List.range inp.J)).unassigned.length = inp.J := by
  have h := (sequential_induction_inv inp cfg init hset
    (fun g => g.trace.length + g.unassigned.length = inp.J) ?_ ?_).1 inp.V (le_refl _)
  · exact h
  · simp [sequential_start]
  · intro v s j upd cost seed _ hinv hj hP
    have hmem : j ∈ s.g.unassigned := hinv.glob.set.subset (hinv.cand j hj).1
    have hu : 0 < s.g.unassigned.length := List.length_pos_of_mem hmem
    simp only [sequential_place, List.length_append, List.length_singleton]
    rw [List.length_erase_of_mem hmem]
    omega

/-- C9 (termination).  Parallel heuristic: the main loop stops after some
number `n <= 2 * J + 1` of rounds (`candidates_remaining` is true before each
of them and false after the last), `parallel_clustering` returns the state
reached then, and at most `J` of these rounds place a job.  Sequential
heuristic: after `n` iterations the loop of vehicle `v` has `n` candidates
fewer than after the seeding (none once `n` reaches their number), so it runs
once for each candidate left by the seeding, and the state handed to the next
vehicle is the one reached then; provided `candidates_set` iterates over the
ranks `0 .. J-1` once each, the whole run makes at most `J` placements. -/
theorem clustering_terminates (inp : input) (cfg : config) (init : INIT_T) :
    (∃ n, n ≤ 2 * inp.J + 1 ∧
      (parallel_rounds inp cfg init n).candidates_remaining = false ∧
      (∀ m, m < n → (parallel_rounds inp cfg init m).candidates_remaining = true) ∧
      parallel_clustering inp cfg init (List.range inp.J) = parallel_rounds inp cfg init n ∧
      assigning_rounds inp cfg init n ≤ inp.J) ∧
    (∀ v n, (sequential_steps inp cfg init v n).candidates.length =
      (sequential_seeded inp cfg init v).candidates.length - n) ∧
    (∀ v, sequential_vehicles inp cfg init (v + 1) =
      (sequential_steps inp cfg init v (sequential_seeded inp cfg init v).candidates.length).g) ∧
    (cfg.set_order.Perm (List.range inp.J) →
      (sequential_clustering inp cfg init (List.range inp.J)).trace.length ≤ inp.J) := by
  refine ⟨?_, ?_, ?_, ?_⟩
  · obtain ⟨n, h1, h2, h3, h4⟩ := parallel_loop_terminates inp cfg init
    exact ⟨n, h1, h2, h3, h4, assigning_rounds_le inp cfg init n⟩
  · intro v n
    exact sequential_loop_length inp cfg _ v n _
  · intro v
    exact sequential_vehicles_succ inp cfg init v
  · intro hset
    have := sequential_trace_length inp cfg init hset
    omega

/-- C9 at scenario 2 of the specification: the sequential heuristic places
three jobs, which is the number of jobs. -/
theorem clustering_terminates_witness :
    (cfg32 3).set_order.Perm (List.range scenario2.J) ∧
    (sequential_clustering scenario2 (cfg32 3) INIT_T.NEAREST
      (List.range scenario2.J)).trace.length ≤ scenario2.J :=
  ⟨List.reverse_perm _,
    (clustering_terminates scenario2 (cfg32 3) INIT_T.NEAREST).2.2.2 (List.reverse_perm _)⟩

theorem nth_set_of_lt (a : List Nat) (s v i : Nat) (hs : s < a.length) :
    nth (a.set s v) i = if i = s then v else nth a i := by
  rw [nth_set]
  by_cases h : i = s
  · subst h; simp [hs]
  · have : ¬ s = i := fun e => h e.symm
    simp [h, this]

theorem is_desc_refl (p : Nat) : is_desc p p := ⟨0, rfl⟩

theorem iterate_parent_le : ∀ (k h : Nat), (fun i => (i - 1) / 2)^[k] h ≤ h := by
  intro k
  induction k with
  | zero => intro h; exact le_refl _
  | succ n ih =>
    intro h
    rw [Function.iterate_succ_apply]
    have := ih ((h - 1) / 2)
    omega

theorem is_desc_le (p h : Nat) (hd : is_desc p h) : p ≤ h := by
  obtain ⟨k, hk⟩ := hd
  rw [← hk]
  exact iterate_parent_le k h

theorem is_desc_child (p h c : Nat) (hd : is_desc p h) (hc : (c - 1) / 2 = h) : is_desc p c := by
  obtain ⟨k, hk⟩ := hd
  refine ⟨k + 1, ?_⟩
  rw [Function.iterate_succ_apply]
  simp only [hc]
  exact hk

theorem is_desc_parent (p h : Nat) (hd : is_desc p h) (hlt : p < h) :
    is_desc p ((h - 1) / 2) := by
  obtain ⟨k, hk⟩ := hd
  cases k with
  | zero => simp at hk; omega
  | succ n =>
    rw [Function.iterate_succ_apply] at hk
    exact ⟨n, hk⟩

section heap_order

variable (comp : Nat → Nat → Bool) (key : Nat → Int)
  (hcomp : ∀ i j, comp i j = decide (key i < key j))

include hcomp

theorem adjust_heap_loop_inv (len p : Nat) :
    ∀ (fuel : Nat) (a : List Nat) (h : Nat), len ≤ a.length → h < len →
      hole_inv key a len p h → is_desc p h →
      hole_inv key (adjust_heap_loop comp len fuel a h).1 len p
        (adjust_heap_loop comp len fuel a h).2 ∧
      is_desc p (adjust_heap_loop comp len fuel a h).2 := by
  intro fuel
  induction fuel with
  | zero => intro a h _ _ hi hd; exact ⟨hi, hd⟩
  | succ n ih =>
    intro a h hl hh hi hd
    unfold adjust_heap_loop
    split
    · rename_i hc
      have hp := is_desc_le p h hd
      have hs : h < a.length := by omega
      by_cases hcmp : comp (nth a (2 * (h + 1))) (nth a (2 * (h + 1) - 1)) = true
      · rw [if_pos hcmp]
        have hk : key (nth a (2 * (h + 1))) < key (nth a (2 * (h + 1) - 1)) := by
          rw [hcomp] at hcmp; simpa using hcmp
        apply ih _ _ (by simpa using hl) (by omega)
        · constructor
          · intro c hc0 hcl hpc hne1 hne2
            rw [nth_set_of_lt _ _ _ _ hs, nth_set_of_lt _ _ _ _ hs]
            by_cases e1 : c = h
            · subst e1
              have e2 : ¬ (c - 1) / 2 = c := by omega
              rw [if_pos rfl, if_neg e2]
              exact hi.2 (by omega) _ (by omega) (by omega) (by omega)
            · rw [if_neg e1]
              by_cases e2 : (c - 1) / 2 = h
              · rw [if_pos e2]
                have : c = 2 * (h + 1) := by omega
                subst this
                exact le_of_lt hk
              · rw [if_neg e2]
                exact hi.1 c hc0 hcl hpc e1 e2
          · intro _ c hc0 hcl hpc
            rw [nth_set_of_lt _ _ _ _ hs, nth_set_of_lt _ _ _ _ hs]
            have e1 : ¬ c = h := by omega
            have e2 : (2 * (h + 1) - 1 - 1) / 2 = h := by omega
            rw [if_neg e1, if_pos e2]
            have := hi.1 c hc0 hcl (by omega) e1 (by omega)
            rw [hpc] at this
            exact this
        · exact is_desc_child p h _ hd (by omega)
      · rw [if_neg hcmp]
        have hk : key (nth a (2 * (h + 1) - 1)) ≤ key (nth a (2 * (h + 1))) := by
          rw [hcomp] at hcmp; simpa using hcmp
        apply ih _ _ (by simpa using hl) (by omega)
        · constructor
          · intro c hc0 hcl hpc hne1 hne2
            rw [nth_set_of_lt _ _ _ _ hs, nth_set_of_lt _ _ _ _ hs]
            by_cases e1 : c = h
            · subst e1
              have e2 : ¬ (c - 1) / 2 = c := by omega
              rw [if_pos rfl, if_neg e2]
              exact hi.2 (by omega) _ (by omega) (by omega) (by omega)
            · rw [if_neg e1]
              by_cases e2 : (c - 1) / 2 = h
              · rw [if_pos e2]
                have : c = 2 * (h + 1) - 1 := by omega
                subst this
                exact hk
              · rw [if_neg e2]
                exact hi.1 c hc0 hcl hpc e1 e2
          · intro _ c hc0 hcl hpc
            rw [nth_set_of_lt _ _ _ _ hs, nth_set_of_lt _ _ _ _ hs]
            have e1 : ¬ c = h := by omega
            have e2 : (2 * (h + 1) - 1) / 2 = h := by omega
            rw [if_neg e1, if_pos e2]
            have := hi.1 c hc0 hcl (by omega) e1 (by omega)
            rw [hpc] at this
            exact this
        · exact is_desc_child p h _ hd (by omega)
    · exact ⟨hi, hd⟩

omit hcomp in
theorem adjust_heap_loop_exit (len : Nat) :
    ∀ (fuel : Nat) (a : List Nat) (h : Nat), len ≤ fuel + h →
      ¬ (adjust_heap_loop comp len fuel a h).2 < (len - 1) / 2 := by
  intro fuel
  induction fuel with
  | zero => intro a h hf; simp only [adjust_heap_loop]; omega
  | succ n ih =>
    intro a h hf
    unfold adjust_heap_loop
    split
    · split
      · exact ih _ _ (by omega)
      · exact ih _ _ (by omega)
    · assumption

omit hcomp in
theorem adjust_heap_last_inv (len p : Nat) (a : List Nat) (h : Nat) (hl : len ≤ a.length)
    (hh : h < len) (hi : hole_inv key a len p h) (hd : is_desc p h)
    (hex : ¬ h < (len - 1) / 2) :
    hole_inv key (adjust_heap_last len (a, h)).1 len p (adjust_heap_last len (a, h)).2 ∧
    is_desc p (adjust_heap_last len (a, h)).2 ∧
    (adjust_heap_last len (a, h)).2 < len ∧
    ∀ c, 0 < c → c < len → (c - 1) / 2 ≠ (adjust_heap_last len (a, h)).2 := by
  have hp := is_desc_le p h hd
  have hs : h < a.length := by omega
  unfold adjust_heap_last
  split
  · rename_i hc
    simp only at hc ⊢
    refine ⟨⟨?_, ?_⟩, is_desc_child p h _ hd (by omega), by omega, fun c _ _ => by omega⟩
    · intro c hc0 hcl hpc hne1 hne2
      rw [nth_set_of_lt _ _ _ _ hs, nth_set_of_lt _ _ _ _ hs]
      by_cases e1 : c = h
      · subst e1
        have e2 : ¬ (c - 1) / 2 = c := by omega
        rw [if_pos rfl, if_neg e2]
        exact hi.2 (by omega) _ (by omega) (by omega) (by omega)
      · rw [if_neg e1]
        have e2 : ¬ (c - 1) / 2 = h := by omega
        rw [if_neg e2]
        exact hi.1 c hc0 hcl hpc e1 e2
    · intro _ c hc0 hcl hpc
      omega
  · rename_i hc
    simp only at hc ⊢
    exact ⟨hi, hd, hh, fun c _ _ => by omega⟩

theorem push_heap_loop_heap (len p x : Nat) :
    ∀ (fuel : Nat) (a : List Nat) (h : Nat), h ≤ fuel → len ≤ a.length → h < len →
      hole_inv key a len p h → is_desc p h →
      (∀ c, 0 < c → c < len → (c - 1) / 2 = h → key (nth a c) ≤ key x) →
      heap_from key (push_heap_loop comp p x fuel a h) len p := by
  intro fuel
  induction fuel with
  | zero =>
    intro a h hf hl hh hi hd hx
    have h0 : h = 0 := by omega
    subst h0
    have hs : 0 < a.length := by omega
    simp only [push_heap_loop]
    intro c hc0 hcl hpc
    rw [nth_set_of_lt _ _ _ _ hs, nth_set_of_lt _ _ _ _ hs]
    have e1 : ¬ c = 0 := by omega
    rw [if_neg e1]
    by_cases e2 : (c - 1) / 2 = 0
    · rw [if_pos e2]; exact hx c hc0 hcl e2
    · rw [if_neg e2]; exact hi.1 c hc0 hcl hpc e1 e2
  | succ n ih =>
    intro a h hf hl hh hi hd hx
    have hs : h < a.length := by omega
    unfold push_heap_loop
    split
    · rename_i hc
      have hk : key (nth a ((h - 1) / 2)) < key x := by
        have := hc.2
        rw [hcomp] at this; simpa using this
      have hdp := is_desc_parent p h hd hc.1
      have hpp := is_desc_le p _ hdp
      apply ih _ _ (by omega) (by simpa using hl) (by omega)
      · constructor
        · intro c hc0 hcl hpc hne1 hne2
          rw [nth_set_of_lt _ _ _ _ hs, nth_set_of_lt _ _ _ _ hs]
          by_cases e1 : c = h
          · exact absurd (by rw [e1]) hne2
          · rw [if_neg e1]
            by_cases e2 : (c - 1) / 2 = h
            · rw [if_pos e2]
              exact hi.2 hc.1 c hc0 hcl e2
            · rw [if_neg e2]
              exact hi.1 c hc0 hcl hpc e1 e2
        · intro hlt c hc0 hcl hpc
          rw [nth_set_of_lt _ _ _ _ hs, nth_set_of_lt _ _ _ _ hs]
          have hgp : p ≤ ((h - 1) / 2 - 1) / 2 := is_desc_le p _ (is_desc_parent p _ hdp hlt)
          have e3 : ¬ ((h - 1) / 2 - 1) / 2 = h := by omega
          rw [if_neg e3]
          have hpar : key (nth a ((h - 1) / 2)) ≤ key (nth a (((h - 1) / 2 - 1) / 2)) :=
            hi.1 ((h - 1) / 2) (by omega) (by omega) hgp (by omega) (by omega)
          by_cases e1 : c = h
          · rw [if_pos e1]; exact hpar
          · rw [if_neg e1]
            have := hi.1 c hc0 hcl (by omega) e1 (by omega)
            rw [hpc] at this
            exact le_trans this hpar
      · exact hdp
      · intro c hc0 hcl hpc
        rw [nth_set_of_lt _ _ _ _ hs]
        by_cases e1 : c = h
        · rw [if_pos e1]; exact le_of_lt hk
        · rw [if_neg e1]
          have := hi.1 c hc0 hcl (by omega) e1 (by omega)
          rw [hpc] at this
          exact le_trans this (le_of_lt hk)
    · rename_i hc
      intro c hc0 hcl hpc
      rw [nth_set_of_lt _ _ _ _ hs, nth_set_of_lt _ _ _ _ hs]
      by_cases e1 : c = h
      · have e2 : ¬ (c - 1) / 2 = h := by omega
        rw [if_pos e1, if_neg e2]
        have hlt : p < h := by omega
        have hnc : ¬ comp (nth a ((h - 1) / 2)) x = true := fun hh' => hc ⟨hlt, hh'⟩
        rw [hcomp] at hnc
        have : key x ≤ key (nth a ((h - 1) / 2)) := by simpa using hnc
        rw [e1]; exact this
      · rw [if_neg e1]
        by_cases e2 : (c - 1) / 2 = h
        · rw [if_pos e2]; exact hx c hc0 hcl e2
        · rw [if_neg e2]; exact hi.1 c hc0 hcl hpc e1 e2

/-- The libstdc++ `__adjust_heap` at index `p` extends a heap below `p + 1` to a
heap below `p`. -/
theorem adjust_heap_heap (a : List Nat) (p len x : Nat) (hl : len ≤ a.length) (hp : p < len)
    (h : heap_from key a len (p + 1)) : heap_from key (adjust_heap comp a p len x) len p := by
  have hi0 : hole_inv key a len p p := by
    refine ⟨?_, fun hlt => absurd hlt (lt_irrefl _)⟩
    intro c hc0 hcl hpc _ hne
    exact h c hc0 hcl (by omega)
  have h1 := adjust_heap_loop_inv comp key hcomp len p len a p hl hp hi0 (is_desc_refl p)
  have h2 := adjust_heap_loop_hole comp len (by omega) len a p hp
  have h3 := adjust_heap_loop_exit comp len len a p (by omega)
  have h4 := adjust_heap_loop_length comp len len a p
  have h5 := adjust_heap_last_inv key len p (adjust_heap_loop comp len len a p).1
    (adjust_heap_loop comp len len a p).2 (by omega) h2.2 h1.1 h1.2 h3
  have hlen : (adjust_heap_last len (adjust_heap_loop comp len len a p)).1.length = a.length := by
    unfold adjust_heap_last
    split
    · simp [h4]
    · exact h4
  unfold adjust_heap push_heap
  exact push_heap_loop_heap comp key hcomp len p x _ _ _ (le_refl _) (by omega) h5.2.2.1
    h5.1 h5.2.1 (fun c hc0 hcl hpc => absurd hpc (h5.2.2.2 c hc0 hcl))

theorem make_heap_loop_heap (len : Nat) :
    ∀ (p : Nat) (a : List Nat), len ≤ a.length → p < len → heap_from key a len (p + 1) →
      heap_from key (make_heap_loop comp len p a) len 0 := by
  intro p
  induction p with
  | zero =>
    intro a hl hp h
    unfold make_heap_loop
    exact adjust_heap_heap comp key hcomp a 0 len _ hl hp h
  | succ n ih =>
    intro a hl hp h
    unfold make_heap_loop
    exact ih _ (by rw [adjust_heap_length]; exact hl) (by omega)
      (adjust_heap_heap comp key hcomp a (n + 1) len _ hl hp h)

omit hcomp in
theorem heap_from_zero_top (a : List Nat) (len : Nat) (h : heap_from key a len 0) :
    ∀ i, i < len → key (nth a i) ≤ key (nth a 0) := by
  intro i
  induction i using Nat.strong_induction_on with
  | _ i ih =>
    intro hi
    by_cases h0 : i = 0
    · subst h0; exact le_refl _
    · exact le_trans (h i (by omega) hi (Nat.zero_le _)) (ih ((i - 1) / 2) (by omega) (by omega))

/-- After `std::make_heap` under a comparison of keys, no element has a key
above that of the front. -/
theorem make_heap_top (a : List Nat) (x : Nat) (hx : x ∈ a) :
    key x ≤ key (nth (make_heap comp a) 0) := by
  have hx' : x ∈ make_heap comp a := (make_heap_perm comp a).symm.subset hx
  obtain ⟨i, hi, rfl⟩ := List.getElem_of_mem hx'
  rw [← nth_eq_getElem _ _ hi]
  have hlen := make_heap_length comp a
  by_cases h2 : a.length < 2
  · have : i = 0 := by omega
    subst this
    exact le_refl _
  · have hh : heap_from key (make_heap comp a) a.length 0 := by
      unfold make_heap
      rw [if_neg h2]
      apply make_heap_loop_heap comp key hcomp a.length _ a (le_refl _) (by omega)
      intro c hc0 hcl hpc
      omega
    exact heap_from_zero_top key _ _ hh i (by omega)

end heap_order

theorem min_element_loop_min (comp : Nat → Nat → Bool) (key : Nat → Nat)
    (hcomp : ∀ i j, comp i j = decide (key i < key j)) (a : List Nat) :
    ∀ (rest : List Nat) (i r : Nat), a.drop i = rest →
      (∀ k, k < i → key (nth a r) ≤ key (nth a k)) →
      ∀ k, k < a.length → key (nth a (min_element_loop comp a rest i r)) ≤ key (nth a k) := by
  intro rest
  induction rest with
  | nil =>
    intro i r hd hr k hk
    have : a.length ≤ i := by
      by_contra hlt
      have := List.drop_eq_getElem_cons (Nat.lt_of_not_le hlt)
      rw [hd] at this
      simp at this
      exact hlt this
    exact hr k (by omega)
  | cons x t ih =>
    intro i r hd hr k hk
    have hi : i < a.length := by
      by_contra hge
      rw [List.drop_of_length_le (by omega)] at hd
      simp at hd
    have hcons := List.drop_eq_getElem_cons hi
    rw [hd] at hcons
    have hx : x = nth a i := by
      rw [nth_eq_getElem a i hi]
      exact (List.cons.inj hcons).1
    have ht : a.drop (i + 1) = t := ((List.cons.inj hcons).2).symm
    unfold min_element_loop
    apply ih (i + 1) _ ht _ k hk
    intro m hm
    by_cases hc : comp x (nth a r) = true
    · rw [if_pos hc]
      rw [hcomp] at hc
      have hlt : key x < key (nth a r) := by simpa using hc
      rw [← hx]
      by_cases hmi : m = i
      · rw [hmi, ← hx]
      · have := hr m (by omega)
        omega
    · rw [if_neg hc]
      rw [hcomp] at hc
      have hle : key (nth a r) ≤ key x := by simpa using hc
      by_cases hmi : m = i
      · rw [hmi, ← hx]; exact hle
      · exact hr m (by omega)

/-- The position returned by `std::min_element` under a comparison of keys holds
an element of least key. -/
theorem min_element_min (comp : Nat → Nat → Bool) (key : Nat → Nat)
    (hcomp : ∀ i j, comp i j = decide (key i < key j)) (a : List Nat) (x : Nat) (hx : x ∈ a) :
    key (nth a (min_element comp a)) ≤ key x := by
  obtain ⟨k, hk, rfl⟩ := List.getElem_of_mem hx
  rw [← nth_eq_getElem a k hk]
  cases a with
  | nil => simp at hk
  | cons y t =>
    unfold min_element
    apply min_element_loop_min comp key hcomp (y :: t) t 1 0 rfl _ k hk
    intro m hm
    have : m = 0 := by omega
    rw [this]

theorem exact_eval_key (p q : Nat) (regrets costs : Nat → Nat) (i j : Nat) :
    exact_eval p q (regrets i) (costs i) (regrets j) (costs j) =
      decide (exact_key p q regrets costs i < exact_key p q regrets costs j) := by
  unfold exact_eval exact_key
  apply decide_eq_decide.2
  constructor
  · intro h; zify at h; linarith
  · intro h; zify; linarith

/-- With `eval` exact, the favourite of a vehicle has the greatest key
`p * regret - q * cost` among its candidates, for the rows of `regrets` and
`costs` that its comparator reads. -/
theorem top_candidate_key (cfg : config) (p q : Nat) (he : cfg.eval = exact_eval p q)
    (st : pstate) (v j : Nat) (hj : j ∈ st.candidates v) :
    exact_key p q (st.regrets (cfg.dangling v)) (st.costs (cfg.dangling v)) j ≤
      exact_key p q (st.regrets (cfg.dangling v)) (st.costs (cfg.dangling v))
        (top_candidate cfg st v) := by
  unfold top_candidate
  apply make_heap_top _
    (exact_key p q (st.regrets (cfg.dangling v)) (st.costs (cfg.dangling v))) _ _ _ hj
  intro a b
  unfold parallel_eval eval_lambda
  rw [he]
  exact exact_eval_key p q _ _ a b

theorem sum_map_erase (f : Nat → Int) (l : List Nat) (j : Nat) (hj : j ∈ l) :
    (l.map f).sum = f j + ((l.erase j).map f).sum := by
  have h := (List.perm_cons_erase hj).map f
  rw [h.sum_eq]
  simp

theorem le_sum_of_mem (f : Nat → Int) (l : List Nat) (hf : ∀ i, i ∈ l → 0 ≤ f i) (j : Nat)
    (hj : j ∈ l) : f j ≤ (l.map f).sum := by
  rw [sum_map_erase f l j hj]
  have : 0 ≤ ((l.erase j).map f).sum := by
    apply List.sum_nonneg
    intro x hx
    obtain ⟨i, hi, rfl⟩ := List.mem_map.1 hx
    exact hf i (List.mem_of_mem_erase hi)
  omega

theorem unassigned_lt (inp : input) (st : pstate) (h : parallel_inv inp st) (j : Nat)
    (hj : j ∈ st.unassigned) : j < inp.J := by
  have := h.part.subset (List.mem_append_left _ hj)
  exact List.mem_range.1 this

section single_vehicle

variable (inp : input) (cfg : config) (init : INIT_T)
  (hV1 : inp.V = 1)
  (hcompat : ∀ j, j < inp.J → inp._vehicle_to_job_compatibility 0 j = true)
  (hnonneg : ∀ j, j < inp.J → 0 ≤ inp.amount j)
  (hcap : ((List.range inp.J).map inp.amount).sum ≤ (inp.vehicle 0).capacity)

theorem single_place (st : pstate) (candidates : Nat → List Nat) (j : Nat) (cands : List Nat)
    (cost : Nat) (seed : Bool) (hinv : parallel_inv inp st) (hs : single_inv inp cfg st)
    (hc : ∀ w, (candidates w).Perm (st.candidates w))
    (hj : (j :: cands).Perm (candidates 0)) :
    single_inv inp cfg (parallel_place inp cfg st candidates 0 j cands cost seed) := by
  have hjm : j ∈ st.candidates 0 := (hc 0).subset (hj.subset (List.mem_cons_self _ _))
  have hju : j ∈ st.unassigned := (hinv.cand 0 j hjm).2.1
  have hnd := partition_nodup inp _ _ hinv.part
  refine ⟨?_, ?_, ?_⟩
  · intro i hi
    simp only [parallel_place, erase_candidate, if_true] at hi ⊢
    rw [hnd.mem_erase_iff] at hi
    have h1 : i ∈ j :: cands := hj.symm.subset ((hc 0).symm.subset (hs.un i hi.2))
    rcases List.mem_cons.1 h1 with h2 | h2
    · exact absurd h2 hi.1
    · exact h2
  · simp only [parallel_place, Function.update_same]
    have := sum_map_erase inp.amount st.unassigned j hju
    have := hs.cap
    omega
  · intro i hi
    simp only [parallel_place, erase_candidate, if_true] at hi
    simp only [parallel_place, regret_update]
    rw [if_neg (by tauto)]
    exact hs.reg i ((hc 0).subset (hj.subset (List.mem_cons_of_mem _ hi)))

include hV1 hcompat hcap in
theorem single_init : single_inv inp cfg (parallel_init inp cfg (List.range inp.J)) := by
  have hcand : ∀ j, j ∈ parallel_candidates inp 0 ↔ j < inp.J := by
    intro j
    unfold parallel_candidates
    rw [if_pos (by omega), List.mem_filter, List.mem_range]
    constructor
    · exact fun h => h.1
    · exact fun h => ⟨h, hcompat j h⟩
  refine ⟨?_, ?_, ?_⟩
  · intro j hj
    simp only [parallel_init] at hj ⊢
    exact (hcand j).2 (List.mem_range.1 hj)
  · simpa [parallel_init] using hcap
  · intro j hj
    simp only [parallel_init] at hj ⊢
    unfold initial_regrets
    rw [if_pos ⟨by omega, hj⟩]
    unfold current_regret
    rw [hV1]
    simp [List.range_succ]

include hnonneg in
/-- With one vehicle whose capacity covers the total demand, the favourite of
the vehicle always fits. -/
theorem single_feasible (st : pstate) (hinv : parallel_inv inp st)
    (hs : single_inv inp cfg st) (hne : st.candidates 0 ≠ []) :
    feasible_top inp cfg st 0 := by
  refine ⟨hne, ?_⟩
  have hm := top_candidate_mem cfg st 0 hne
  have hu := (hinv.cand 0 _ hm).2.1
  have := le_sum_of_mem inp.amount st.unassigned
    (fun i hi => hnonneg i (unassigned_lt inp st hinv i hi)) _ hu
  have := hs.cap
  omega

variable (hM : ∀ a b, inp.matrix a b < cfg.cost_max)
  (hV : ∀ v, v < inp.V → (inp.vehicle v).start ≠ none ∨ (inp.vehicle v).end_ ≠ none)

include hV1 hnonneg hM hV in
theorem single_selects (st : pstate) (hr : parallel_reach inp cfg init st)
    (hs : single_inv inp cfg st) (hne : st.candidates 0 ≠ []) :
    (select_best inp cfg st).2.capacity_ok = true ∧ (select_best inp cfg st).2.best_v = 0 ∧
      (select_best inp cfg st).2.best_j = top_candidate cfg st 0 := by
  have hinv := parallel_reach_inv inp cfg init st hr
  have hf := single_feasible inp cfg hnonneg st hinv hs hne
  have hok : (select_best inp cfg st).2.capacity_ok = true := by
    cases hc : (select_best inp cfg st).2.capacity_ok with
    | true => rfl
    | false =>
      exfalso
      have h1 := (select_best_none inp cfg st hc 0 (by omega) hf).1
      have h2 := parallel_costs_lt inp cfg init hM hV st hr 0 _ (top_candidate_mem cfg st 0 hne)
      omega
  obtain ⟨h1, _, h3, _, _⟩ := select_best_ok inp cfg st hok
  have h0 : (select_best inp cfg st).2.best_v = 0 := by omega
  refine ⟨hok, h0, ?_⟩
  rw [h3, h0]

include hV1 hcompat hnonneg hcap hM hV in
theorem single_reach (st : pstate) (hr : parallel_reach inp cfg init st) :
    single_inv inp cfg st := by
  induction hr with
  | start => exact single_init inp cfg hV1 hcompat hcap
  | seed st v hr ih =>
    have hinv := parallel_reach_inv inp cfg init st hr
    unfold parallel_seed
    split
    · rename_i hne
      have hlt : init_job inp init (st.costs (cfg.dangling v)) (st.candidates v) < (st.candidates v).length :=
        lt_of_le_of_ne (init_job_le _ _ _ _) hne
      have hv : v = 0 := by
        have := (hinv.cand v _ (nth_mem _ _ hlt)).1
        omega
      subst hv
      exact single_place inp cfg st st.candidates _ _ _ true hinv ih
        (fun w => List.Perm.refl _) (nth_cons_eraseIdx_perm _ _ hlt)
    · exact ih
  | round st hr ih =>
    have hinv := parallel_reach_inv inp cfg init st hr
    by_cases hne : st.candidates 0 = []
    · have hun : st.unassigned = [] := by
        cases hu : st.unassigned with
        | nil => rfl
        | cons x t =>
          have := ih.un x (by rw [hu]; exact List.mem_cons_self _ _)
          rw [hne] at this
          simp at this
      have hsub := parallel_round_subperm inp cfg st 0
      rw [hne] at hsub
      have hc0 : (parallel_round inp cfg st).candidates 0 = [] :=
        List.eq_nil_of_length_eq_zero (Nat.eq_zero_of_le_zero hsub.length_le)
      have hu0 : (parallel_round inp cfg st).unassigned = [] := by
        unfold parallel_round
        split
        · exact hun
        · simp [parallel_assign, parallel_place, hun]
      refine ⟨?_, ?_, ?_⟩
      · intro j hj; rw [hu0] at hj; simp at hj
      · rw [hu0]
        have := (parallel_round_inv inp cfg st hinv)
        have h1 := ih.cap
        rw [hun] at h1
        simp only [List.map_nil, List.sum_nil] at h1 ⊢
        unfold parallel_round
        split
        · exact h1
        · rename_i hok
          have hok' : (select_best inp cfg st).2.capacity_ok = true := by simpa using hok
          obtain ⟨h2, h3, _, _, _⟩ := select_best_ok inp cfg st hok'
          have h0 : (select_best inp cfg st).2.best_v = 0 := by omega
          rw [h0] at h3
          exact absurd hne h3.1
      · intro j hj; rw [hc0] at hj; simp at hj
    · obtain ⟨hok, h0, hj⟩ := single_selects inp cfg init hV1 hnonneg hM hV st hr ih hne
      unfold parallel_round
      rw [if_neg (by simp [hok])]
      unfold parallel_assign
      have hb := best_cons_perm inp cfg st hok
      rw [h0] at hb ⊢
      exact single_place inp cfg st _ _ _ _ false hinv ih (select_best_perm inp cfg st) hb

end single_vehicle

theorem sequential_loop_succ (inp : input) (cfg : config) (r : Nat → Nat) (v : Nat) :
    ∀ (n : Nat) (s : vstate),
      sequential_loop inp cfg r v (n + 1) s =
        if (sequential_loop inp cfg r v n s).candidates.isEmpty = true then
          sequential_loop inp cfg r v n s
        else sequential_step inp cfg r v (sequential_loop inp cfg r v n s) := by
  intro n
  induction n with
  | zero =>
    intro s
    simp only [sequential_loop]
  | succ n ih =>
    intro s
    rw [sequential_loop]
    by_cases he : s.candidates.isEmpty = true
    · rw [if_pos he]
      have : sequential_loop inp cfg r v (n + 1) s = s := by
        rw [sequential_loop, if_pos he]
      rw [this, if_pos he]
    · rw [if_neg he, ih]
      have : sequential_loop inp cfg r v (n + 1) s =
          sequential_loop inp cfg r v n (sequential_step inp cfg r v s) := by
        rw [sequential_loop, if_neg he]
      rw [this]

theorem sequential_top_key (cfg : config) (p q : Nat) (he : cfg.eval = exact_eval p q)
    (regrets : Nat → Nat) (s : vstate) (j : Nat) (hj : j ∈ s.candidates) :
    exact_key p q regrets s.costs j ≤
      exact_key p q regrets s.costs (sequential_top cfg regrets s) := by
  unfold sequential_top
  apply make_heap_top _ (exact_key p q regrets s.costs) _ _ _ hj
  intro a b
  unfold eval_lambda
  rw [he]
  exact exact_eval_key p q _ _ a b

theorem sequential_top_mem (cfg : config) (regrets : Nat → Nat) (s : vstate)
    (h : s.candidates ≠ []) : sequential_top cfg regrets s ∈ s.candidates := by
  unfold sequential_top
  refine (make_heap_perm _ _).subset (nth_mem _ _ ?_)
  rw [make_heap_length]
  exact List.length_pos.2 h

section single_vehicle

variable (inp : input) (cfg : config) (init : INIT_T)
  (hV1 : inp.V = 1)
  (hcompat : ∀ j, j < inp.J → inp._vehicle_to_job_compatibility 0 j = true)
  (hnonneg : ∀ j, j < inp.J → 0 ≤ inp.amount j)
  (hcap : ((List.range inp.J).map inp.amount).sum ≤ (inp.vehicle 0).capacity)
  (hset : cfg.set_order.Perm (List.range inp.J))

include hV1 in
theorem single_seq_place (s : vstate) (j : Nat) (upd cands : List Nat) (cost : Nat)
    (seed : Bool) (hs : single_seq_inv inp s) (hj : (j :: cands).Perm s.candidates) :
    single_seq_inv inp
      { sequential_place inp cfg 0 s j upd cost seed with candidates := cands } := by
  have hjm : j ∈ s.candidates := hj.subset (List.mem_cons_self _ _)
  have hju : j ∈ s.g.unassigned := hs.base.glob.set.subset (hs.base.cand j hjm).1
  have hnd := partition_nodup inp _ _ hs.base.glob.part
  refine ⟨sequential_place_inv inp cfg 0 s j upd cands cost seed (by omega) hs.base hj, ?_, ?_⟩
  · intro i hi
    simp only [sequential_place] at hi ⊢
    rw [hnd.mem_erase_iff] at hi
    have h1 : i ∈ j :: cands := hj.symm.subset (hs.un i hi.2)
    rcases List.mem_cons.1 h1 with h2 | h2
    · exact absurd h2 hi.1
    · exact h2
  · simp only [sequential_place]
    have := sum_map_erase inp.amount s.g.unassigned j hju
    have := hs.cap
    omega

include hcompat hnonneg hcap hset in
theorem single_seq_begin :
    single_seq_inv inp (sequential_begin inp cfg 0 (sequential_vehicles inp cfg init 0)) := by
  have hg : sequential_vehicles inp cfg init 0 = sequential_start cfg (List.range inp.J) := rfl
  have hb := sequential_begin_inv inp cfg 0 _ (sequential_start_inv inp cfg hset)
  rw [hg]
  refine ⟨hb, ?_, ?_⟩
  · intro j hj
    have hj' : j ∈ List.range inp.J := hj
    have hlt := List.mem_range.1 hj'
    simp only [sequential_begin, sequential_candidates, sequential_start, List.mem_filter,
      Bool.and_eq_true, decide_eq_true_eq]
    refine ⟨hset.symm.subset hj', hcompat j hlt, ?_⟩
    have := le_sum_of_mem inp.amount (List.range inp.J)
      (fun i hi => hnonneg i (List.mem_range.1 hi)) j hj'
    omega
  · simpa [sequential_begin, sequential_start] using hcap

include hV1 in
theorem single_seq_seed (s : vstate) (hs : single_seq_inv inp s) :
    single_seq_inv inp (sequential_seed inp cfg init 0 s) := by
  unfold sequential_seed
  split
  · rename_i hne
    have hlt : init_job inp init (vehicles_to_job_costs inp cfg (cfg.dangling 0)) s.candidates
        < s.candidates.length := lt_of_le_of_ne (init_job_le _ _ _ _) hne.2
    exact single_seq_place inp cfg hV1 s _ _ _ _ true hs (nth_cons_eraseIdx_perm _ _ hlt)
  · exact hs

theorem seq_unassigned_lt (s : vstate) (hs : single_seq_inv inp s) (j : Nat)
    (hj : j ∈ s.g.unassigned) : j < inp.J := by
  have := hs.base.glob.part.subset (List.mem_append_left _ hj)
  exact List.mem_range.1 this

include hnonneg in
theorem single_seq_fits (r : Nat → Nat) (s : vstate) (hs : single_seq_inv inp s)
    (hne : s.candidates ≠ []) : inp.amount (sequential_top cfg r s) ≤ s.capacity := by
  have hm := sequential_top_mem cfg r s hne
  have hu : sequential_top cfg r s ∈ s.g.unassigned :=
    hs.base.glob.set.subset (hs.base.cand _ hm).1
  have := le_sum_of_mem inp.amount s.g.unassigned
    (fun i hi => hnonneg i (seq_unassigned_lt inp s hs i hi)) _ hu
  have := hs.cap
  omega

include hnonneg in
/-- With one vehicle whose capacity covers the total demand, an iteration of
the loop places the favourite. -/
theorem single_seq_step_eq (r : Nat → Nat) (s : vstate) (hs : single_seq_inv inp s)
    (hne : s.candidates ≠ []) :
    sequential_step inp cfg r 0 s =
      { sequential_place inp cfg 0 s (sequential_top cfg r s)
          (make_heap (eval_lambda cfg r s.costs) s.candidates)
          (s.costs (sequential_top cfg r s)) false with
        candidates := pop_back (pop_heap (eval_lambda cfg r
          (update_cost (inp.loc (sequential_top cfg r s)) s.costs s.parents
            (make_heap (eval_lambda cfg r s.costs) s.candidates) inp).1)
          (make_heap (eval_lambda cfg r s.costs) s.candidates)) } := by
  have hf := single_seq_fits inp cfg hnonneg r s hs hne
  unfold sequential_top at hf
  unfold sequential_step sequential_try sequential_pop
  rw [if_pos hf]
  rfl

include hV1 hnonneg in
theorem single_seq_step (r : Nat → Nat) (s : vstate) (hs : single_seq_inv inp s)
    (hne : s.candidates ≠ []) : single_seq_inv inp (sequential_step inp cfg r 0 s) := by
  rw [single_seq_step_eq inp cfg hnonneg r s hs hne]
  apply single_seq_place inp cfg hV1 s _ _ _ _ false hs
  have hp := make_heap_perm (eval_lambda cfg r s.costs) s.candidates
  have hne2 : make_heap (eval_lambda cfg r s.costs) s.candidates ≠ [] := by
    intro he; rw [he] at hp; exact hne (List.Perm.nil_eq hp).symm
  refine ((pop_back_pop_heap_perm _ _).cons _).trans ?_
  unfold sequential_top
  rw [nth_zero_cons_tail _ hne2]
  exact hp

include hV1 hnonneg in
theorem single_seq_loop (r : Nat → Nat) :
    ∀ (fuel : Nat) (s : vstate), single_seq_inv inp s →
      single_seq_inv inp (sequential_loop inp cfg r 0 fuel s) := by
  intro fuel
  induction fuel with
  | zero => intro s h; exact h
  | succ n ih =>
    intro s h
    unfold sequential_loop
    split
    · exact h
    · rename_i hne
      exact ih _ (single_seq_step inp cfg hV1 hnonneg r s h (by simpa using hne))

include hV1 hcompat hnonneg hcap hset in
theorem single_seq_steps (n : Nat) :
    single_seq_inv inp (sequential_steps inp cfg init 0 n) :=
  single_seq_loop inp cfg hV1 hnonneg _ n _
    (single_seq_seed inp cfg init hV1 _
      (single_seq_begin inp cfg init hcompat hnonneg hcap hset))

include hV1 in
theorem single_sequential_regrets : sequential_regrets inp cfg = fun _ _ => 0 := by
  unfold sequential_regrets
  rw [if_neg (by omega)]

end single_vehicle

theorem key_le_cost (p q : Nat) (regrets costs : Nat → Nat) (j t : Nat) (hq : 0 < q)
    (hr : regrets j = regrets t)
    (h : exact_key p q regrets costs j ≤ exact_key p q regrets costs t) :
    costs t ≤ costs j := by
  unfold exact_key at h
  rw [hr] at h
  have h1 : (q : Int) * (costs t : Int) ≤ (q : Int) * (costs j : Int) := by linarith
  have h2 : (costs t : Int) ≤ (costs j : Int) :=
    Int.le_of_mul_le_mul_left h1 (by exact_mod_cast hq)
  exact_mod_cast h2

theorem ne_nil_of_mem_list (l : List Nat) (h : l ≠ []) : ∃ x, x ∈ l := by
  cases l with
  | nil => exact absurd rfl h
  | cons x t => exact ⟨x, List.mem_cons_self _ _⟩

section single_vehicle

variable (inp : input) (cfg : config) (init : INIT_T) (p q : Nat)
  (hV1 : inp.V = 1)
  (hcompat : ∀ j, j < inp.J → inp._vehicle_to_job_compatibility 0 j = true)
  (hnonneg : ∀ j, j < inp.J → 0 ≤ inp.amount j)
  (hcap : ((List.range inp.J).map inp.amount).sum ≤ (inp.vehicle 0).capacity)
  (hM : ∀ a b, inp.matrix a b < cfg.cost_max)
  (hV : ∀ v, v < inp.V → (inp.vehicle v).start ≠ none ∨ (inp.vehicle v).end_ ≠ none)
  (hq : 0 < q) (he : cfg.eval = exact_eval p q)
  (hset : cfg.set_order.Perm (List.range inp.J))
  (hd : cfg.dangling 0 = 0)

include hV1 hcompat hnonneg hcap hM hV in
/-- One vehicle whose capacity covers the total demand, parallel heuristic:
every job is assigned. -/
theorem single_parallel_all :
    (parallel_clustering inp cfg init (List.range inp.J)).unassigned = [] := by
  obtain ⟨n, _, h2, _, h4⟩ := parallel_loop_terminates inp cfg init
  rw [h4]
  have hs := single_reach inp cfg init hV1 hcompat hnonneg hcap hM hV _
    (parallel_rounds_reach inp cfg init n)
  cases n with
  | zero =>
    have : (parallel_rounds inp cfg init 0).candidates_remaining = true := by
      rw [parallel_rounds_zero]; exact parallel_seeded_flag inp cfg init _
    rw [this] at h2
    exact absurd h2 (by simp)
  | succ m =>
    rw [parallel_rounds_succ] at h2 hs ⊢
    rw [parallel_round_flag] at h2
    cases hu : (parallel_round inp cfg (parallel_rounds inp cfg init m)).unassigned with
    | nil => rfl
    | cons x t =>
      exfalso
      have hx := hs.un x (by rw [hu]; exact List.mem_cons_self _ _)
      have := (any_candidate_iff inp _).2 ⟨0, by omega, List.ne_nil_of_mem hx⟩
      rw [h2] at this
      exact absurd this (by simp)

include hV1 hcompat hd in
/-- One vehicle, parallel heuristic, policy `NEAREST`, with a comparator that
reads the rank `0`: the seed has the least cost among all jobs. -/
theorem single_parallel_first (hJ : 0 < inp.J) :
    ∃ j0, (parallel_rounds inp cfg INIT_T.NEAREST 0).clusters 0 = [j0] ∧
      ∀ j, j < inp.J →
        (parallel_init inp cfg (List.range inp.J)).costs 0 j0 ≤
          (parallel_init inp cfg (List.range inp.J)).costs 0 j := by
  have hcand : ∀ j, j < inp.J → j ∈ (parallel_init inp cfg (List.range inp.J)).candidates 0 := by
    intro j hj
    simp only [parallel_init, parallel_candidates]
    rw [if_pos (by omega), List.mem_filter, List.mem_range]
    exact ⟨hj, hcompat j hj⟩
  have hne : (parallel_init inp cfg (List.range inp.J)).candidates 0 ≠ [] :=
    List.ne_nil_of_mem (hcand 0 hJ)
  have hlt := min_element_lt
    (nearest_init_lambda ((parallel_init inp cfg (List.range inp.J)).costs 0)) _ hne
  have h0 : parallel_rounds inp cfg INIT_T.NEAREST 0 =
      parallel_seed inp cfg INIT_T.NEAREST (parallel_init inp cfg (List.range inp.J)) 0 := by
    rw [parallel_rounds_zero, hV1]
    rfl
  refine ⟨nth ((parallel_init inp cfg (List.range inp.J)).candidates 0)
    (min_element (nearest_init_lambda ((parallel_init inp cfg (List.range inp.J)).costs 0))
      ((parallel_init inp cfg (List.range inp.J)).candidates 0)), ?_, ?_⟩
  · rw [h0]
    unfold parallel_seed
    rw [hd]
    simp only [init_job]
    rw [if_pos (Nat.ne_of_lt hlt)]
    simp [parallel_place, parallel_init]
  · intro j hj
    exact min_element_min _ ((parallel_init inp cfg (List.range inp.J)).costs 0)
      (fun _ _ => rfl) _ j (hcand j hj)

include hV1 hcompat hnonneg hcap hM hV hq he hd in
/-- One vehicle whose capacity covers the total demand, parallel heuristic with
`eval` exact and a comparator that reads the rank `0`: a round with a job left
places the favourite of the vehicle, which has the least cost among the
unassigned jobs. -/
theorem single_parallel_next (n : Nat)
    (hu : (parallel_rounds inp cfg init n).unassigned ≠ []) :
    (parallel_rounds inp cfg init (n + 1)).clusters 0 =
        (parallel_rounds inp cfg init n).clusters 0 ++
          [top_candidate cfg (parallel_rounds inp cfg init n) 0] ∧
      ∀ j, j ∈ (parallel_rounds inp cfg init n).unassigned →
        (parallel_rounds inp cfg init n).costs 0
            (top_candidate cfg (parallel_rounds inp cfg init n) 0) ≤
          (parallel_rounds inp cfg init n).costs 0 j := by
  have hr := parallel_rounds_reach inp cfg init n
  have hs := single_reach inp cfg init hV1 hcompat hnonneg hcap hM hV _ hr
  obtain ⟨x, hx⟩ := ne_nil_of_mem_list _ hu
  have hne : (parallel_rounds inp cfg init n).candidates 0 ≠ [] :=
    List.ne_nil_of_mem (hs.un x hx)
  obtain ⟨hok, h0, hj⟩ := single_selects inp cfg init hV1 hnonneg hM hV _ hr hs hne
  constructor
  · rw [parallel_rounds_succ]
    unfold parallel_round
    rw [if_neg (by simp [hok])]
    simp only [parallel_assign, parallel_place]
    rw [h0, hj, Function.update_same]
  · intro j hju
    have hjc := hs.un j hju
    have htc := top_candidate_mem cfg (parallel_rounds inp cfg init n) 0 hne
    have hk := top_candidate_key cfg p q he (parallel_rounds inp cfg init n) 0 j hjc
    rw [hd] at hk
    exact key_le_cost p q _ _ j _ hq ((hs.reg j hjc).trans (hs.reg _ htc).symm) hk

include hV1 hcompat hnonneg hcap hset in
/-- One vehicle whose capacity covers the total demand, sequential heuristic:
every job is assigned. -/
theorem single_sequential_all :
    (sequential_clustering inp cfg init (List.range inp.J)).unassigned = [] := by
  rw [sequential_clustering_eq, hV1, sequential_vehicles_succ]
  have hs := single_seq_steps inp cfg init hV1 hcompat hnonneg hcap hset
    (sequential_seeded inp cfg init 0).candidates.length
  have hl := sequential_loop_length inp cfg (sequential_regrets inp cfg 0) 0
    (sequential_seeded inp cfg init 0).candidates.length (sequential_seeded inp cfg init 0)
  have hc : (sequential_steps inp cfg init 0
      (sequential_seeded inp cfg init 0).candidates.length).candidates = [] := by
    apply List.eq_nil_of_length_eq_zero
    unfold sequential_steps
    omega
  cases hu : (sequential_steps inp cfg init 0
      (sequential_seeded inp cfg init 0).candidates.length).g.unassigned with
  | nil => rfl
  | cons x t =>
    have := hs.un x (by rw [hu]; exact List.mem_cons_self _ _)
    rw [hc] at this
    simp at this

include hcompat hnonneg hcap hset hd in
/-- One vehicle, sequential heuristic, policy `NEAREST`, with a comparator that
reads the rank `0`: the seed has the least entry of `vehicles_to_job_costs`
among all jobs. -/
theorem single_sequential_first (hJ : 0 < inp.J) :
    ∃ j0, (sequential_seeded inp cfg INIT_T.NEAREST 0).g.clusters 0 = [j0] ∧
      ∀ j, j < inp.J →
        vehicles_to_job_costs inp cfg 0 j0 ≤ vehicles_to_job_costs inp cfg 0 j := by
  have hb := single_seq_begin inp cfg INIT_T.NEAREST hcompat hnonneg hcap hset
  have hcand : ∀ j, j < inp.J →
      j ∈ (sequential_begin inp cfg 0 (sequential_vehicles inp cfg INIT_T.NEAREST 0)).candidates :=
    fun j hj => hb.un j (List.mem_range.2 hj)
  have hne := List.ne_nil_of_mem (hcand 0 hJ)
  have hlt := min_element_lt (nearest_init_lambda (vehicles_to_job_costs inp cfg 0)) _ hne
  refine ⟨nth (sequential_begin inp cfg 0 (sequential_vehicles inp cfg INIT_T.NEAREST 0)).candidates
    (min_element (nearest_init_lambda (vehicles_to_job_costs inp cfg 0))
      (sequential_begin inp cfg 0 (sequential_vehicles inp cfg INIT_T.NEAREST 0)).candidates),
    ?_, ?_⟩
  · unfold sequential_seeded sequential_seed
    rw [hd]
    simp only [init_job]
    rw [if_pos ⟨by decide, Nat.ne_of_lt hlt⟩]
    simp [sequential_place, sequential_begin, sequential_vehicles, sequential_start]
  · intro j hj
    exact min_element_min _ (vehicles_to_job_costs inp cfg 0) (fun _ _ => rfl) _ j (hcand j hj)

include hV1 hcompat hnonneg hcap hq he hset in
/-- One vehicle whose capacity covers the total demand, sequential heuristic
with `eval` exact: an iteration with a job left places the favourite, which has
the least cost among the unassigned jobs. -/
theorem single_sequential_next (n : Nat)
    (hu : (sequential_steps inp cfg init 0 n).g.unassigned ≠ []) :
    (sequential_steps inp cfg init 0 (n + 1)).g.clusters 0 =
        (sequential_steps inp cfg init 0 n).g.clusters 0 ++
          [sequential_top cfg (sequential_regrets inp cfg 0) (sequential_steps inp cfg init 0 n)] ∧
      ∀ j, j ∈ (sequential_steps inp cfg init 0 n).g.unassigned →
        (sequential_steps inp cfg init 0 n).costs
            (sequential_top cfg (sequential_regrets inp cfg 0)
              (sequential_steps inp cfg init 0 n)) ≤
          (sequential_steps inp cfg init 0 n).costs j := by
  have hs := single_seq_steps inp cfg init hV1 hcompat hnonneg hcap hset n
  obtain ⟨x, hx⟩ := ne_nil_of_mem_list _ hu
  have hne : (sequential_steps inp cfg init 0 n).candidates ≠ [] :=
    List.ne_nil_of_mem (hs.un x hx)
  constructor
  · have hstep : sequential_steps inp cfg init 0 (n + 1) =
        sequential_step inp cfg (sequential_regrets inp cfg 0) 0
          (sequential_steps inp cfg init 0 n) := by
      unfold sequential_steps at hne ⊢
      rw [sequential_loop_succ, if_neg (by simpa using hne)]
    rw [hstep, single_seq_step_eq inp cfg hnonneg _ _ hs hne]
    simp only [sequential_place, Function.update_same]
  · intro j hju
    have hjc := hs.un j hju
    exact key_le_cost p q _ _ j _ hq (by rw [single_sequential_regrets inp cfg hV1])
      (sequential_top_key cfg p q he _ _ j hjc)

end single_vehicle

/-- Two inputs with one vehicle of capacity `10` and two compatible jobs of
demand `1`, policy `NEAREST`, `regret_coeff = 1`, comparators that read the
rank `0`.  On `far_job` the parallel heuristic leaves job `1` unassigned: its
cost is the maximum of `cost_t`, which the selection of lines 247-250 never
accepts for vehicle `0`.  On `cheap_return` the sequential heuristic seeds the
vehicle with job `1`, whose maintained cost is `5`, although job `0` has the
maintained cost `1`: the seed is chosen by `vehicles_to_job_costs`, where job
`0` costs `10`. -/
theorem nearest_growth_counterexample :
    (((List.range far_job.J).map far_job.amount).sum ≤ (far_job.vehicle 0).capacity ∧
      clustering.clustering far_job (cfg32 2) CLUSTERING_T.PARALLEL INIT_T.NEAREST
        = ⟨[[0]], 10, [1]⟩) ∧
    ((sequential_seeded cheap_return (cfg32 2) INIT_T.NEAREST 0).g.clusters 0 = [1] ∧
      (sequential_begin cheap_return (cfg32 2) 0
        (sequential_start (cfg32 2) (List.range 2))).costs 1 = 5 ∧
      (sequential_begin cheap_return (cfg32 2) 0
        (sequential_start (cfg32 2) (List.range 2))).costs 0 = 1) := by
  decide

/-- Nearest-first growth with one vehicle, in the runs whose comparators read
the rank `0` of the vehicle through their reference to the dead parameter `v`
(`dangling 0 = 0`).  Let the input have one vehicle, with a start or an end,
compatible with every job and of capacity at least the total of the demands,
which are not negative; let `eval` be the exact comparison for
`regret_coeff = p / q` with `0 < q`, the policy be `NEAREST`, every entry of
the matrix be below the maximum of `cost_t`, and `candidates_set` iterate over
the ranks `0 .. J-1` once each.  Then, for the parallel heuristic: every job
is assigned; the first member of the cluster has the least cost `costs[0][j]`
(after the updates from the start and end) among all jobs; and each round with
a job left appends to the cluster the favourite of the vehicle, whose current
cost is the least among the unassigned jobs.  For the sequential heuristic:
every job is assigned; the first member of the cluster has the least entry
`vehicles_to_job_costs[0][j]` among all jobs; and each iteration with a job
left appends to the cluster the favourite, whose current cost is the least
among the unassigned jobs. -/
theorem nearest_single_vehicle (inp : input) (cfg : config) (p q : Nat)
    (hV1 : inp.V = 1)
    (hcompat : ∀ j, j < inp.J → inp._vehicle_to_job_compatibility 0 j = true)
    (hnonneg : ∀ j, j < inp.J → 0 ≤ inp.amount j)
    (hcap : ((List.range inp.J).map inp.amount).sum ≤ (inp.vehicle 0).capacity)
    (hM : ∀ a b, inp.matrix a b < cfg.cost_max)
    (hV : ∀ v, v < inp.V → (inp.vehicle v).start ≠ none ∨ (inp.vehicle v).end_ ≠ none)
    (hq : 0 < q) (he : cfg.eval = exact_eval p q)
    (hset : cfg.set_order.Perm (List.range inp.J)) (hd : cfg.dangling 0 = 0) :
    ((parallel_clustering inp cfg INIT_T.NEAREST (List.range inp.J)).unassigned = [] ∧
      (0 < inp.J → ∃ j0, (parallel_rounds inp cfg INIT_T.NEAREST 0).clusters 0 = [j0] ∧
        ∀ j, j < inp.J →
          (parallel_init inp cfg (List.range inp.J)).costs 0 j0 ≤
            (parallel_init inp cfg (List.range inp.J)).costs 0 j) ∧
      ∀ n, (parallel_rounds inp cfg INIT_T.NEAREST n).unassigned ≠ [] →
        (parallel_rounds inp cfg INIT_T.NEAREST (n + 1)).clusters 0 =
            (parallel_rounds inp cfg INIT_T.NEAREST n).clusters 0 ++
              [top_candidate cfg (parallel_rounds inp cfg INIT_T.NEAREST n) 0] ∧
          ∀ j, j ∈ (parallel_rounds inp cfg INIT_T.NEAREST n).unassigned →
            (parallel_rounds inp cfg INIT_T.NEAREST n).costs 0
                (top_candidate cfg (parallel_rounds inp cfg INIT_T.NEAREST n) 0) ≤
              (parallel_rounds inp cfg INIT_T.NEAREST n).costs 0 j) ∧
    ((sequential_clustering inp cfg INIT_T.NEAREST (List.range inp.J)).unassigned = [] ∧
      (0 < inp.J → ∃ j0, (sequential_seeded inp cfg INIT_T.NEAREST 0).g.clusters 0 = [j0] ∧
        ∀ j, j < inp.J →
          vehicles_to_job_costs inp cfg 0 j0 ≤ vehicles_to_job_costs inp cfg 0 j) ∧
      ∀ n, (sequential_steps inp cfg INIT_T.NEAREST 0 n).g.unassigned ≠ [] →
        (sequential_steps inp cfg INIT_T.NEAREST 0 (n + 1)).g.clusters 0 =
            (sequential_steps inp cfg INIT_T.NEAREST 0 n).g.clusters 0 ++
              [sequential_top cfg (sequential_regrets inp cfg 0)
                (sequential_steps inp cfg INIT_T.NEAREST 0 n)] ∧
          ∀ j, j ∈ (sequential_steps inp cfg INIT_T.NEAREST 0 n).g.unassigned →
            (sequential_steps inp cfg INIT_T.NEAREST 0 n).costs
                (sequential_top cfg (sequential_regrets inp cfg 0)
                  (sequential_steps inp cfg INIT_T.NEAREST 0 n)) ≤
              (sequential_steps inp cfg INIT_T.NEAREST 0 n).costs j) :=
  ⟨⟨single_parallel_all inp cfg INIT_T.NEAREST hV1 hcompat hnonneg hcap hM hV,
      single_parallel_first inp cfg hV1 hcompat hd,
      single_parallel_next inp cfg INIT_T.NEAREST p q hV1 hcompat hnonneg hcap hM hV hq he hd⟩,
    ⟨single_sequential_all inp cfg INIT_T.NEAREST hV1 hcompat hnonneg hcap hset,
      single_sequential_first inp cfg hcompat hnonneg hcap hset hd,
      single_sequential_next inp cfg INIT_T.NEAREST p q hV1 hcompat hnonneg hcap hq he hset⟩⟩

/-- Nearest-first growth at scenario 2 of the specification, with comparators
that read the rank `0`: both heuristics assign every job, and the cluster is the job at location `1`, then the job at
location `3`, then the job at location `2`, with `edges_cost = 20`. -/
theorem nearest_single_vehicle_witness :
    ((parallel_clustering scenario2 (cfg32 3) INIT_T.NEAREST
        (List.range scenario2.J)).unassigned = [] ∧
      (sequential_clustering scenario2 (cfg32 3) INIT_T.NEAREST
        (List.range scenario2.J)).unassigned = []) ∧
    clustering.clustering scenario2 (cfg32 3) CLUSTERING_T.PARALLEL INIT_T.NEAREST
      = ⟨[[0, 2, 1]], 20, []⟩ ∧
    clustering.clustering scenario2 (cfg32 3) CLUSTERING_T.SEQUENTIAL INIT_T.NEAREST
      = ⟨[[0, 2, 1]], 20, []⟩ := by
  have hM : ∀ a b, scenario2.matrix a b < (cfg32 3).cost_max := by
    intro a b
    rcases a with _ | _ | _ | _ | a <;> rcases b with _ | _ | _ | _ | b <;>
      simp [scenario2, matrix_of, cfg32]
  have hV : ∀ v, v < scenario2.V →
      (scenario2.vehicle v).start ≠ none ∨ (scenario2.vehicle v).end_ ≠ none := by
    intro v hv
    have h1 : scenario2.V = 1 := rfl
    have h0 : v = 0 := by omega
    subst h0
    decide
  have h := nearest_single_vehicle scenario2 (cfg32 3) 1 1 rfl (fun _ _ => rfl) (by decide)
    (by decide) hM hV (by decide) rfl (List.reverse_perm _) rfl
  exact ⟨⟨h.1.1, h.2.1⟩, by decide, by decide⟩

theorem update_cost_step_snd (from_index : Nat) (inp : input) (cp : (Nat → Nat) × (Nat → Nat))
    (x j : Nat) :
    (update_cost_step from_index inp cp x).2 j =
      if j = x ∧ dist inp from_index j < cp.1 j then from_index else cp.2 j := by
  unfold update_cost_step dist
  by_cases hj : j = x
  · subst hj
    split
    · rename_i h
      simp [h]
    · rename_i h
      simp [h]
  · split
    · simp [Function.update_noteq hj, hj]
    · simp [hj]

theorem foldl_update_cost_snd (from_index : Nat) (inp : input) :
    ∀ (l : List Nat) (cp : (Nat → Nat) × (Nat → Nat)) (j : Nat),
      (l.foldl (update_cost_step from_index inp) cp).2 j =
        if j ∈ l ∧ dist inp from_index j < cp.1 j then from_index else cp.2 j := by
  intro l
  induction l with
  | nil => intro cp j; simp
  | cons x t ih =>
    intro cp j
    rw [List.foldl_cons, ih, update_cost_step_fst, update_cost_step_snd]
    by_cases hx : j = x
    · subst hx
      by_cases hd : dist inp from_index j < cp.1 j
      · have : ¬ dist inp from_index j < min (cp.1 j) (dist inp from_index j) := by omega
        simp [hd, this]
      · have : ¬ dist inp from_index j < min (cp.1 j) (dist inp from_index j) := by omega
        simp [hd, this]
    · simp [hx]

/-- The parents after `update_cost`: a candidate whose distance to `from_index`
is below its cost gets `from_index`, the other jobs keep their parent. -/
theorem update_cost_snd (from_index : Nat) (costs parents : Nat → Nat) (candidates : List Nat)
    (inp : input) (j : Nat) :
    (update_cost from_index costs parents candidates inp).2 j =
      if j ∈ candidates ∧ dist inp from_index j < costs j then from_index else parents j :=
  foldl_update_cost_snd from_index inp candidates (costs, parents) j

/-- C17 (cost-update primitive).  After `update_cost` from `from_index`, a job
`j` of the candidate list has the smaller of its former cost and of
`min (m[from_index][loc j], m[loc j][from_index])`, its parent is `from_index`
when that minimum is below its former cost and is unchanged otherwise; a job
outside the candidate list keeps its cost and its parent; no cost increases. -/
theorem update_cost_spec (from_index : Nat) (costs parents : Nat → Nat) (candidates : List Nat)
    (inp : input) (j : Nat) :
    ((update_cost from_index costs parents candidates inp).1 j =
      if j ∈ candidates then
        min (costs j)
          (min (inp.matrix from_index (inp.loc j)) (inp.matrix (inp.loc j) from_index))
      else costs j) ∧
    ((update_cost from_index costs parents candidates inp).2 j =
      if j ∈ candidates ∧
          min (inp.matrix from_index (inp.loc j)) (inp.matrix (inp.loc j) from_index) < costs j
      then from_index else parents j) ∧
    (update_cost from_index costs parents candidates inp).1 j ≤ costs j :=
  ⟨update_cost_fst from_index costs parents candidates inp j,
    update_cost_snd from_index costs parents candidates inp j,
    update_cost_le from_index costs parents candidates inp j⟩

/-! ### The fold of `current_regret` -/

/-- The fold of lines 126-134 over the vehicles `0 .. n-1`. -/
theorem regret_fold_spec (cost_max v j : Nat) (costs : Nat → Nat → Nat) :
    ∀ n : Nat,
      (List.range n).foldl
          (fun cur other_v =>
            if v = other_v ∨ costs other_v j = cost_max then cur else min cur (costs other_v j))
          cost_max ≤ cost_max ∧
      (∀ w, w < n → w ≠ v → costs w j ≠ cost_max →
        (List.range n).foldl
            (fun cur other_v =>
              if v = other_v ∨ costs other_v j = cost_max then cur else min cur (costs other_v j))
            cost_max ≤ costs w j) ∧
      ((List.range n).foldl
          (fun cur other_v =>
            if v = other_v ∨ costs other_v j = cost_max then cur else min cur (costs other_v j))
          cost_max = cost_max ∨
        ∃ w, w < n ∧ w ≠ v ∧ costs w j ≠ cost_max ∧
          (List.range n).foldl
              (fun cur other_v =>
                if v = other_v ∨ costs other_v j = cost_max then cur
                else min cur (costs other_v j))
              cost_max = costs w j) := by
  intro n
  induction n with
  | zero =>
    refine ⟨by simp, fun w hw => absurd hw (Nat.not_lt_zero w), Or.inl (by simp)⟩
  | succ n ih =>
    rw [List.range_succ, List.foldl_append]
    simp only [List.foldl_cons, List.foldl_nil]
    generalize (List.range n).foldl
      (fun cur other_v =>
        if v = other_v ∨ costs other_v j = cost_max then cur else min cur (costs other_v j))
      cost_max = cur at ih ⊢
    obtain ⟨h1, h2, h3⟩ := ih
    by_cases hc : v = n ∨ costs n j = cost_max
    · rw [if_pos hc]
      refine ⟨h1, ?_, ?_⟩
      · intro w hw hwv hwc
        by_cases hwn : w = n
        · subst hwn
          rcases hc with h | h
          · exact absurd h.symm hwv
          · exact absurd h hwc
        · exact h2 w (by omega) hwv hwc
      · rcases h3 with h | ⟨w, hw, hwv, hwc, he⟩
        · exact Or.inl h
        · exact Or.inr ⟨w, by omega, hwv, hwc, he⟩
    · rw [if_neg hc]
      rw [not_or] at hc
      refine ⟨le_trans (Nat.min_le_left _ _) h1, ?_, ?_⟩
      · intro w hw hwv hwc
        by_cases hwn : w = n
        · subst hwn; exact Nat.min_le_right _ _
        · exact le_trans (Nat.min_le_left _ _) (h2 w (by omega) hwv hwc)
      · by_cases hle : cur ≤ costs n j
        · rw [Nat.min_eq_left hle]
          rcases h3 with h | ⟨w, hw, hwv, hwc, he⟩
          · exact Or.inl h
          · exact Or.inr ⟨w, by omega, hwv, hwc, he⟩
        · rw [Nat.min_eq_right (by omega)]
          exact Or.inr ⟨n, by omega, fun e => hc.1 e.symm, hc.2, rfl⟩

theorem current_regret_le_max (inp : input) (cfg : config) (costs : Nat → Nat → Nat)
    (v j : Nat) : current_regret inp cfg costs v j ≤ cfg.cost_max :=
  (regret_fold_spec cfg.cost_max v j costs inp.V).1

theorem current_regret_le (inp : input) (cfg : config) (costs : Nat → Nat → Nat) (v j w : Nat)
    (hw : w < inp.V) (hwv : w ≠ v) (hc : costs w j ≠ cfg.cost_max) :
    current_regret inp cfg costs v j ≤ costs w j :=
  (regret_fold_spec cfg.cost_max v j costs inp.V).2.1 w hw hwv hc

theorem current_regret_attained (inp : input) (cfg : config) (costs : Nat → Nat → Nat)
    (v j : Nat) :
    current_regret inp cfg costs v j = cfg.cost_max ∨
      ∃ w, w < inp.V ∧ w ≠ v ∧ costs w j ≠ cfg.cost_max ∧
        current_regret inp cfg costs v j = costs w j :=
  (regret_fold_spec cfg.cost_max v j costs inp.V).2.2

theorem endpoint_costs_le_max (inp : input) (cfg : config) (v : Nat) (candidates : List Nat)
    (j : Nat) : (endpoint_costs inp cfg v candidates).1 j ≤ cfg.cost_max := by
  rw [endpoint_costs_fst]
  split
  · cases (inp.vehicle v).start with
    | none =>
      cases (inp.vehicle v).end_ with
      | none => exact le_refl _
      | some e => exact Nat.min_le_left _ _
    | some s =>
      cases (inp.vehicle v).end_ with
      | none => exact Nat.min_le_left _ _
      | some e => exact le_trans (Nat.min_le_left _ _) (Nat.min_le_left _ _)
  · exact le_refl _

theorem max_element_loop_max (comp : Nat → Nat → Bool)
    (htrans : ∀ i j k, comp i j = true → comp j k = true → comp i k = true)
    (hirr : ∀ i, comp i i = false) (a : List Nat) :
    ∀ (rest : List Nat) (i r : Nat), a.drop i = rest →
      (∀ k, k < i → comp (nth a r) (nth a k) = false) →
      ∀ k, k < a.length → comp (nth a (max_element_loop comp a rest i r)) (nth a k) = false := by
  intro rest
  induction rest with
  | nil =>
    intro i r hd hr k hk
    have : a.length ≤ i := by
      by_contra hlt
      have := List.drop_eq_getElem_cons (Nat.lt_of_not_le hlt)
      rw [hd] at this
      simp at this
      exact hlt this
    exact hr k (by omega)
  | cons x t ih =>
    intro i r hd hr k hk
    have hi : i < a.length := by
      by_contra hge
      rw [List.drop_of_length_le (by omega)] at hd
      simp at hd
    have hcons := List.drop_eq_getElem_cons hi
    rw [hd] at hcons
    have hx : x = nth a i := by
      rw [nth_eq_getElem a i hi]
      exact (List.cons.inj hcons).1
    have ht : a.drop (i + 1) = t := ((List.cons.inj hcons).2).symm
    unfold max_element_loop
    apply ih (i + 1) _ ht _ k hk
    intro m hm
    by_cases hc : comp (nth a r) x = true
    · rw [if_pos hc, ← hx]
      by_cases hmi : m = i
      · rw [hmi, ← hx]; exact hirr x
      · have h1 := hr m (by omega)
        cases h2 : comp x (nth a m) with
        | false => rfl
        | true => rw [htrans _ _ _ hc h2] at h1; exact absurd h1 (by simp)
    · rw [if_neg hc]
      by_cases hmi : m = i
      · rw [hmi, ← hx]; simpa using hc
      · exact hr m (by omega)

/-- No element compares greater than the one at the position returned by
`std::max_element`, for a transitive and irreflexive comparison. -/
theorem max_element_max (comp : Nat → Nat → Bool)
    (htrans : ∀ i j k, comp i j = true → comp j k = true → comp i k = true)
    (hirr : ∀ i, comp i i = false) (a : List Nat) (x : Nat) (hx : x ∈ a) :
    comp (nth a (max_element comp a)) x = false := by
  obtain ⟨k, hk, rfl⟩ := List.getElem_of_mem hx
  rw [← nth_eq_getElem a k hk]
  cases a with
  | nil => simp at hk
  | cons y t =>
    unfold max_element
    apply max_element_loop_max comp htrans hirr (y :: t) t 1 0 rfl _ k hk
    intro m hm
    have : m = 0 := by omega
    rw [this]
    exact hirr _

theorem higher_amount_max (inp : input) (costs : Nat → Nat) (a : List Nat) (j : Nat)
    (hj : j ∈ a) :
    inp.amount j ≤ inp.amount (nth a (max_element (higher_amount_init_lambda inp costs) a)) ∧
    (inp.amount j = inp.amount (nth a (max_element (higher_amount_init_lambda inp costs) a)) →
      costs j ≤ costs (nth a (max_element (higher_amount_init_lambda inp costs) a))) := by
  have h := max_element_max (higher_amount_init_lambda inp costs) ?_ ?_ a j hj
  · unfold higher_amount_init_lambda at h
    simp only [decide_eq_false_iff_not, not_or, not_lt, not_and] at h
    refine ⟨h.1, fun he => h.2 he.symm⟩
  · intro i j k h1 h2
    unfold higher_amount_init_lambda at *
    simp only [decide_eq_true_eq] at *
    omega
  · intro i
    unfold higher_amount_init_lambda
    simp

theorem parallel_seeded_succ (inp : input) (cfg : config) (init : INIT_T) (k : Nat) :
    parallel_seeded inp cfg init (k + 1) =
      parallel_seed inp cfg init (parallel_seeded inp cfg init k) k := by
  unfold parallel_seeded
  rw [List.range_succ, List.foldl_append]
  rfl

theorem nth_cons_pop_perm (comp : Nat → Nat → Bool) (a : List Nat) (ha : a ≠ []) :
    (nth a 0 :: pop_back (pop_heap comp a)).Perm a := by
  refine (List.Perm.cons _ (pop_back_pop_heap_perm comp a)).trans ?_
  cases a with
  | nil => exact absurd rfl ha
  | cons x t => exact List.Perm.refl _

/-- Induction over the states of the sequential heuristic, with the variables
local to a vehicle: `P k` is a property of the members of the object once `k`
vehicles are done and `Q v` a property of the state of vehicle `v`; a placement
hands to `update_cost` a list `upd` between the candidates kept and the former
candidates. -/
theorem sequential_vehicle_induction (inp : input) (cfg : config) (init : INIT_T)
    (P : Nat → sstate → Prop) (Q : Nat → vstate → Prop)
    (h0 : P 0 (sequential_start cfg (List.range inp.J)))
    (hbegin : ∀ v g, v < inp.V → P v g → Q v (sequential_begin inp cfg v g))
    (hplace : ∀ (v : Nat) (s : vstate) (j : Nat) (upd kept : List Nat) (cost : Nat)
      (seed : Bool), v < inp.V → Q v s → j ∈ s.candidates → kept ⊆ upd → upd ⊆ s.candidates →
      Q v { sequential_place inp cfg v s j upd cost seed with candidates := kept })
    (hdrop : ∀ (v : Nat) (s : vstate) (kept : List Nat), v < inp.V → Q v s →
      kept ⊆ s.candidates → Q v { s with candidates := kept })
    (hend : ∀ v s, v < inp.V → Q v s → P (v + 1) s.g) :
    (∀ k, k ≤ inp.V → P k (sequential_vehicles inp cfg init k)) ∧
    (∀ v, v < inp.V →
      Q v (sequential_begin inp cfg v (sequential_vehicles inp cfg init v))) ∧
    (∀ v n, v < inp.V → Q v (sequential_steps inp cfg init v n)) := by
  have hsd : ∀ v s, v < inp.V → Q v s → Q v (sequential_seed inp cfg init v s) := by
    intro v s hv h
    unfold sequential_seed
    split
    · rename_i hne
      have hlt : init_job inp init (vehicles_to_job_costs inp cfg (cfg.dangling v)) s.candidates
          < s.candidates.length := lt_of_le_of_ne (init_job_le _ _ _ _) hne.2
      exact hplace v s _ _ _ _ true hv h (nth_mem _ _ hlt) (fun _ hx => hx)
        (fun _ hx => List.mem_of_mem_eraseIdx hx)
    · exact h
  have hst : ∀ r v s, v < inp.V → s.candidates ≠ [] → Q v s →
      Q v (sequential_step inp cfg r v s) := by
    intro r v s hv hne h
    have hp := make_heap_perm (eval_lambda cfg r s.costs) s.candidates
    have hne2 : make_heap (eval_lambda cfg r s.costs) s.candidates ≠ [] := by
      intro h0
      rw [h0] at hp
      exact hne hp.symm.eq_nil
    have hlen : 0 < (make_heap (eval_lambda cfg r s.costs) s.candidates).length :=
      List.length_pos.2 hne2
    unfold sequential_step sequential_pop sequential_try
    split
    · exact hplace v s _ (make_heap (eval_lambda cfg r s.costs) s.candidates) _ _ false hv h
        (hp.subset (nth_mem _ _ hlen))
        (fun x hx => (nth_cons_pop_perm _ _ hne2).subset (List.mem_cons_of_mem _ hx))
        hp.subset
    · exact hdrop v s _ hv h
        (fun x hx => hp.subset ((nth_cons_pop_perm _ _ hne2).subset (List.mem_cons_of_mem _ hx)))
  have hlp : ∀ r v fuel s, v < inp.V → Q v s → Q v (sequential_loop inp cfg r v fuel s) := by
    intro r v fuel
    induction fuel with
    | zero => intro s _ h; exact h
    | succ n ih =>
      intro s hv h
      unfold sequential_loop
      split
      · exact h
      · rename_i hne
        exact ih _ hv (hst r v s hv (by simpa using hne) h)
  have hk : ∀ k, k ≤ inp.V → P k (sequential_vehicles inp cfg init k) := by
    intro k
    induction k with
    | zero => intro _; exact h0
    | succ n ih =>
      intro hn
      unfold sequential_vehicles
      rw [List.range_succ, List.foldl_append]
      exact hend n _ (by omega)
        (hlp _ n _ _ (by omega) (hsd n _ (by omega) (hbegin n _ (by omega) (ih (by omega)))))
  exact ⟨hk, fun v hv => hbegin v _ hv (hk v (by omega)),
    fun v n hv => hlp _ v n _ hv (hsd v _ hv (hbegin v _ hv (hk v (by omega))))⟩

theorem dist_le (inp : input) (cfg : config) (hM : ∀ a b, inp.matrix a b ≤ cfg.cost_max)
    (a j : Nat) : dist inp a j ≤ cfg.cost_max := by
  unfold dist
  exact le_trans (Nat.min_le_left _ _) (hM _ _)

/-- One call of `update_cost` from the node `n` turns the least distance to the
nodes of `B` (or the maximum when `B` has no node) into the least distance to
the nodes of `B` and `n`. -/
theorem update_least (inp : input) (cfg : config) (hM : ∀ a b, inp.matrix a b ≤ cfg.cost_max)
    (B B' : Nat → Prop) (n : Nat) (hB : ∀ m, B' m ↔ B m ∨ m = n)
    (costs parents : Nat → Nat) (cands : List Nat) (j : Nat) (hj : j ∈ cands)
    (hlow : ∀ m, B m → costs j ≤ dist inp m j)
    (hatt : (∃ m, B m ∧ costs j = dist inp m j) ∨ costs j = cfg.cost_max) :
    (∃ m, B' m ∧ (update_cost n costs parents cands inp).1 j = dist inp m j) ∧
      ∀ m, B' m → (update_cost n costs parents cands inp).1 j ≤ dist inp m j := by
  rw [update_cost_fst, if_pos hj]
  have hd := dist_le inp cfg hM n j
  constructor
  · by_cases hlt : dist inp n j ≤ costs j
    · exact ⟨n, (hB n).2 (Or.inr rfl), Nat.min_eq_right hlt⟩
    · have hlt' : costs j ≤ dist inp n j := by omega
      rw [Nat.min_eq_left hlt']
      rcases hatt with ⟨m, hm, he⟩ | he
      · exact ⟨m, (hB m).2 (Or.inl hm), he⟩
      · exact ⟨n, (hB n).2 (Or.inr rfl), by omega⟩
  · intro m hm
    rcases (hB m).1 hm with h | h
    · exact le_trans (Nat.min_le_left _ _) (hlow m h)
    · rw [h]; exact Nat.min_le_right _ _

/-- One call of `update_cost` from a node `n` of `B'` keeps, or sets, a parent
in `B'` at the distance that is the cost. -/
theorem update_parent (inp : input) (cfg : config) (hM : ∀ a b, inp.matrix a b < cfg.cost_max)
    (B B' : Nat → Prop) (n : Nat) (hsub : ∀ m, B m → B' m) (hn : B' n)
    (costs parents : Nat → Nat) (cands : List Nat) (j : Nat) (hj : j ∈ cands)
    (hG : costs j = cfg.cost_max ∨ (B (parents j) ∧ dist inp (parents j) j = costs j)) :
    B' ((update_cost n costs parents cands inp).2 j) ∧
      dist inp ((update_cost n costs parents cands inp).2 j) j =
        (update_cost n costs parents cands inp).1 j := by
  rw [update_cost_fst, update_cost_snd, if_pos hj]
  have hd := dist_lt inp cfg hM n j
  by_cases hlt : dist inp n j < costs j
  · rw [if_pos ⟨hj, hlt⟩, Nat.min_eq_right (le_of_lt hlt)]
    exact ⟨hn, rfl⟩
  · rw [if_neg (fun h => hlt h.2), Nat.min_eq_left (by omega)]
    rcases hG with h | ⟨h1, h2⟩
    · omega
    · exact ⟨hsub _ h1, h2⟩

/-- After the updates from the start and the end of vehicle `v`, the cost of a
candidate is the least distance to the start and the end. -/
theorem endpoint_least (inp : input) (cfg : config) (hM : ∀ a b, inp.matrix a b ≤ cfg.cost_max)
    (v : Nat) (hV : (inp.vehicle v).start ≠ none ∨ (inp.vehicle v).end_ ≠ none)
    (cands : List Nat) (j : Nat) (hj : j ∈ cands) :
    (∃ m, ((inp.vehicle v).start = some m ∨ (inp.vehicle v).end_ = some m) ∧
        (endpoint_costs inp cfg v cands).1 j = dist inp m j) ∧
      ∀ m, ((inp.vehicle v).start = some m ∨ (inp.vehicle v).end_ = some m) →
        (endpoint_costs inp cfg v cands).1 j ≤ dist inp m j := by
  have first : ∀ n, (∃ m, m = n ∧
      (update_cost n (fun _ => cfg.cost_max) (fun _ => 0) cands inp).1 j = dist inp m j) ∧
      ∀ m, m = n →
        (update_cost n (fun _ => cfg.cost_max) (fun _ => 0) cands inp).1 j ≤ dist inp m j :=
    fun n => update_least inp cfg hM (fun _ => False) (fun m => m = n) n (by simp) _ _ cands j hj
      (by simp) (Or.inr rfl)
  unfold endpoint_costs
  cases hs : (inp.vehicle v).start with
  | none =>
    cases he : (inp.vehicle v).end_ with
    | none => rw [hs, he] at hV; simp at hV
    | some e => simpa [eq_comm] using first e
  | some s =>
    cases he : (inp.vehicle v).end_ with
    | none => simpa [eq_comm] using first s
    | some e =>
      simp only
      split
      · have second := update_least inp cfg hM (fun m => m = s) (fun m => s = m ∨ e = m) e
          (by intro m; constructor <;> rintro (h | h) <;> simp [h])
          (update_cost s (fun _ => cfg.cost_max) (fun _ => 0) cands inp).1
          (update_cost s (fun _ => cfg.cost_max) (fun _ => 0) cands inp).2 cands j hj
          (first s).2 (Or.inl (first s).1)
        simpa using second
      · rename_i hse
        have : s = e := by simpa using hse
        subst this
        simpa [eq_comm] using first s

/-- After the updates from the start and the end of vehicle `v`, the parent of
a candidate is the start or the end, at the distance that is the cost. -/
theorem endpoint_parent (inp : input) (cfg : config) (hM : ∀ a b, inp.matrix a b < cfg.cost_max)
    (v : Nat) (hV : (inp.vehicle v).start ≠ none ∨ (inp.vehicle v).end_ ≠ none)
    (cands : List Nat) (j : Nat) (hj : j ∈ cands) :
    ((inp.vehicle v).start = some ((endpoint_costs inp cfg v cands).2 j) ∨
        (inp.vehicle v).end_ = some ((endpoint_costs inp cfg v cands).2 j)) ∧
      dist inp ((endpoint_costs inp cfg v cands).2 j) j = (endpoint_costs inp cfg v cands).1 j := by
  have first : ∀ n,
      n = (update_cost n (fun _ => cfg.cost_max) (fun _ => 0) cands inp).2 j ∧
      dist inp ((update_cost n (fun _ => cfg.cost_max) (fun _ => 0) cands inp).2 j) j =
        (update_cost n (fun _ => cfg.cost_max) (fun _ => 0) cands inp).1 j :=
    fun n => update_parent inp cfg hM (fun _ => False) (fun m => n = m) n (by simp) rfl _ _
      cands j hj (Or.inl rfl)
  unfold endpoint_costs
  cases hs : (inp.vehicle v).start with
  | none =>
    cases he : (inp.vehicle v).end_ with
    | none => rw [hs, he] at hV; simp at hV
    | some e => simpa using first e
  | some s =>
    cases he : (inp.vehicle v).end_ with
    | none => simpa using first s
    | some e =>
      simp only
      split
      · have second := update_parent inp cfg hM (fun m => s = m) (fun m => s = m ∨ e = m) e
          (fun m h => Or.inl h) (Or.inr rfl)
          (update_cost s (fun _ => cfg.cost_max) (fun _ => 0) cands inp).1
          (update_cost s (fun _ => cfg.cost_max) (fun _ => 0) cands inp).2 cands j hj
          (Or.inr (first s))
        simpa using second
      · rename_i hse
        have : s = e := by simpa using hse
        subst this
        simpa using first s

theorem bound_node_update_same (inp : input) (clusters : Nat → List Nat) (v j m : Nat) :
    bound_node inp (Function.update clusters v (clusters v ++ [j])) v m ↔
      bound_node inp clusters v m ∨ m = inp.loc j := by
  unfold bound_node
  simp only [Function.update_same, List.mem_append, List.mem_singleton]
  constructor
  · rintro (h | h | ⟨i, hi | hi, he⟩)
    · exact Or.inl (Or.inl h)
    · exact Or.inl (Or.inr (Or.inl h))
    · exact Or.inl (Or.inr (Or.inr ⟨i, hi, he⟩))
    · subst hi; exact Or.inr he.symm
  · rintro ((h | h | ⟨i, hi, he⟩) | h)
    · exact Or.inl h
    · exact Or.inr (Or.inl h)
    · exact Or.inr (Or.inr ⟨i, Or.inl hi, he⟩)
    · exact Or.inr (Or.inr ⟨j, Or.inr rfl, h.symm⟩)

theorem bound_node_update_other (inp : input) (clusters : Nat → List Nat) (v w : Nat)
    (x : List Nat) (m : Nat) (h : w ≠ v) :
    bound_node inp (Function.update clusters v x) w m ↔ bound_node inp clusters w m := by
  unfold bound_node
  rw [Function.update_noteq h]

theorem bound_node_nil (inp : input) (clusters : Nat → List Nat) (v m : Nat)
    (h : clusters v = []) :
    bound_node inp clusters v m ↔
      ((inp.vehicle v).start = some m ∨ (inp.vehicle v).end_ = some m) := by
  unfold bound_node
  rw [h]
  simp

theorem scenario2_matrix_lt : ∀ a b, scenario2.matrix a b < (cfg32 3).cost_max := by
  intro a b
  rcases a with _ | _ | _ | _ | a <;> rcases b with _ | _ | _ | _ | b <;>
    simp [scenario2, matrix_of, cfg32]

theorem scenario2_vehicle : ∀ v, v < scenario2.V →
    (scenario2.vehicle v).start ≠ none ∨ (scenario2.vehicle v).end_ ≠ none := by
  intro v hv
  have h1 : scenario2.V = 1 := rfl
  have h0 : v = 0 := by omega
  subst h0
  decide

/-- The cost invariant in the states of the parallel heuristic. -/
theorem parallel_least_cost (inp : input) (cfg : config) (init : INIT_T)
    (hM : ∀ a b, inp.matrix a b ≤ cfg.cost_max)
    (hV : ∀ v, v < inp.V → (inp.vehicle v).start ≠ none ∨ (inp.vehicle v).end_ ≠ none)
    (st : pstate) (h : parallel_reach inp cfg init st) :
    ∀ v j, j ∈ st.candidates v → least_cost inp st.clusters (st.costs v) v j := by
  refine parallel_reach_induction inp cfg init
    (fun st => ∀ v j, j ∈ st.candidates v → least_cost inp st.clusters (st.costs v) v j)
    ?_ ?_ ?_ st h
  · intro v j hj
    have hv : v < inp.V := by
      by_contra hn
      simp [parallel_init, parallel_candidates, hn] at hj
    have := endpoint_least inp cfg hM v (hV v hv) (parallel_candidates inp v) j hj
    unfold least_cost
    simpa [parallel_init, bound_node_nil] using this
  · intro st candidates v j cands seed _ hP hperm hcons w i hi
    by_cases hw : w = v
    · subst hw
      have hi' : i ∈ cands := by simpa [parallel_place, erase_candidate] using hi
      have hi0 : i ∈ st.candidates w :=
        (hperm w).subset (hcons.subset (List.mem_cons_of_mem _ hi'))
      have hold := hP w i hi0
      have := update_least inp cfg hM (bound_node inp st.clusters w)
        (bound_node inp (Function.update st.clusters w (st.clusters w ++ [j])) w) (inp.loc j)
        (bound_node_update_same inp st.clusters w j) (st.costs w) (st.parents w) cands i hi'
        hold.2 (Or.inl hold.1)
      unfold least_cost
      simpa [parallel_place] using this
    · have hi0 : i ∈ st.candidates w := by
        have hi1 : i ∈ candidates w := by
          simp only [parallel_place, erase_candidate, if_neg hw] at hi
          split at hi
          · exact List.mem_of_mem_erase hi
          · exact hi
        exact (hperm w).subset hi1
      have hold := hP w i hi0
      unfold least_cost at hold ⊢
      simp only [parallel_place, Function.update_noteq hw, bound_node_update_other _ _ _ _ _ _ hw]
      exact hold
  · intro st cands _ hP hsub v j hj
    exact hP v j ((hsub v).subset hj)

/-- The cost invariant in the states of the sequential heuristic, with the
fact that the clusters of the vehicles not reached yet are empty. -/
theorem sequential_least_cost (inp : input) (cfg : config) (init : INIT_T)
    (hM : ∀ a b, inp.matrix a b ≤ cfg.cost_max)
    (hV : ∀ v, v < inp.V → (inp.vehicle v).start ≠ none ∨ (inp.vehicle v).end_ ≠ none) :
    (∀ k, k ≤ inp.V → ∀ w, k ≤ w → (sequential_vehicles inp cfg init k).clusters w = []) ∧
    (∀ v, v < inp.V →
      (∀ w, v < w →
        (sequential_begin inp cfg v (sequential_vehicles inp cfg init v)).g.clusters w = []) ∧
      ∀ j, j ∈ (sequential_begin inp cfg v (sequential_vehicles inp cfg init v)).candidates →
        least_cost inp (sequential_begin inp cfg v (sequential_vehicles inp cfg init v)).g.clusters
          (sequential_begin inp cfg v (sequential_vehicles inp cfg init v)).costs v j) ∧
    (∀ v n, v < inp.V →
      (∀ w, v < w → (sequential_steps inp cfg init v n).g.clusters w = []) ∧
      ∀ j, j ∈ (sequential_steps inp cfg init v n).candidates →
        least_cost inp (sequential_steps inp cfg init v n).g.clusters
          (sequential_steps inp cfg init v n).costs v j) := by
  refine sequential_vehicle_induction inp cfg init
    (fun k g => ∀ w, k ≤ w → g.clusters w = [])
    (fun v s => (∀ w, v < w → s.g.clusters w = []) ∧
      ∀ j, j ∈ s.candidates → least_cost inp s.g.clusters s.costs v j) ?_ ?_ ?_ ?_ ?_
  · intro w _
    rfl
  · intro v g hv hP
    refine ⟨fun w hw => hP w (by omega), fun j hj => ?_⟩
    have := endpoint_least inp cfg hM v (hV v hv) (sequential_candidates inp v g.candidates_set)
      j hj
    unfold least_cost
    simpa [sequential_begin, bound_node_nil inp g.clusters v _ (hP v (le_refl _))] using this
  · intro v s j upd kept cost seed hv hQ hj hku hus
    constructor
    · intro w hw
      have hne : w ≠ v := by omega
      simp only [sequential_place, Function.update_noteq hne]
      exact hQ.1 w hw
    · intro i hi
      have hi' : i ∈ upd := hku hi
      have hold := hQ.2 i (hus hi')
      have := update_least inp cfg hM (bound_node inp s.g.clusters v)
        (bound_node inp (Function.update s.g.clusters v (s.g.clusters v ++ [j])) v) (inp.loc j)
        (bound_node_update_same inp s.g.clusters v j) s.costs s.parents upd i hi'
        hold.2 (Or.inl hold.1)
      unfold least_cost
      simpa [sequential_place] using this
  · intro v s kept hv hQ hsub
    exact ⟨hQ.1, fun j hj => hQ.2 j (hsub hj)⟩
  · intro v s hv hQ w hw
    exact hQ.1 w (by omega)

theorem mem_trace_cluster (trace : List placement) (v i : Nat) :
    i ∈ trace_cluster trace v ↔ ∃ q, q ∈ trace ∧ q.v = v ∧ q.j = i := by
  unfold trace_cluster
  simp only [List.mem_map, List.mem_filter, decide_eq_true_eq]
  constructor
  · rintro ⟨q, ⟨hq, hv⟩, hj⟩
    exact ⟨q, hq, hv, hj⟩
  · rintro ⟨q, hq, hv, hj⟩
    exact ⟨q, ⟨hq, hv⟩, hj⟩

theorem trace_consistent_append (inp : input) (t : List placement) (p : placement)
    (ht : trace_consistent inp t) (hp : parent_consistent inp t p) :
    trace_consistent inp (t ++ [p]) := by
  intro pre x post heq
  rcases List.eq_nil_or_concat post with h | ⟨rest, y, h⟩
  · subst h
    have h1 := List.append_inj' heq (by simp)
    have h2 : p = x := by simpa using h1.2
    rw [← h1.1, ← h2]
    exact hp
  · subst h
    have e : pre ++ x :: rest.concat y = (pre ++ x :: rest) ++ [y] := by simp
    rw [e] at heq
    have h1 := List.append_inj' heq (by simp)
    exact ht pre x rest h1.1

/-- A record whose parent is bound to its vehicle, at the distance that is its
cost, is consistent with a trace that lists the clusters. -/
theorem parent_consistent_of_bound (inp : input) (clusters : Nat → List Nat)
    (trace : List placement) (hc : ∀ v, clusters v = trace_cluster trace v)
    (v j parent cost : Nat) (seed : Bool)
    (h : bound_node inp clusters v parent ∧ dist inp parent j = cost) :
    parent_consistent inp trace ⟨v, j, parent, cost, seed⟩ := by
  unfold parent_consistent
  refine ⟨?_, h.2⟩
  rcases h.1 with h1 | h1 | ⟨i, hi, he⟩
  · exact Or.inl h1
  · exact Or.inr (Or.inl h1)
  · rw [hc v, mem_trace_cluster] at hi
    obtain ⟨q, hq, hqv, hqj⟩ := hi
    exact Or.inr (Or.inr ⟨q, hq, hqv, by rw [hqj]; exact he⟩)

/-- Parent consistency in the states of the parallel heuristic. -/
theorem parallel_parents (inp : input) (cfg : config) (init : INIT_T)
    (hM : ∀ a b, inp.matrix a b < cfg.cost_max)
    (hV : ∀ v, v < inp.V → (inp.vehicle v).start ≠ none ∨ (inp.vehicle v).end_ ≠ none)
    (st : pstate) (h : parallel_reach inp cfg init st) :
    (∀ v j, j ∈ st.candidates v →
      bound_node inp st.clusters v (st.parents v j) ∧
        dist inp (st.parents v j) j = st.costs v j) ∧
    (∀ v, st.clusters v = trace_cluster st.trace v) ∧ trace_consistent inp st.trace := by
  refine parallel_reach_induction inp cfg init
    (fun st => (∀ v j, j ∈ st.candidates v →
      bound_node inp st.clusters v (st.parents v j) ∧
        dist inp (st.parents v j) j = st.costs v j) ∧
      (∀ v, st.clusters v = trace_cluster st.trace v) ∧ trace_consistent inp st.trace)
    ?_ ?_ ?_ st h
  · refine ⟨?_, by simp [parallel_init, trace_cluster], ?_⟩
    · intro v j hj
      have hv : v < inp.V := by
        by_contra hn
        simp [parallel_init, parallel_candidates, hn] at hj
      have := endpoint_parent inp cfg hM v (hV v hv) (parallel_candidates inp v) j hj
      simpa [parallel_init, bound_node_nil] using this
    · intro pre p post heq
      simp [parallel_init] at heq
  · intro st candidates v j cands seed _ hP hperm hcons
    have hj0 : j ∈ st.candidates v := (hperm v).subset (hcons.subset (List.mem_cons_self _ _))
    refine ⟨?_, ?_, ?_⟩
    · intro w i hi
      by_cases hw : w = v
      · subst hw
        have hi' : i ∈ cands := by simpa [parallel_place, erase_candidate] using hi
        have hi0 : i ∈ st.candidates w :=
          (hperm w).subset (hcons.subset (List.mem_cons_of_mem _ hi'))
        have := update_parent inp cfg hM (bound_node inp st.clusters w)
          (bound_node inp (Function.update st.clusters w (st.clusters w ++ [j])) w) (inp.loc j)
          (fun m hm => (bound_node_update_same inp st.clusters w j m).2 (Or.inl hm))
          ((bound_node_update_same inp st.clusters w j _).2 (Or.inr rfl))
          (st.costs w) (st.parents w) cands i hi' (Or.inr (hP.1 w i hi0))
        simpa [parallel_place] using this
      · have hi0 : i ∈ st.candidates w := by
          have hi1 : i ∈ candidates w := by
            simp only [parallel_place, erase_candidate, if_neg hw] at hi
            split at hi
            · exact List.mem_of_mem_erase hi
            · exact hi
          exact (hperm w).subset hi1
        have hold := hP.1 w i hi0
        simp only [parallel_place, Function.update_noteq hw,
          bound_node_update_other _ _ _ _ _ _ hw]
        exact hold
    · exact update_cluster_trace st.clusters st.trace
        ⟨v, j, st.parents v j, st.costs v j, seed⟩ hP.2.1
    · exact trace_consistent_append inp st.trace _ hP.2.2
        (parent_consistent_of_bound inp st.clusters st.trace hP.2.1 v j _ _ seed (hP.1 v j hj0))
  · intro st cands _ hP hsub
    exact ⟨fun v j hj => hP.1 v j ((hsub v).subset hj), hP.2⟩

/-- Parent consistency in the states of the sequential heuristic. -/
theorem sequential_parents (inp : input) (cfg : config) (init : INIT_T)
    (hM : ∀ a b, inp.matrix a b < cfg.cost_max)
    (hV : ∀ v, v < inp.V → (inp.vehicle v).start ≠ none ∨ (inp.vehicle v).end_ ≠ none) :
    (∀ k, k ≤ inp.V →
      (∀ w, (sequential_vehicles inp cfg init k).clusters w =
        trace_cluster (sequential_vehicles inp cfg init k).trace w) ∧
      trace_consistent inp (sequential_vehicles inp cfg init k).trace) ∧
    (∀ v n, v < inp.V →
      (∀ j, j ∈ (sequential_steps inp cfg init v n).candidates →
        bound_node inp (sequential_steps inp cfg init v n).g.clusters v
            ((sequential_steps inp cfg init v n).parents j) ∧
          dist inp ((sequential_steps inp cfg init v n).parents j) j =
            (sequential_steps inp cfg init v n).costs j) ∧
      (∀ w, (sequential_steps inp cfg init v n).g.clusters w =
        trace_cluster (sequential_steps inp cfg init v n).g.trace w) ∧
      trace_consistent inp (sequential_steps inp cfg init v n).g.trace) := by
  have key := sequential_vehicle_induction inp cfg init
    (fun _ g => (∀ w, g.clusters w = trace_cluster g.trace w) ∧ trace_consistent inp g.trace)
    (fun v s => (∀ j, j ∈ s.candidates →
        bound_node inp s.g.clusters v (s.parents j) ∧ dist inp (s.parents j) j = s.costs j) ∧
      (∀ w, s.g.clusters w = trace_cluster s.g.trace w) ∧ trace_consistent inp s.g.trace)
    ?_ ?_ ?_ ?_ ?_
  · exact ⟨key.1, key.2.2⟩
  · refine ⟨by simp [sequential_start, trace_cluster], ?_⟩
    intro pre p post heq
    simp [sequential_start] at heq
  · intro v g hv hP
    refine ⟨fun j hj => ?_, hP⟩
    have := endpoint_parent inp cfg hM v (hV v hv)
      (sequential_candidates inp v g.candidates_set) j hj
    refine ⟨?_, this.2⟩
    rcases this.1 with h | h
    · exact Or.inl h
    · exact Or.inr (Or.inl h)
  · intro v s j upd kept cost seed hv hQ hj hku hus
    refine ⟨?_, ?_, ?_⟩
    · intro i hi
      have hi' : i ∈ upd := hku hi
      have := update_parent inp cfg hM (bound_node inp s.g.clusters v)
        (bound_node inp (Function.update s.g.clusters v (s.g.clusters v ++ [j])) v) (inp.loc j)
        (fun m hm => (bound_node_update_same inp s.g.clusters v j m).2 (Or.inl hm))
        ((bound_node_update_same inp s.g.clusters v j _).2 (Or.inr rfl))
        s.costs s.parents upd i hi' (Or.inr (hQ.1 i (hus hi')))
      simpa [sequential_place] using this
    · exact update_cluster_trace s.g.clusters s.g.trace
        ⟨v, j, s.parents j, s.costs j, seed⟩ hQ.2.1
    · exact trace_consistent_append inp s.g.trace _ hQ.2.2
        (parent_consistent_of_bound inp s.g.clusters s.g.trace hQ.2.1 v j _ _ seed (hQ.1 j hj))
  · intro v s kept hv hQ hsub
    exact ⟨fun j hj => hQ.1 j (hsub hj), hQ.2⟩
  · intro v s hv hQ
    exact hQ.2

/-- The value `current_regret` for `(v, j)` reads only the costs of the other
vehicles for `j`. -/
theorem current_regret_congr (inp : input) (cfg : config) (c d : Nat → Nat → Nat) (v j : Nat)
    (h : ∀ o, o < inp.V → o ≠ v → c o j = d o j) :
    current_regret inp cfg c v j = current_regret inp cfg d v j := by
  unfold current_regret
  apply List.foldl_ext
  intro cur o ho
  by_cases hov : v = o
  · simp [hov]
  · rw [h o (List.mem_range.1 ho) (Ne.symm hov)]

/-- Lowering the cost of one other vehicle `u` for `j` to `min (cost, x)`, with
`x` below the maximum, lowers `current_regret` for `(v, j)` to
`min (current_regret, x)`. -/
theorem current_regret_lower (inp : input) (cfg : config) (c d : Nat → Nat → Nat)
    (v u j x : Nat) (hu : u < inp.V) (huv : u ≠ v) (hx : x < cfg.cost_max)
    (hd : d u j = min (c u j) x) (h : ∀ o, o ≠ u → d o j = c o j) :
    current_regret inp cfg d v j = min (current_regret inp cfg c v j) x := by
  have hdu : d u j ≠ cfg.cost_max := by
    rw [hd]
    have := Nat.min_le_right (c u j) x
    omega
  apply le_antisymm
  · apply le_min
    · rcases current_regret_attained inp cfg c v j with he | ⟨o, ho, hov, hoc, he⟩
      · rw [he]; exact current_regret_le_max inp cfg d v j
      · rw [he]
        by_cases hou : o = u
        · subst hou
          exact le_trans (current_regret_le inp cfg d v j o ho hov hdu)
            (by rw [hd]; exact Nat.min_le_left _ _)
        · rw [← h o hou]
          exact current_regret_le inp cfg d v j o ho hov (by rw [h o hou]; exact hoc)
    · exact le_trans (current_regret_le inp cfg d v j u hu huv hdu)
        (by rw [hd]; exact Nat.min_le_right _ _)
  · rcases current_regret_attained inp cfg d v j with he | ⟨o, ho, hov, hoc, he⟩
    · rw [he]
      exact le_trans (Nat.min_le_right _ _) (le_of_lt hx)
    · rw [he]
      by_cases hou : o = u
      · subst hou
        rw [hd]
        by_cases hc : c o j = cfg.cost_max
        · rw [hc, Nat.min_eq_right (le_of_lt hx)]
          exact Nat.min_le_right _ _
        · exact min_le_min (current_regret_le inp cfg c v j o ho hov hc) (le_refl _)
      · rw [h o hou]
        exact le_trans (Nat.min_le_left _ _)
          (current_regret_le inp cfg c v j o ho hov (by rw [← h o hou]; exact hoc))

theorem regret_update_le (inp : input) (cfg : config) (v job_rank : Nat) (cands : List Nat)
    (costs regrets : Nat → Nat → Nat) (w j : Nat) :
    regret_update inp cfg v job_rank cands costs regrets w j ≤ regrets w j := by
  unfold regret_update
  split
  · exact Nat.min_le_left _ _
  · exact le_refl _

theorem parallel_seed_regrets_le (inp : input) (cfg : config) (init : INIT_T) (st : pstate)
    (v w j : Nat) : (parallel_seed inp cfg init st v).regrets w j ≤ st.regrets w j := by
  unfold parallel_seed
  split
  · exact regret_update_le _ _ _ _ _ _ _ _ _
  · exact le_refl _

theorem parallel_round_regrets_le (inp : input) (cfg : config) (st : pstate) (w j : Nat) :
    (parallel_round inp cfg st).regrets w j ≤ st.regrets w j := by
  unfold parallel_round
  split
  · exact le_refl _
  · exact regret_update_le _ _ _ _ _ _ _ _ _

/-- In every state of the parallel heuristic the cost of a compatible pair is
below the maximum and its regret is `current_regret` on the current costs. -/
theorem parallel_regrets (inp : input) (cfg : config) (init : INIT_T)
    (hM : ∀ a b, inp.matrix a b < cfg.cost_max)
    (hV : ∀ v, v < inp.V → (inp.vehicle v).start ≠ none ∨ (inp.vehicle v).end_ ≠ none)
    (st : pstate) (h : parallel_reach inp cfg init st) :
    (∀ v j, v < inp.V → j < inp.J → inp._vehicle_to_job_compatibility v j = true →
      st.costs v j < cfg.cost_max) ∧
    (∀ v j, v < inp.V → j < inp.J → inp._vehicle_to_job_compatibility v j = true →
      st.regrets v j = current_regret inp cfg st.costs v j) := by
  refine parallel_reach_induction inp cfg init
    (fun st => (∀ v j, v < inp.V → j < inp.J → inp._vehicle_to_job_compatibility v j = true →
        st.costs v j < cfg.cost_max) ∧
      (∀ v j, v < inp.V → j < inp.J → inp._vehicle_to_job_compatibility v j = true →
        st.regrets v j = current_regret inp cfg st.costs v j)) ?_ ?_ ?_ st h
  · have hmem : ∀ v j, v < inp.V → j < inp.J → inp._vehicle_to_job_compatibility v j = true →
        j ∈ parallel_candidates inp v := by
      intro v j hv hj hc
      unfold parallel_candidates
      rw [if_pos hv]
      exact List.mem_filter.2 ⟨List.mem_range.2 hj, hc⟩
    constructor
    · intro v j hv hj hc
      obtain ⟨⟨m, _, he⟩, _⟩ := endpoint_least inp cfg (fun a b => le_of_lt (hM a b)) v (hV v hv)
        (parallel_candidates inp v) j (hmem v j hv hj hc)
      show (endpoint_costs inp cfg v (parallel_candidates inp v)).1 j < cfg.cost_max
      rw [he]
      exact dist_lt inp cfg hM m j
    · intro v j hv hj hc
      simp only [parallel_init, initial_regrets]
      exact if_pos ⟨hv, hmem v j hv hj hc⟩
  · intro st candidates v j cands seed hinv hP hperm hcons
    have hj0 : j ∈ st.candidates v := (hperm v).subset (hcons.subset (List.mem_cons_self _ _))
    have hv : v < inp.V := (hinv.cand v j hj0).1
    have hcost : ∀ w i, (parallel_place inp cfg st candidates v j cands (st.costs v j) seed).costs
        w i = if w = v ∧ i ∈ cands then min (st.costs v i) (dist inp (inp.loc j) i)
          else st.costs w i := by
      intro w i
      by_cases hw : w = v
      · subst hw
        simp only [parallel_place, Function.update_same, update_cost_fst, true_and]
      · simp only [parallel_place, Function.update_noteq hw, hw, false_and, if_false]
    constructor
    · intro w i hw hi hc
      rw [hcost]
      split
      · exact lt_of_le_of_lt (Nat.min_le_right _ _) (dist_lt inp cfg hM _ _)
      · exact hP.1 w i hw hi hc
    · intro w i hw hi hc
      have hreg : (parallel_place inp cfg st candidates v j cands (st.costs v j) seed).regrets
          w i = regret_update inp cfg v j cands st.costs st.regrets w i := rfl
      rw [hreg]
      unfold regret_update
      by_cases hic : i ∈ cands
      · by_cases hwv : w = v
        · rw [if_neg (fun hh => hh.2.1 hwv), hP.2 w i hw hi hc]
          apply current_regret_congr
          intro o _ hov
          rw [hcost, if_neg (fun hh => hov (hh.1.trans hwv.symm))]
        · rw [if_pos ⟨hw, hwv, hic, Nat.ne_of_lt (hP.1 w i hw hi hc)⟩, hP.2 w i hw hi hc]
          symm
          apply current_regret_lower inp cfg st.costs _ w v i _ hv (Ne.symm hwv)
            (dist_lt inp cfg hM (inp.loc j) i)
          · rw [hcost, if_pos ⟨rfl, hic⟩]
          · intro o hov
            rw [hcost, if_neg (fun hh => hov hh.1)]
      · rw [if_neg (fun hh => hic hh.2.2.1), hP.2 w i hw hi hc]
        apply current_regret_congr
        intro o _ _
        rw [hcost, if_neg (fun hh => hic hh.2)]
  · intro st cands _ hP _
    exact hP

/-- No cost exceeds the maximum of `cost_t`. -/
theorem parallel_costs_le_max (inp : input) (cfg : config) (init : INIT_T) (st : pstate)
    (h : parallel_reach inp cfg init st) : ∀ v j, st.costs v j ≤ cfg.cost_max := by
  refine parallel_reach_induction inp cfg init (fun st => ∀ v j, st.costs v j ≤ cfg.cost_max)
    ?_ ?_ ?_ st h
  · intro v j
    exact endpoint_costs_le_max inp cfg v _ j
  · intro st candidates v j cands seed _ hP _ _ w i
    by_cases hw : w = v
    · subst hw
      simp only [parallel_place, Function.update_same]
      exact le_trans (update_cost_le _ _ _ _ _ _) (hP w i)
    · simp only [parallel_place, Function.update_noteq hw]
      exact hP w i
  · intro st cands _ hP _
    exact hP

/-- C16 as stated fails: on `far_pair` (32-bit costs, no seed) both heuristics
place job `0` in the cluster of vehicle `0` and job `1` in the cluster of
vehicle `1`, at the cost `3000000000` each, and leave
`edges_cost = 1705032704`, which is the exact sum `6000000000` reduced modulo
`2^32`; nothing in the result tells that the accumulator wrapped. -/
theorem edges_cost_overflow_counterexample :
    (maintained_sum (parallel_clustering far_pair (cfg32 2) INIT_T.NONE (List.range 2)).trace
        = 6000000000 ∧
      clustering.clustering far_pair (cfg32 2) CLUSTERING_T.PARALLEL INIT_T.NONE
        = ⟨[[0], [1]], 1705032704, []⟩) ∧
    (charged_sum far_pair (cfg32 2)
        (sequential_clustering far_pair (cfg32 2) INIT_T.NONE (List.range 2)).trace
        = 6000000000 ∧
      clustering.clustering far_pair (cfg32 2) CLUSTERING_T.SEQUENTIAL INIT_T.NONE
        = ⟨[[0], [1]], 1705032704, []⟩) := by
  decide

/-- C16 as amended (no overflow detection).  The `edges_cost` left by a run is
at most the maximum of `cost_t` and is the exact sum of the amounts added for
the placed jobs reduced modulo `cost_max + 1`; it is that exact sum if and
only if the sum does not exceed the maximum of `cost_t`.  The amounts added
are the maintained costs in the parallel heuristic, and `charged` in the
sequential heuristic. -/
theorem edges_cost_modular (inp : input) (cfg : config) (init : INIT_T) :
    ((parallel_clustering inp cfg init (List.range inp.J)).edges_cost ≤ cfg.cost_max ∧
      (parallel_clustering inp cfg init (List.range inp.J)).edges_cost =
        maintained_sum (parallel_clustering inp cfg init (List.range inp.J)).trace
          % (cfg.cost_max + 1) ∧
      ((parallel_clustering inp cfg init (List.range inp.J)).edges_cost =
          maintained_sum (parallel_clustering inp cfg init (List.range inp.J)).trace ↔
        maintained_sum (parallel_clustering inp cfg init (List.range inp.J)).trace
          ≤ cfg.cost_max)) ∧
    ((sequential_clustering inp cfg init (List.range inp.J)).edges_cost ≤ cfg.cost_max ∧
      (sequential_clustering inp cfg init (List.range inp.J)).edges_cost =
        charged_sum inp cfg (sequential_clustering inp cfg init (List.range inp.J)).trace
          % (cfg.cost_max + 1) ∧
      ((sequential_clustering inp cfg init (List.range inp.J)).edges_cost =
          charged_sum inp cfg (sequential_clustering inp cfg init (List.range inp.J)).trace ↔
        charged_sum inp cfg (sequential_clustering inp cfg init (List.range inp.J)).trace
          ≤ cfg.cost_max)) := by
  have hp := (parallel_accounting inp cfg init _ (parallel_clustering_reach inp cfg init)).1
  have hs := ((sequential_accounting inp cfg init).1 inp.V).1
  have hs' : (sequential_clustering inp cfg init (List.range inp.J)).edges_cost =
      charged_sum inp cfg (sequential_clustering inp cfg init (List.range inp.J)).trace
        % (cfg.cost_max + 1) := hs
  have hlt : ∀ n : Nat, n % (cfg.cost_max + 1) ≤ cfg.cost_max :=
    fun n => Nat.le_of_lt_succ (Nat.mod_lt _ (Nat.succ_pos _))
  refine ⟨⟨?_, hp, ?_, ?_⟩, ⟨?_, hs', ?_, ?_⟩⟩
  · rw [hp]
    exact hlt _
  · intro h
    rw [← h, hp]
    exact hlt _
  · intro h
    rw [hp]
    exact Nat.mod_eq_of_lt (Nat.lt_succ_of_le h)
  · rw [hs']
    exact hlt _
  · intro h
    rw [← h, hs']
    exact hlt _
  · intro h
    rw [hs']
    exact Nat.mod_eq_of_lt (Nat.lt_succ_of_le h)

/-- C16 as amended, at scenario 2 of the specification with the sequential
heuristic and no seed, where the sum is below the maximum of `cost_t`. -/
theorem edges_cost_modular_witness :
    charged_sum scenario2 (cfg32 3)
        (sequential_clustering scenario2 (cfg32 3) INIT_T.NONE (List.range scenario2.J)).trace
      ≤ (cfg32 3).cost_max ∧
    (sequential_clustering scenario2 (cfg32 3) INIT_T.NONE (List.range scenario2.J)).edges_cost =
      charged_sum scenario2 (cfg32 3)
        (sequential_clustering scenario2 (cfg32 3) INIT_T.NONE (List.range scenario2.J)).trace :=
  ⟨by decide, (edges_cost_modular scenario2 (cfg32 3) INIT_T.NONE).2.2.2.2 (by decide)⟩

/-- C19 as stated fails: with the single vehicle of scenario 2 no other vehicle
exists, and the initial regret of job `0` is the maximum of `cost_t`, not `0`. -/
theorem initial_regret_counterexample :
    scenario2.V = 1 ∧
    0 ∈ (parallel_init scenario2 (cfg32 3) (List.range 3)).candidates 0 ∧
    (parallel_init scenario2 (cfg32 3) (List.range 3)).regrets 0 0 = 4294967295 := by
  decide

/-- C19 as amended (initial regret of the parallel heuristic).  Right after
lines 123-137, for a vehicle `v < V` and a job `j` of `candidates[v]`: when
some vehicle other than `v` has a cost for `j` different from the maximum of
`cost_t`, `regrets[v][j]` is the least such cost; when there is none,
`regrets[v][j]` is the maximum of `cost_t`.  The entries for the other pairs
`(v, j)` are `0`. -/
theorem initial_regret_spec (inp : input) (cfg : config) (v j : Nat) :
    (v < inp.V → j ∈ (parallel_init inp cfg (List.range inp.J)).candidates v →
      ((∃ w, w < inp.V ∧ w ≠ v ∧
          (parallel_init inp cfg (List.range inp.J)).costs w j ≠ cfg.cost_max) →
        (∃ w, w < inp.V ∧ w ≠ v ∧
          (parallel_init inp cfg (List.range inp.J)).costs w j ≠ cfg.cost_max ∧
          (parallel_init inp cfg (List.range inp.J)).regrets v j =
            (parallel_init inp cfg (List.range inp.J)).costs w j) ∧
        ∀ w, w < inp.V → w ≠ v →
          (parallel_init inp cfg (List.range inp.J)).costs w j ≠ cfg.cost_max →
          (parallel_init inp cfg (List.range inp.J)).regrets v j ≤
            (parallel_init inp cfg (List.range inp.J)).costs w j) ∧
      ((∀ w, w < inp.V → w ≠ v →
          (parallel_init inp cfg (List.range inp.J)).costs w j = cfg.cost_max) →
        (parallel_init inp cfg (List.range inp.J)).regrets v j = cfg.cost_max)) ∧
    (¬ (v < inp.V ∧ j ∈ (parallel_init inp cfg (List.range inp.J)).candidates v) →
      (parallel_init inp cfg (List.range inp.J)).regrets v j = 0) := by
  constructor
  · intro hv hj
    have hr : (parallel_init inp cfg (List.range inp.J)).regrets v j =
        current_regret inp cfg (parallel_init inp cfg (List.range inp.J)).costs v j := by
      simp only [parallel_init, initial_regrets]
      rw [if_pos ⟨hv, hj⟩]
    rw [hr]
    constructor
    · rintro ⟨w, hw, hwv, hwc⟩
      refine ⟨?_, fun w' hw' hwv' hwc' => current_regret_le inp cfg _ v j w' hw' hwv' hwc'⟩
      rcases current_regret_attained inp cfg (parallel_init inp cfg (List.range inp.J)).costs v j
        with h | h
      · exfalso
        have h1 := current_regret_le inp cfg _ v j w hw hwv hwc
        have h2 : (parallel_init inp cfg (List.range inp.J)).costs w j ≤ cfg.cost_max :=
          endpoint_costs_le_max inp cfg w _ j
        omega
      · exact h
    · intro hall
      rcases current_regret_attained inp cfg (parallel_init inp cfg (List.range inp.J)).costs v j
        with h | ⟨w, hw, hwv, hwc, _⟩
      · exact h
      · exact absurd (hall w hw hwv) hwc
  · intro hn
    simp only [parallel_init, initial_regrets]
    exact if_neg hn

/-- C19 as amended, at scenario 4 of the specification: the initial regret of
the job for the first vehicle is its cost `7` for the second vehicle. -/
theorem initial_regret_spec_witness :
    (0 < tie_large_first.V ∧
      0 ∈ (parallel_init tie_large_first (cfg32 1) (List.range tie_large_first.J)).candidates 0) ∧
    (parallel_init tie_large_first (cfg32 1) (List.range tie_large_first.J)).regrets 0 0 ≤
      (parallel_init tie_large_first (cfg32 1) (List.range tie_large_first.J)).costs 1 0 :=
  ⟨⟨by decide, by decide⟩,
    (((initial_regret_spec tie_large_first (cfg32 1) 0 0).1 (by decide) (by decide)).1
      ⟨1, by decide, by decide, by decide⟩).2 1 (by decide) (by decide) (by decide)⟩

theorem symmetric_endpoint_costs (inp : input) (cfg : config) (v : Nat)
    (hsym : ∀ a b, inp.matrix a b = inp.matrix b a) (candidates : List Nat) (j : Nat)
    (hj : j ∈ candidates) :
    (endpoint_costs inp cfg v candidates).1 j = vehicles_to_job_costs inp cfg v j := by
  rw [endpoint_costs_fst, if_pos hj]
  unfold vehicles_to_job_costs dist
  cases (inp.vehicle v).start with
  | none =>
    cases (inp.vehicle v).end_ with
    | none => rfl
    | some e => simp only [hsym (inp.loc j) e, Nat.min_self]
  | some s =>
    cases (inp.vehicle v).end_ with
    | none => simp only [hsym (inp.loc j) s, Nat.min_self]
    | some e => simp only [hsym (inp.loc j) s, hsym (inp.loc j) e, Nat.min_self]

/-- The `NEAREST` seed of the sequential heuristic, for every value that the
comparator reads in place of `v`.  When the local candidates of vehicle `v`
are not empty, the seed is a candidate, it is appended to `clusters[v]`, and
it minimises the entry of the row `dangling v` of `vehicles_to_job_costs`
among the candidates.  When moreover that value is `v` and the matrix is
symmetric, the seed minimises `cost[j]`. -/
theorem sequential_nearest_seed (inp : input) (cfg : config) (v : Nat) (g : sstate)
    (h : (sequential_begin inp cfg v g).candidates ≠ []) :
    sequential_pick inp cfg INIT_T.NEAREST v (sequential_begin inp cfg v g) ∈
      (sequential_begin inp cfg v g).candidates ∧
    (sequential_seed inp cfg INIT_T.NEAREST v (sequential_begin inp cfg v g)).g.clusters v =
      g.clusters v ++ [sequential_pick inp cfg INIT_T.NEAREST v (sequential_begin inp cfg v g)] ∧
    (∀ j, j ∈ (sequential_begin inp cfg v g).candidates →
      vehicles_to_job_costs inp cfg (cfg.dangling v)
          (sequential_pick inp cfg INIT_T.NEAREST v (sequential_begin inp cfg v g)) ≤
        vehicles_to_job_costs inp cfg (cfg.dangling v) j) ∧
    (cfg.dangling v = v → (∀ a b, inp.matrix a b = inp.matrix b a) →
      ∀ j, j ∈ (sequential_begin inp cfg v g).candidates →
        (sequential_begin inp cfg v g).costs
            (sequential_pick inp cfg INIT_T.NEAREST v (sequential_begin inp cfg v g)) ≤
          (sequential_begin inp cfg v g).costs j) := by
  have hlt := min_element_lt
    (nearest_init_lambda (vehicles_to_job_costs inp cfg (cfg.dangling v))) _ h
  have hmem : sequential_pick inp cfg INIT_T.NEAREST v (sequential_begin inp cfg v g) ∈
      (sequential_begin inp cfg v g).candidates := nth_mem _ _ hlt
  have hmin : ∀ j, j ∈ (sequential_begin inp cfg v g).candidates →
      vehicles_to_job_costs inp cfg (cfg.dangling v)
          (sequential_pick inp cfg INIT_T.NEAREST v (sequential_begin inp cfg v g)) ≤
        vehicles_to_job_costs inp cfg (cfg.dangling v) j := fun j hj =>
    min_element_min (nearest_init_lambda (vehicles_to_job_costs inp cfg (cfg.dangling v)))
      (vehicles_to_job_costs inp cfg (cfg.dangling v)) (fun _ _ => rfl) _ j hj
  refine ⟨hmem, ?_, hmin, ?_⟩
  · unfold sequential_seed
    rw [if_pos ⟨by decide, Nat.ne_of_lt hlt⟩]
    simp [sequential_place, sequential_begin, sequential_pick]
  · intro hd hsym j hj
    have e : ∀ i, i ∈ (sequential_begin inp cfg v g).candidates →
        (sequential_begin inp cfg v g).costs i = vehicles_to_job_costs inp cfg v i :=
      fun i hi => symmetric_endpoint_costs inp cfg v hsym _ i hi
    rw [e _ hmem, e _ hj]
    have := hmin j hj
    rw [hd] at this
    exact this

/-- C12 fails by a slip of the code: the comparator of `nearest_init_lambda (v)`
reads `v` through a reference to a parameter that no longer exists.  On
`two_bases 1 10` (symmetric matrix), in a run where that read gives `0`: when
the sequential heuristic reaches vehicle `1` its candidates are the jobs `2`
and `1`, of costs `3` and `8` after the updates from the start of the vehicle
(the entries of row `1` of `vehicles_to_job_costs` are the same), and the
`NEAREST` seed is job `1`, of cost `8`: it is the candidate of least entry in
row `0`.  In a run where the read gives the rank of the vehicle the seed is
job `2`. -/
theorem sequential_nearest_dead_rank :
    (sequential_begin (two_bases 1 10) (cfg32_stale 3) 1
        (sequential_vehicles (two_bases 1 10) (cfg32_stale 3) INIT_T.NEAREST 1)).candidates
      = [2, 1] ∧
    ((sequential_begin (two_bases 1 10) (cfg32_stale 3) 1
        (sequential_vehicles (two_bases 1 10) (cfg32_stale 3) INIT_T.NEAREST 1)).costs 2 = 3 ∧
      (sequential_begin (two_bases 1 10) (cfg32_stale 3) 1
        (sequential_vehicles (two_bases 1 10) (cfg32_stale 3) INIT_T.NEAREST 1)).costs 1 = 8) ∧
    (vehicles_to_job_costs (two_bases 1 10) (cfg32_stale 3) 1 2 = 3 ∧
      vehicles_to_job_costs (two_bases 1 10) (cfg32_stale 3) 1 1 = 8) ∧
    (vehicles_to_job_costs (two_bases 1 10) (cfg32_stale 3) 0 2 = 9 ∧
      vehicles_to_job_costs (two_bases 1 10) (cfg32_stale 3) 0 1 = 5) ∧
    (sequential_seeded (two_bases 1 10) (cfg32_stale 3) INIT_T.NEAREST 1).g.clusters 1 = [1] ∧
    (sequential_seeded (two_bases 1 10) (cfg32 3) INIT_T.NEAREST 1).g.clusters 1 = [2] ∧
    clustering.clustering (two_bases 1 10) (cfg32_stale 3) CLUSTERING_T.SEQUENTIAL INIT_T.NEAREST
      = ⟨[[0], [1, 2]], 12, []⟩ := by
  decide

/-- The `HIGHER_AMOUNT` seed of the parallel heuristic, for every value that the
comparator reads in place of `v`.  When the seeding loop reaches vehicle `v`
with a non-empty `candidates[v]`, the body places a seed: it is a candidate of
`v`, it is appended to `clusters[v]`, no candidate of `v` has a greater
demand, and no candidate of `v` with the same demand has a greater entry in
the row `dangling v` of `costs`. -/
theorem parallel_higher_amount_seed (inp : input) (cfg : config) (v : Nat)
    (h : (parallel_seeded inp cfg INIT_T.HIGHER_AMOUNT v).candidates v ≠ []) :
    parallel_pick inp cfg INIT_T.HIGHER_AMOUNT (parallel_seeded inp cfg INIT_T.HIGHER_AMOUNT v) v ∈
      (parallel_seeded inp cfg INIT_T.HIGHER_AMOUNT v).candidates v ∧
    (parallel_seeded inp cfg INIT_T.HIGHER_AMOUNT (v + 1)).clusters v =
      (parallel_seeded inp cfg INIT_T.HIGHER_AMOUNT v).clusters v ++
        [parallel_pick inp cfg INIT_T.HIGHER_AMOUNT
          (parallel_seeded inp cfg INIT_T.HIGHER_AMOUNT v) v] ∧
    ∀ j, j ∈ (parallel_seeded inp cfg INIT_T.HIGHER_AMOUNT v).candidates v →
      inp.amount j ≤ inp.amount
        (parallel_pick inp cfg INIT_T.HIGHER_AMOUNT
          (parallel_seeded inp cfg INIT_T.HIGHER_AMOUNT v) v) ∧
      (inp.amount j = inp.amount
          (parallel_pick inp cfg INIT_T.HIGHER_AMOUNT
            (parallel_seeded inp cfg INIT_T.HIGHER_AMOUNT v) v) →
        (parallel_seeded inp cfg INIT_T.HIGHER_AMOUNT v).costs (cfg.dangling v) j ≤
          (parallel_seeded inp cfg INIT_T.HIGHER_AMOUNT v).costs (cfg.dangling v)
            (parallel_pick inp cfg INIT_T.HIGHER_AMOUNT
              (parallel_seeded inp cfg INIT_T.HIGHER_AMOUNT v) v)) := by
  have hlt := max_element_lt (higher_amount_init_lambda inp
    ((parallel_seeded inp cfg INIT_T.HIGHER_AMOUNT v).costs (cfg.dangling v))) _ h
  refine ⟨nth_mem _ _ hlt, ?_, fun j hj => higher_amount_max inp _ _ j hj⟩
  have hne : init_job inp INIT_T.HIGHER_AMOUNT
      ((parallel_seeded inp cfg INIT_T.HIGHER_AMOUNT v).costs (cfg.dangling v))
      ((parallel_seeded inp cfg INIT_T.HIGHER_AMOUNT v).candidates v) ≠
      ((parallel_seeded inp cfg INIT_T.HIGHER_AMOUNT v).candidates v).length := Nat.ne_of_lt hlt
  rw [parallel_seeded_succ]
  unfold parallel_seed
  rw [if_pos hne]
  simp [parallel_place, parallel_pick]

/-- C13 fails by a slip of the code: the comparator of
`higher_amount_init_lambda (v)` reads `v` through a reference to a parameter
that no longer exists.  On `two_bases 1 10` (every demand is `1`), in a run
where that read gives `0`: when the seeding loop of the parallel heuristic
reaches vehicle `1` its candidates are the jobs `0` and `1`, of equal demand
and of costs `12` and `8` for vehicle `1`, and the `HIGHER_AMOUNT` seed is job
`1`, of cost `8`: it is the candidate of greatest cost for vehicle `0`.  In a
run where the read gives the rank of the vehicle the seed is job `0`. -/
theorem parallel_higher_amount_dead_rank :
    (parallel_seeded (two_bases 1 10) (cfg32_stale 3) INIT_T.HIGHER_AMOUNT 1).candidates 1
      = [0, 1] ∧
    (two_bases 1 10).amount 0 = (two_bases 1 10).amount 1 ∧
    ((parallel_seeded (two_bases 1 10) (cfg32_stale 3) INIT_T.HIGHER_AMOUNT 1).costs 1 0 = 12 ∧
      (parallel_seeded (two_bases 1 10) (cfg32_stale 3) INIT_T.HIGHER_AMOUNT 1).costs 1 1 = 8) ∧
    ((parallel_seeded (two_bases 1 10) (cfg32_stale 3) INIT_T.HIGHER_AMOUNT 1).costs 0 0 = 1 ∧
      (parallel_seeded (two_bases 1 10) (cfg32_stale 3) INIT_T.HIGHER_AMOUNT 1).costs 0 1 = 5) ∧
    (parallel_seeded (two_bases 1 10) (cfg32_stale 3) INIT_T.HIGHER_AMOUNT 2).clusters 1 = [1] ∧
    (parallel_seeded (two_bases 1 10) (cfg32 3) INIT_T.HIGHER_AMOUNT 2).clusters 1 = [0] ∧
    clustering.clustering (two_bases 1 10) (cfg32_stale 3) CLUSTERING_T.PARALLEL
        INIT_T.HIGHER_AMOUNT
      = ⟨[[2], [1, 0]], 29, []⟩ := by
  decide

/-- C11 (sequential heuristic, `regret_coeff = 0`, no seed).  With the
comparison `eval_lambda` of `regret_coeff = 0` (costs compared exactly), at
every iteration of the loop of vehicle `v` that starts with candidates left:
the examined job `current_j` is a candidate whose cost is the least among the
candidates; the iteration is the loop body applied to the state; the job is
appended to `clusters[v]` with that cost when its demand fits the remaining
capacity, and no cluster changes otherwise; in both cases exactly that job
leaves the candidates. -/
theorem sequential_nearest_fill (inp : input) (cfg : config) (he : cfg.eval = exact_eval 0 1)
    (v n : Nat) (h : (sequential_steps inp cfg INIT_T.NONE v n).candidates ≠ []) :
    sequential_top cfg (sequential_regrets inp cfg v) (sequential_steps inp cfg INIT_T.NONE v n) ∈
      (sequential_steps inp cfg INIT_T.NONE v n).candidates ∧
    (∀ j, j ∈ (sequential_steps inp cfg INIT_T.NONE v n).candidates →
      (sequential_steps inp cfg INIT_T.NONE v n).costs
          (sequential_top cfg (sequential_regrets inp cfg v)
            (sequential_steps inp cfg INIT_T.NONE v n)) ≤
        (sequential_steps inp cfg INIT_T.NONE v n).costs j) ∧
    sequential_steps inp cfg INIT_T.NONE v (n + 1) =
      sequential_step inp cfg (sequential_regrets inp cfg v) v
        (sequential_steps inp cfg INIT_T.NONE v n) ∧
    (inp.amount (sequential_top cfg (sequential_regrets inp cfg v)
          (sequential_steps inp cfg INIT_T.NONE v n)) ≤
        (sequential_steps inp cfg INIT_T.NONE v n).capacity →
      (sequential_steps inp cfg INIT_T.NONE v (n + 1)).g.clusters v =
        (sequential_steps inp cfg INIT_T.NONE v n).g.clusters v ++
          [sequential_top cfg (sequential_regrets inp cfg v)
            (sequential_steps inp cfg INIT_T.NONE v n)] ∧
      (sequential_steps inp cfg INIT_T.NONE v (n + 1)).g.trace =
        (sequential_steps inp cfg INIT_T.NONE v n).g.trace ++
          [⟨v, sequential_top cfg (sequential_regrets inp cfg v)
              (sequential_steps inp cfg INIT_T.NONE v n),
            (sequential_steps inp cfg INIT_T.NONE v n).parents
              (sequential_top cfg (sequential_regrets inp cfg v)
                (sequential_steps inp cfg INIT_T.NONE v n)),
            (sequential_steps inp cfg INIT_T.NONE v n).costs
              (sequential_top cfg (sequential_regrets inp cfg v)
                (sequential_steps inp cfg INIT_T.NONE v n)),
            false⟩]) ∧
    (¬ inp.amount (sequential_top cfg (sequential_regrets inp cfg v)
          (sequential_steps inp cfg INIT_T.NONE v n)) ≤
        (sequential_steps inp cfg INIT_T.NONE v n).capacity →
      (sequential_steps inp cfg INIT_T.NONE v (n + 1)).g =
        (sequential_steps inp cfg INIT_T.NONE v n).g) ∧
    (sequential_top cfg (sequential_regrets inp cfg v) (sequential_steps inp cfg INIT_T.NONE v n) ::
        (sequential_steps inp cfg INIT_T.NONE v (n + 1)).candidates).Perm
      (sequential_steps inp cfg INIT_T.NONE v n).candidates := by
  have hstep : sequential_steps inp cfg INIT_T.NONE v (n + 1) =
      sequential_step inp cfg (sequential_regrets inp cfg v) v
        (sequential_steps inp cfg INIT_T.NONE v n) := by
    unfold sequential_steps
    rw [sequential_loop_succ, if_neg]
    simpa using h
  have hkey := sequential_top_key cfg 0 1 he (sequential_regrets inp cfg v)
    (sequential_steps inp cfg INIT_T.NONE v n)
  have hp := make_heap_perm
    (eval_lambda cfg (sequential_regrets inp cfg v) (sequential_steps inp cfg INIT_T.NONE v n).costs)
    (sequential_steps inp cfg INIT_T.NONE v n).candidates
  have hne : make_heap
      (eval_lambda cfg (sequential_regrets inp cfg v)
        (sequential_steps inp cfg INIT_T.NONE v n).costs)
      (sequential_steps inp cfg INIT_T.NONE v n).candidates ≠ [] := by
    intro h0
    rw [h0] at hp
    exact h hp.symm.eq_nil
  refine ⟨sequential_top_mem cfg _ _ h, ?_, hstep, ?_, ?_, ?_⟩
  · intro j hj
    have := hkey j hj
    unfold exact_key at this
    omega
  · intro hfit
    rw [hstep]
    unfold sequential_top at hfit ⊢
    unfold sequential_step sequential_pop sequential_try
    rw [if_pos hfit]
    simp [sequential_place]
  · intro hfit
    rw [hstep]
    unfold sequential_top at hfit
    unfold sequential_step sequential_pop sequential_try
    rw [if_neg hfit]
  · rw [hstep]
    unfold sequential_step sequential_pop sequential_try sequential_top
    have hcons : ∀ (comp : Nat → Nat → Bool) (a : List Nat), a ≠ [] →
        (nth a 0 :: pop_back (pop_heap comp a)).Perm a := by
      intro comp a ha
      refine (List.Perm.cons _ (pop_back_pop_heap_perm comp a)).trans ?_
      cases a with
      | nil => exact absurd rfl ha
      | cons x t => exact List.Perm.refl _
    split
    · exact (hcons _ _ hne).trans hp
    · exact (hcons _ _ hne).trans hp

/-- C11 at scenario 2 of the specification with `regret_coeff = 0`: the first
iteration of the vehicle examines a candidate of least cost. -/
theorem sequential_nearest_fill_witness :
    (sequential_steps scenario2 (cfg_zero 3) INIT_T.NONE 0 0).candidates ≠ [] ∧
    sequential_top (cfg_zero 3) (sequential_regrets scenario2 (cfg_zero 3) 0)
        (sequential_steps scenario2 (cfg_zero 3) INIT_T.NONE 0 0) ∈
      (sequential_steps scenario2 (cfg_zero 3) INIT_T.NONE 0 0).candidates :=
  ⟨by decide, (sequential_nearest_fill scenario2 (cfg_zero 3) rfl 0 0 (by decide)).1⟩

theorem foldl_PushBack {α : Type} (f : α → output_json.json) (l : List α) :
    ∀ (acc : List output_json.json),
      l.foldl (fun a x => output_json.PushBack a (f x)) (output_json.json.array acc) =
        output_json.json.array (acc ++ l.map f) := by
  induction l with
  | nil => intro acc; simp
  | cons x t ih =>
    intro acc
    rw [List.foldl_cons]
    have e : output_json.PushBack (output_json.json.array acc) (f x) =
        output_json.json.array (acc ++ [f x]) := rfl
    rw [e, ih]
    simp

theorem push_unassigned_eq (a : output_json.json) (job : output_json.job_t) :
    output_json.push_unassigned a job = output_json.PushBack a (output_json.unassigned_entry job) := by
  unfold output_json.push_unassigned output_json.unassigned_entry
  cases job.has_coordinates <;> rfl

theorem to_json_error (sol : output_json.solution) (geometry : Bool) (h : sol.code ≠ 0) :
    output_json.to_json sol geometry =
      output_json.json.object
        [("code", output_json.json.uint sol.code), ("error", output_json.json.string sol.error)] := by
  unfold output_json.to_json
  simp only [if_pos h]
  have hne : ¬ ("code" = "error") := by decide
  simp [output_json.AddMember, output_json.SetString, output_json.set_first, hne]

theorem to_json_success (sol : output_json.solution) (geometry : Bool) (h : sol.code = 0) :
    output_json.to_json sol geometry =
      output_json.json.object
        [("code", output_json.json.uint sol.code),
          ("summary", output_json.to_json_summary sol.summary geometry),
          ("unassigned", output_json.json.array (sol.unassigned.map output_json.unassigned_entry)),
          ("routes", output_json.json.array (sol.routes.map output_json.to_json_route))] := by
  unfold output_json.to_json
  have hn : ¬ sol.code ≠ 0 := fun hc => hc h
  simp only [if_neg hn]
  have e1 : sol.unassigned.foldl output_json.push_unassigned (output_json.json.array []) =
      output_json.json.array (sol.unassigned.map output_json.unassigned_entry) := by
    have : output_json.push_unassigned =
        fun a x => output_json.PushBack a (output_json.unassigned_entry x) := by
      funext a x
      exact push_unassigned_eq a x
    rw [this, foldl_PushBack]
    simp
  rw [e1, foldl_PushBack]
  simp [output_json.AddMember]

/-- C15 (output envelope).  The document built by `to_json (sol, geometry)` is
an object whose first member is `"code"` with the value `sol.code`.  When
`sol.code` is not `0` its members are exactly `"code"` and `"error"`, the
latter with the string `sol.error`.  When `sol.code` is `0` its members are
exactly `"code"`, `"summary"`, `"unassigned"` and `"routes"` in that order;
`"unassigned"` is the array of the objects of the elements of `sol.unassigned`
and `"routes"` the array of the documents of the elements of `sol.routes`, one
for each element and in the same order.  A member `"error"` is present exactly
when `sol.code` is not `0`. -/
theorem to_json_envelope (sol : output_json.solution) (geometry : Bool) :
    (∃ rest, output_json.to_json sol geometry =
      output_json.json.object (("code", output_json.json.uint sol.code) :: rest)) ∧
    (sol.code ≠ 0 →
      output_json.to_json sol geometry =
        output_json.json.object
          [("code", output_json.json.uint sol.code),
            ("error", output_json.json.string sol.error)]) ∧
    (sol.code = 0 →
      output_json.to_json sol geometry =
        output_json.json.object
          [("code", output_json.json.uint sol.code),
            ("summary", output_json.to_json_summary sol.summary geometry),
            ("unassigned",
              output_json.json.array (sol.unassigned.map output_json.unassigned_entry)),
            ("routes", output_json.json.array (sol.routes.map output_json.to_json_route))] ∧
      (sol.unassigned.map output_json.unassigned_entry).length = sol.unassigned.length ∧
      (sol.routes.map output_json.to_json_route).length = sol.routes.length) ∧
    ((∃ members value, output_json.to_json sol geometry = output_json.json.object members ∧
        ("error", value) ∈ members) ↔ sol.code ≠ 0) := by
  refine ⟨?_, to_json_error sol geometry, fun h => ⟨to_json_success sol geometry h, by simp, by simp⟩,
    ?_⟩
  · by_cases h : sol.code = 0
    · exact ⟨_, to_json_success sol geometry h⟩
    · exact ⟨_, to_json_error sol geometry h⟩
  · constructor
    · rintro ⟨members, value, he, hm⟩ h0
      rw [to_json_success sol geometry h0] at he
      injection he with he
      rw [← he] at hm
      simp only [List.mem_cons, Prod.mk.injEq, List.mem_singleton, List.not_mem_nil,
        or_false] at hm
      have h1 : ¬ ("error" = "code") := by decide
      have h2 : ¬ ("error" = "summary") := by decide
      have h3 : ¬ ("error" = "unassigned") := by decide
      have h4 : ¬ ("error" = "routes") := by decide
      rcases hm with hm | hm | hm | hm
      · exact h1 hm.1
      · exact h2 hm.1
      · exact h3 hm.1
      · exact h4 hm.1
    · intro h
      exact ⟨_, output_json.json.string sol.error, to_json_error sol geometry h, by simp⟩

/-- C18 (cost invariant).  For an input whose matrix entries are values of
`cost_t` and whose vehicles have a start or an end, and for every policy: in
every state of the parallel heuristic (after line 137, after a seed placement,
after a round), and in the sequential heuristic after the updates from the
start and the end of a vehicle, after its seeding and after every iteration of
its loop, the cost of every job still in the candidates of vehicle `v` is the
least `min (m[n][loc j], m[loc j][n])` over the nodes `n` bound to `v`: its
start, its end and the locations of the jobs of `clusters[v]`. -/
theorem cost_invariant (inp : input) (cfg : config) (init : INIT_T)
    (hM : ∀ a b, inp.matrix a b ≤ cfg.cost_max)
    (hV : ∀ v, v < inp.V → (inp.vehicle v).start ≠ none ∨ (inp.vehicle v).end_ ≠ none) :
    (∀ st, parallel_reach inp cfg init st →
      ∀ v j, j ∈ st.candidates v → least_cost inp st.clusters (st.costs v) v j) ∧
    (∀ v, v < inp.V →
      ∀ j, j ∈ (sequential_begin inp cfg v (sequential_vehicles inp cfg init v)).candidates →
        least_cost inp (sequential_vehicles inp cfg init v).clusters
          (sequential_begin inp cfg v (sequential_vehicles inp cfg init v)).costs v j) ∧
    (∀ v n, v < inp.V →
      ∀ j, j ∈ (sequential_steps inp cfg init v n).candidates →
        least_cost inp (sequential_steps inp cfg init v n).g.clusters
          (sequential_steps inp cfg init v n).costs v j) :=
  ⟨fun st h => parallel_least_cost inp cfg init hM hV st h,
    fun v hv => ((sequential_least_cost inp cfg init hM hV).2.1 v hv).2,
    fun v n hv => ((sequential_least_cost inp cfg init hM hV).2.2 v n hv).2⟩

/-- C18 at scenario 2 of the specification: after the NEAREST seed of the
parallel heuristic, the cost of the job at location `2` is its distance `10`
to the seed at location `1`, the least over the base and the seed. -/
theorem cost_invariant_witness :
    1 ∈ (parallel_seed scenario2 (cfg32 3) INIT_T.NEAREST
        (parallel_init scenario2 (cfg32 3) (List.range scenario2.J)) 0).candidates 0 ∧
    least_cost scenario2
      (parallel_seed scenario2 (cfg32 3) INIT_T.NEAREST
        (parallel_init scenario2 (cfg32 3) (List.range scenario2.J)) 0).clusters
      ((parallel_seed scenario2 (cfg32 3) INIT_T.NEAREST
        (parallel_init scenario2 (cfg32 3) (List.range scenario2.J)) 0).costs 0) 0 1 :=
  ⟨by decide,
    (cost_invariant scenario2 (cfg32 3) INIT_T.NEAREST
      (fun a b => le_of_lt (scenario2_matrix_lt a b)) scenario2_vehicle).1 _
      (parallel_reach.seed _ 0 parallel_reach.start) 0 1 (by decide)⟩

/-- C14 (parent consistency).  For an input whose matrix entries are below the
maximum of `cost_t` and whose vehicles have a start or an end, and for every
policy, in every state of both heuristics: the records of the trace list the
clusters (one record for each job added, in order), and for every record the
logged `parents[v][j]` is the start of `v`, the end of `v`, or the location of
a job recorded earlier for `v`, and `min (m[parent][loc j], m[loc j][parent])`
is `costs[v][j]` at the moment of the placement.  This holds for seeds and for
the placements of the main loops, and so for the traces of the finished
runs. -/
theorem parent_consistency (inp : input) (cfg : config) (init : INIT_T)
    (hM : ∀ a b, inp.matrix a b < cfg.cost_max)
    (hV : ∀ v, v < inp.V → (inp.vehicle v).start ≠ none ∨ (inp.vehicle v).end_ ≠ none) :
    (∀ st, parallel_reach inp cfg init st →
      (∀ v, st.clusters v = trace_cluster st.trace v) ∧ trace_consistent inp st.trace) ∧
    (∀ v n, v < inp.V →
      (∀ w, (sequential_steps inp cfg init v n).g.clusters w =
        trace_cluster (sequential_steps inp cfg init v n).g.trace w) ∧
      trace_consistent inp (sequential_steps inp cfg init v n).g.trace) ∧
    trace_consistent inp (parallel_clustering inp cfg init (List.range inp.J)).trace ∧
    trace_consistent inp (sequential_clustering inp cfg init (List.range inp.J)).trace :=
  ⟨fun st h => (parallel_parents inp cfg init hM hV st h).2,
    fun v n hv => ((sequential_parents inp cfg init hM hV).2 v n hv).2,
    (parallel_parents inp cfg init hM hV _ (parallel_clustering_reach inp cfg init)).2.2,
    ((sequential_parents inp cfg init hM hV).1 inp.V (le_refl _)).2⟩

/-- C14 at scenario 2 of the specification: the three records of the parallel
run with NEAREST are consistent; the second job placed, at location `3`, has
the seed at location `1` for parent, at distance `5`. -/
theorem parent_consistency_witness :
    (parallel_clustering scenario2 (cfg32 3) INIT_T.NEAREST (List.range scenario2.J)).trace =
      [⟨0, 0, 0, 10, true⟩, ⟨0, 2, 1, 5, false⟩, ⟨0, 1, 3, 5, false⟩] ∧
    trace_consistent scenario2
      (parallel_clustering scenario2 (cfg32 3) INIT_T.NEAREST (List.range scenario2.J)).trace :=
  ⟨by decide,
    (parent_consistency scenario2 (cfg32 3) INIT_T.NEAREST scenario2_matrix_lt
      scenario2_vehicle).2.2.1⟩

theorem tie_large_first_matrix_lt :
    ∀ a b, tie_large_first.matrix a b < (cfg32 1).cost_max := by
  intro a b
  rcases a with _ | _ | a <;> rcases b with _ | _ | b <;>
    simp [tie_large_first, matrix_of, cfg32]

theorem tie_large_first_vehicle : ∀ v, v < tie_large_first.V →
    (tie_large_first.vehicle v).start ≠ none ∨ (tie_large_first.vehicle v).end_ ≠ none := by
  intro v hv
  rcases v with _ | _ | v
  · decide
  · decide
  · have : tie_large_first.V = 2 := rfl
    omega

/-- C20 (regret invariant of the parallel heuristic).  For an input whose
matrix entries are below the maximum of `cost_t` and whose vehicles have a
start or an end, and for every policy: in every state (after line 137, after a
seed placement, after a round), for a vehicle `v` and a job `j` compatible
with it such that another vehicle has a cost for `j` that is not the maximum,
`regrets[v][j]` is the least current cost for `j` among the other vehicles
whose cost is not the maximum.  No entry of `regrets` increases in the body of
the seeding loop nor in a round, so every state has its regrets at most those
of line 137. -/
theorem regret_invariant (inp : input) (cfg : config) (init : INIT_T)
    (hM : ∀ a b, inp.matrix a b < cfg.cost_max)
    (hV : ∀ v, v < inp.V → (inp.vehicle v).start ≠ none ∨ (inp.vehicle v).end_ ≠ none) :
    (∀ st, parallel_reach inp cfg init st →
      ∀ v j, v < inp.V → j < inp.J → inp._vehicle_to_job_compatibility v j = true →
        (∃ w, w < inp.V ∧ w ≠ v ∧ st.costs w j ≠ cfg.cost_max) →
        (∃ w, w < inp.V ∧ w ≠ v ∧ st.costs w j ≠ cfg.cost_max ∧
          st.regrets v j = st.costs w j) ∧
        ∀ w, w < inp.V → w ≠ v → st.costs w j ≠ cfg.cost_max →
          st.regrets v j ≤ st.costs w j) ∧
    (∀ st v w j, (parallel_seed inp cfg init st v).regrets w j ≤ st.regrets w j) ∧
    (∀ st w j, (parallel_round inp cfg st).regrets w j ≤ st.regrets w j) ∧
    (∀ st, parallel_reach inp cfg init st →
      ∀ w j, st.regrets w j ≤ (parallel_init inp cfg (List.range inp.J)).regrets w j) := by
  refine ⟨?_, fun st v w j => parallel_seed_regrets_le inp cfg init st v w j,
    fun st w j => parallel_round_regrets_le inp cfg st w j, ?_⟩
  · intro st hr v j hv hj hc hex
    rw [(parallel_regrets inp cfg init hM hV st hr).2 v j hv hj hc]
    refine ⟨?_, fun w hw hwv hwc => current_regret_le inp cfg st.costs v j w hw hwv hwc⟩
    rcases current_regret_attained inp cfg st.costs v j with h | h
    · exfalso
      obtain ⟨w, hw, hwv, hwc⟩ := hex
      have h1 := current_regret_le inp cfg st.costs v j w hw hwv hwc
      have h2 := parallel_costs_le_max inp cfg init st hr w j
      omega
    · exact h
  · intro st hr
    induction hr with
    | start => intro w j; exact le_refl _
    | seed st v _ ih =>
      intro w j
      exact le_trans (parallel_seed_regrets_le inp cfg init st v w j) (ih w j)
    | round st _ ih =>
      intro w j
      exact le_trans (parallel_round_regrets_le inp cfg st w j) (ih w j)

/-- C20 at scenario 4 of the specification: after the first round, the regret
of the job for the first vehicle is at most its cost `7` for the second. -/
theorem regret_invariant_witness :
    (0 < tie_large_first.V ∧ 0 < tie_large_first.J ∧
      tie_large_first._vehicle_to_job_compatibility 0 0 = true) ∧
    (parallel_round tie_large_first (cfg32 1)
        (parallel_init tie_large_first (cfg32 1) (List.range tie_large_first.J))).regrets 0 0 ≤
      (parallel_round tie_large_first (cfg32 1)
        (parallel_init tie_large_first (cfg32 1) (List.range tie_large_first.J))).costs 1 0 :=
  ⟨⟨by decide, by decide, rfl⟩,
    ((regret_invariant tie_large_first (cfg32 1) INIT_T.NONE tie_large_first_matrix_lt
      tie_large_first_vehicle).1 _ (parallel_reach.round _ parallel_reach.start) 0 0
      (by decide) (by decide) rfl ⟨1, by decide, by decide, by decide⟩).2 1
      (by decide) (by decide) (by decide)⟩

/-- The loop of lines 380-385 started at index `i` for `n` iterations leaves the
rows above `V - i` and the rows below `V - i - n + 1` as they are, and gives
each row in between the minimum of the next row and of the next row of
`vehicles_to_job_costs`. -/
theorem sequential_regrets_loop_spec (inp : input) (cfg : config) :
    ∀ (n i : Nat) (r : Nat → Nat → Nat), i + n ≤ inp.V + 1 →
      (∀ x, inp.V < x + i → sequential_regrets_loop inp cfg n i r x = r x) ∧
      (∀ x, x + i + n ≤ inp.V → sequential_regrets_loop inp cfg n i r x = r x) ∧
      (∀ x j, x + i ≤ inp.V → inp.V < x + i + n → j < inp.J →
        sequential_regrets_loop inp cfg n i r x j =
          min (sequential_regrets_loop inp cfg n i r (x + 1) j)
            (vehicles_to_job_costs inp cfg (x + 1) j)) := by
  intro n
  induction n with
  | zero =>
    intro i r _
    refine ⟨fun _ _ => rfl, fun _ _ => rfl, ?_⟩
    intro x j h1 h2
    omega
  | succ n ih =>
    intro i r hin
    have hi : i ≤ inp.V := by omega
    obtain ⟨h1, h2, h3⟩ := ih (i + 1)
      (Function.update r (inp.V - i)
        (fun j =>
          if j < inp.J then
            min (r (inp.V - i + 1) j) (vehicles_to_job_costs inp cfg (inp.V - i + 1) j)
          else r (inp.V - i) j)) (by omega)
    unfold sequential_regrets_loop
    refine ⟨?_, ?_, ?_⟩
    · intro x hx
      have hne : x ≠ inp.V - i := by omega
      rw [h1 x (by omega), Function.update_noteq hne]
    · intro x hx
      have hne : x ≠ inp.V - i := by omega
      rw [h2 x (by omega), Function.update_noteq hne]
    · intro x j hx1 hx2 hj
      by_cases hx : x + i = inp.V
      · have hxe : x = inp.V - i := by omega
        have hne : x + 1 ≠ inp.V - i := by omega
        rw [h1 x (by omega), h1 (x + 1) (by omega), Function.update_noteq hne]
        subst hxe
        rw [Function.update_same, if_pos hj]
      · exact h3 x j (by omega) (by omega) hj

/-- Rows `V - 1` and `V - 2` of the table `regrets` of the sequential heuristic,
and the recurrence of the rows below. -/
theorem sequential_regrets_rows (inp : input) (cfg : config) (j : Nat) (hj : j < inp.J) :
    (∀ v, inp.V ≤ v + 1 → sequential_regrets inp cfg v j = 0) ∧
    (∀ v, v + 2 = inp.V →
      sequential_regrets inp cfg v j = vehicles_to_job_costs inp cfg (v + 1) j) ∧
    (∀ v, v + 2 < inp.V →
      sequential_regrets inp cfg v j =
        min (sequential_regrets inp cfg (v + 1) j) (vehicles_to_job_costs inp cfg (v + 1) j)) := by
  unfold sequential_regrets
  by_cases hV : 1 < inp.V
  · simp only [if_pos hV]
    obtain ⟨h1, h2, h3⟩ := sequential_regrets_loop_spec inp cfg (inp.V - 2) 3
      (Function.update (fun _ _ => 0) (inp.V - 2)
        (fun j => if j < inp.J then vehicles_to_job_costs inp cfg (inp.V - 1) j else 0))
      (by omega)
    refine ⟨?_, ?_, ?_⟩
    · intro v hv
      have hne : v ≠ inp.V - 2 := by omega
      rw [h1 v (by omega), Function.update_noteq hne]
    · intro v hv
      have hve : inp.V - 2 = v := by omega
      have hv1 : inp.V - 1 = v + 1 := by omega
      rw [h1 v (by omega), hve, Function.update_same, if_pos hj, hv1]
    · intro v hv
      exact h3 v j (by omega) (by omega) hj
  · simp only [if_neg hV]
    refine ⟨by intro v _; trivial, ?_, ?_⟩
    · intro v hv; omega
    · intro v hv; omega

/-- The row `v` of the table `regrets` of the sequential heuristic is the least
entry of `vehicles_to_job_costs` among the vehicles after `v`. -/
theorem sequential_regrets_min (inp : input) (cfg : config) (j : Nat) (hj : j < inp.J) :
    ∀ (d v : Nat), v + 2 + d = inp.V →
      (∃ w, v < w ∧ w < inp.V ∧
        sequential_regrets inp cfg v j = vehicles_to_job_costs inp cfg w j) ∧
      ∀ w, v < w → w < inp.V →
        sequential_regrets inp cfg v j ≤ vehicles_to_job_costs inp cfg w j := by
  obtain ⟨_, hb, hr⟩ := sequential_regrets_rows inp cfg j hj
  intro d
  induction d with
  | zero =>
    intro v hv
    rw [hb v (by omega)]
    refine ⟨⟨v + 1, by omega, by omega, rfl⟩, ?_⟩
    intro w h1 h2
    have : w = v + 1 := by omega
    rw [this]
  | succ d ih =>
    intro v hv
    obtain ⟨⟨w, hw1, hw2, hwe⟩, hle⟩ := ih (v + 1) (by omega)
    rw [hr v (by omega)]
    constructor
    · rcases le_total (sequential_regrets inp cfg (v + 1) j)
          (vehicles_to_job_costs inp cfg (v + 1) j) with h | h
      · exact ⟨w, by omega, hw2, by rw [Nat.min_eq_left h]; exact hwe⟩
      · exact ⟨v + 1, by omega, by omega, Nat.min_eq_right h⟩
    · intro w' h1 h2
      by_cases hw' : w' = v + 1
      · rw [hw']; exact Nat.min_le_right _ _
      · exact le_trans (Nat.min_le_left _ _) (hle w' (by omega) h2)

/-- With entries that are values of `cost_t`, the entry of
`vehicles_to_job_costs` of a vehicle with a start or an end is its baseline. -/
theorem baseline_eq (inp : input) (cfg : config) (hM : ∀ a b, inp.matrix a b ≤ cfg.cost_max)
    (v j : Nat) (hV : (inp.vehicle v).start ≠ none ∨ (inp.vehicle v).end_ ≠ none) :
    baseline inp v j = some (vehicles_to_job_costs inp cfg v j) := by
  unfold baseline vehicles_to_job_costs
  cases hs : (inp.vehicle v).start with
  | none =>
    cases he : (inp.vehicle v).end_ with
    | none => rw [hs, he] at hV; simp at hV
    | some e => simp only [Nat.min_eq_right (hM _ _)]
  | some s =>
    cases he : (inp.vehicle v).end_ with
    | none => simp only [Nat.min_eq_right (hM _ _)]
    | some e => simp only [Nat.min_eq_right (hM _ _)]

theorem three_vehicles_matrix_le :
    ∀ a b, three_vehicles.matrix a b ≤ (cfg32 1).cost_max := by
  intro a b
  rcases a with _ | _ | a <;> rcases b with _ | _ | b <;>
    simp [three_vehicles, matrix_of, cfg32]

/-- C21 (closed form of the regrets of the sequential heuristic).  For an input
whose matrix entries are values of `cost_t`, a vehicle `v < V` and a job
`j < J`, the table `regrets` of lines 372-386 satisfies: `regrets[V-1][j] = 0`;
for `v < V - 1`, `regrets[v][j]` is the least `vehicles_to_job_costs[w][j]`
over the later vehicles `v < w <= V - 1` (it is the entry of one of them and
exceeds none); and the entry `vehicles_to_job_costs[w][j]` of a vehicle with a
start or an end is its baseline, the least of `m[start][loc j]` and
`m[loc j][end]` over the endpoints that the vehicle has. -/
theorem sequential_regret_closed_form (inp : input) (cfg : config)
    (hM : ∀ a b, inp.matrix a b ≤ cfg.cost_max) (v j : Nat) (hj : j < inp.J) :
    (v + 1 = inp.V → sequential_regrets inp cfg v j = 0) ∧
    (v + 1 < inp.V →
      (∃ w, v < w ∧ w < inp.V ∧
        sequential_regrets inp cfg v j = vehicles_to_job_costs inp cfg w j) ∧
      ∀ w, v < w → w < inp.V →
        sequential_regrets inp cfg v j ≤ vehicles_to_job_costs inp cfg w j) ∧
    (∀ w, (inp.vehicle w).start ≠ none ∨ (inp.vehicle w).end_ ≠ none →
      baseline inp w j = some (vehicles_to_job_costs inp cfg w j)) := by
  refine ⟨fun h => (sequential_regrets_rows inp cfg j hj).1 v (by omega), fun h => ?_,
    fun w hw => baseline_eq inp cfg hM w j hw⟩
  exact sequential_regrets_min inp cfg j hj (inp.V - (v + 2)) v (by omega)

/-- C21 on three vehicles based at the same location: the regret of the job
for the first vehicle is the entry `7` of a later vehicle, and the regret for
the last vehicle is `0`. -/
theorem sequential_regret_closed_form_witness :
    (0 < three_vehicles.J ∧ 0 + 1 < three_vehicles.V) ∧
    (∃ w, 0 < w ∧ w < three_vehicles.V ∧
      sequential_regrets three_vehicles (cfg32 1) 0 0 =
        vehicles_to_job_costs three_vehicles (cfg32 1) w 0) ∧
    sequential_regrets three_vehicles (cfg32 1) 0 0 = 7 ∧
    sequential_regrets three_vehicles (cfg32 1) 2 0 = 0 :=
  ⟨⟨by decide, by decide⟩,
    ((sequential_regret_closed_form three_vehicles (cfg32 1) three_vehicles_matrix_le 0 0
      (by decide)).2.1 (by decide)).1,
    by decide, by decide⟩

/-- A drop round of the parallel heuristic, for every value that the
comparators read in place of `v`.  In a round that starts in state `st` where
no vehicle has a favourite fitting its remaining capacity: every non-empty
`candidates[v]` loses its favourite and keeps every other candidate (the
favourite followed by the new vector is a rearrangement of the old one); the
other vectors are unchanged; `clusters`, `unassigned`, `edges_cost`,
`capacities`, `costs`, `parents`, `regrets` and the trace are unchanged; and
the flag `candidates_remaining` is set exactly when some vector is still
non-empty.  When `eval_lambda` compares the keys
`regret_coeff * regrets[.][j] - costs[.][j]` exactly, the favourite has the
greatest key in the rows of the rank `dangling v`. -/
theorem parallel_drop_round (inp : input) (cfg : config) (p q : Nat)
    (he : cfg.eval = exact_eval p q) (st : pstate)
    (hno : ∀ v, v < inp.V → ¬ feasible_top inp cfg st v) :
    (∀ v, v < inp.V → st.candidates v ≠ [] →
      (top_candidate cfg st v :: (parallel_round inp cfg st).candidates v).Perm
          (st.candidates v) ∧
        ∀ j, j ∈ st.candidates v →
          exact_key p q (st.regrets (cfg.dangling v)) (st.costs (cfg.dangling v)) j ≤
            exact_key p q (st.regrets (cfg.dangling v)) (st.costs (cfg.dangling v))
              (top_candidate cfg st v)) ∧
    (∀ v, inp.V ≤ v ∨ st.candidates v = [] →
      (parallel_round inp cfg st).candidates v = st.candidates v) ∧
    ((parallel_round inp cfg st).clusters = st.clusters ∧
      (parallel_round inp cfg st).unassigned = st.unassigned ∧
      (parallel_round inp cfg st).edges_cost = st.edges_cost ∧
      (parallel_round inp cfg st).capacities = st.capacities ∧
      (parallel_round inp cfg st).costs = st.costs ∧
      (parallel_round inp cfg st).parents = st.parents ∧
      (parallel_round inp cfg st).regrets = st.regrets ∧
      (parallel_round inp cfg st).trace = st.trace) ∧
    ((parallel_round inp cfg st).candidates_remaining = true ↔
      ∃ v, v < inp.V ∧ (parallel_round inp cfg st).candidates v ≠ []) := by
  have hok : (select_best inp cfg st).2.capacity_ok = false := by
    cases h : (select_best inp cfg st).2.capacity_ok with
    | false => rfl
    | true =>
      obtain ⟨h1, h2, _⟩ := select_best_ok inp cfg st h
      exact absurd h2 (hno _ h1)
  have hround : parallel_round inp cfg st =
      { st with
        candidates := drop_tops inp cfg st (select_best inp cfg st).1
        candidates_remaining :=
          any_candidate inp (drop_tops inp cfg st (select_best inp cfg st).1) } := by
    unfold parallel_round
    rw [if_pos hok]
  rw [hround]
  refine ⟨?_, ?_, ⟨rfl, rfl, rfl, rfl, rfl, rfl, rfl, rfl⟩, ?_⟩
  · intro v hv hne
    have hp := make_heap_perm (parallel_eval cfg st v) (st.candidates v)
    have hne2 : make_heap (parallel_eval cfg st v) (st.candidates v) ≠ [] := by
      intro h0
      rw [h0] at hp
      exact hne hp.symm.eq_nil
    refine ⟨?_, fun j hj => top_candidate_key cfg p q he st v j hj⟩
    show (top_candidate cfg st v :: drop_tops inp cfg st (select_best inp cfg st).1 v).Perm _
    unfold drop_tops top_candidate
    rw [select_best_fst, if_pos hv]
    have hemp : (!(make_heap (parallel_eval cfg st v)
        (st.candidates v)).isEmpty) = true := by
      cases hm : make_heap (parallel_eval cfg st v) (st.candidates v) with
      | nil => exact absurd hm hne2
      | cons x t => rfl
    rw [if_pos ⟨hv, hemp⟩]
    exact (nth_cons_pop_perm _ _ hne2).trans hp
  · intro v hv
    show drop_tops inp cfg st (select_best inp cfg st).1 v = st.candidates v
    unfold drop_tops
    rw [select_best_fst]
    rcases hv with hv | hv
    · have hlt : ¬ v < inp.V := by omega
      simp [hlt]
    · by_cases hlt : v < inp.V
      · simp [hlt, hv, make_heap_nil]
      · simp [hlt]
  · exact any_candidate_iff inp _

/-- C22 fails by a slip of the code: the comparator of the `eval_lambda (v)` of
the parallel heuristic reads `v` through a reference to a parameter that no
longer exists.  On `two_bases 0 0` (no job fits a vehicle, `regret_coeff = 1`,
no seed), in a run where that read gives `0`: the first round finds no
favourite that fits and drops one candidate of each vehicle; vehicle `1`,
whose candidates `0`, `1` and `2` have the keys `-11`, `-3` and `6`, loses job
`0`, of least key, and keeps job `2`, of greatest key; nothing else changes
and the loop goes on.  In a run where the read gives the rank of the vehicle,
vehicle `1` loses job `2`. -/
theorem parallel_drop_dead_rank :
    (select_best (two_bases 0 0) (cfg32_stale 3)
      (parallel_init (two_bases 0 0) (cfg32_stale 3) (List.range 3))).2.capacity_ok = false ∧
    (parallel_init (two_bases 0 0) (cfg32_stale 3) (List.range 3)).candidates 1 = [0, 1, 2] ∧
    (List.range 3).map
        (exact_key 1 1 ((parallel_init (two_bases 0 0) (cfg32_stale 3) (List.range 3)).regrets 1)
          ((parallel_init (two_bases 0 0) (cfg32_stale 3) (List.range 3)).costs 1))
      = [-11, -3, 6] ∧
    top_candidate (cfg32_stale 3)
      (parallel_init (two_bases 0 0) (cfg32_stale 3) (List.range 3)) 1 = 0 ∧
    (parallel_round (two_bases 0 0) (cfg32_stale 3)
      (parallel_init (two_bases 0 0) (cfg32_stale 3) (List.range 3))).candidates 1 = [1, 2] ∧
    (parallel_round (two_bases 0 0) (cfg32_stale 3)
      (parallel_init (two_bases 0 0) (cfg32_stale 3) (List.range 3))).candidates_remaining
      = true ∧
    (parallel_round (two_bases 0 0) (cfg32 3)
      (parallel_init (two_bases 0 0) (cfg32 3) (List.range 3))).candidates 1 = [1, 0] := by
  decide

theorem cluster_demand_update_same (inp : input) (clusters : Nat → List Nat) (v j : Nat) :
    cluster_demand inp (Function.update clusters v (clusters v ++ [j])) v =
      cluster_demand inp clusters v + inp.amount j := by
  unfold cluster_demand
  simp

theorem cluster_demand_update_other (inp : input) (clusters : Nat → List Nat) (v w : Nat)
    (x : List Nat) (h : w ≠ v) :
    cluster_demand inp (Function.update clusters v x) w = cluster_demand inp clusters w := by
  unfold cluster_demand
  rw [Function.update_noteq h]

theorem cluster_demand_nil (inp : input) (clusters : Nat → List Nat) (v : Nat)
    (h : clusters v = []) : cluster_demand inp clusters v = 0 := by
  unfold cluster_demand
  rw [h]
  rfl

/-- Without a seed, every state of the parallel heuristic keeps
`capacities[v]` equal to the capacity less the demands of `clusters[v]`, and
non-negative for a vehicle of non-negative capacity. -/
theorem parallel_capacity (inp : input) (cfg : config)
    (hcap : ∀ v, v < inp.V → 0 ≤ (inp.vehicle v).capacity)
    (st : pstate) (h : parallel_reach inp cfg INIT_T.NONE st) :
    (∀ v, st.capacities v = (inp.vehicle v).capacity - cluster_demand inp st.clusters v) ∧
    (∀ v, v < inp.V → 0 ≤ st.capacities v) := by
  induction h with
  | start =>
    constructor
    · intro v
      simp [parallel_init, cluster_demand]
    · intro v hv
      exact hcap v hv
  | seed st v _ ih =>
    rw [parallel_seed_none]
    exact ih
  | round st _ ih =>
    unfold parallel_round
    split
    · exact ih
    · rename_i hok
      have hok2 : (select_best inp cfg st).2.capacity_ok = true := by simpa using hok
      obtain ⟨_, hf, hj, _⟩ := select_best_ok inp cfg st hok2
      have hfit : inp.amount (select_best inp cfg st).2.best_j ≤
          st.capacities (select_best inp cfg st).2.best_v := by
        rw [hj]; exact hf.2
      unfold parallel_assign
      constructor
      · intro v
        by_cases hv : v = (select_best inp cfg st).2.best_v
        · subst hv
          simp only [parallel_place, Function.update_same, cluster_demand_update_same]
          rw [ih.1]
          ring
        · simp only [parallel_place, Function.update_noteq hv,
            cluster_demand_update_other _ _ _ _ _ hv]
          exact ih.1 v
      · intro v hv
        by_cases hvb : v = (select_best inp cfg st).2.best_v
        · subst hvb
          simp only [parallel_place, Function.update_same]
          omega
        · simp only [parallel_place, Function.update_noteq hvb]
          exact ih.2 v hv

theorem capacity_inv_place (inp : input) (cfg : config) (v : Nat) (s : vstate) (j : Nat)
    (upd kept : List Nat) (cost : Nat) (seed : Bool) (h : capacity_inv inp v s)
    (hfit : inp.amount j ≤ s.capacity) :
    capacity_inv inp v { sequential_place inp cfg v s j upd cost seed with candidates := kept } := by
  refine ⟨?_, ?_, ?_, ?_⟩
  · simp only [sequential_place]
    omega
  · simp only [sequential_place, cluster_demand_update_same]
    rw [h.left]
    ring
  · intro w hw
    have hne : w ≠ v := by omega
    simp only [sequential_place, Function.update_noteq hne]
    exact h.later w hw
  · intro w hw hne
    simp only [sequential_place, cluster_demand_update_other _ _ _ _ _ hne]
    exact h.other w hw hne

theorem capacity_inv_seed (inp : input) (cfg : config) (init : INIT_T) (v : Nat) (g : sstate)
    (hcap : 0 ≤ (inp.vehicle v).capacity) (hlater : ∀ w, v ≤ w → g.clusters w = [])
    (hother : ∀ w, w < inp.V → cluster_demand inp g.clusters w ≤ (inp.vehicle w).capacity) :
    capacity_inv inp v (sequential_seed inp cfg init v (sequential_begin inp cfg v g)) := by
  have hb : capacity_inv inp v (sequential_begin inp cfg v g) := by
    refine ⟨hcap, ?_, fun w hw => hlater w (by omega), fun w hw _ => hother w hw⟩
    simp [sequential_begin, cluster_demand_nil inp g.clusters v (hlater v (le_refl _))]
  unfold sequential_seed
  split
  · rename_i hne
    have hlt : init_job inp init (vehicles_to_job_costs inp cfg (cfg.dangling v))
        (sequential_begin inp cfg v g).candidates
        < (sequential_begin inp cfg v g).candidates.length :=
      lt_of_le_of_ne (init_job_le _ _ _ _) hne.2
    have hmem := nth_mem _ _ hlt
    have hfit : inp.amount (nth (sequential_begin inp cfg v g).candidates
        (init_job inp init (vehicles_to_job_costs inp cfg (cfg.dangling v))
          (sequential_begin inp cfg v g).candidates)) ≤ (sequential_begin inp cfg v g).capacity := by
      have hm : nth (sequential_begin inp cfg v g).candidates
          (init_job inp init (vehicles_to_job_costs inp cfg (cfg.dangling v))
            (sequential_begin inp cfg v g).candidates) ∈
          sequential_candidates inp v g.candidates_set := hmem
      unfold sequential_candidates at hm
      rw [List.mem_filter] at hm
      have := hm.2
      simp only [Bool.and_eq_true, decide_eq_true_eq] at this
      exact this.2
    exact capacity_inv_place inp cfg v _ _ _ _ _ true hb hfit
  · exact hb

theorem capacity_inv_step (inp : input) (cfg : config) (r : Nat → Nat) (v : Nat) (s : vstate)
    (h : capacity_inv inp v s) : capacity_inv inp v (sequential_step inp cfg r v s) := by
  unfold sequential_step sequential_pop sequential_try
  split
  · rename_i hfit
    exact capacity_inv_place inp cfg v s _ _ _ _ false h hfit
  · exact ⟨h.nonneg, h.left, h.later, h.other⟩

theorem capacity_inv_loop (inp : input) (cfg : config) (r : Nat → Nat) (v : Nat) :
    ∀ (fuel : Nat) (s : vstate), capacity_inv inp v s →
      capacity_inv inp v (sequential_loop inp cfg r v fuel s) := by
  intro fuel
  induction fuel with
  | zero => intro s h; exact h
  | succ n ih =>
    intro s h
    unfold sequential_loop
    split
    · exact h
    · exact ih _ (capacity_inv_step inp cfg r v s h)

theorem capacity_inv_end (inp : input) (v : Nat) (s : vstate) (h : capacity_inv inp v s) :
    (∀ w, v + 1 ≤ w → s.g.clusters w = []) ∧
    (∀ w, w < inp.V → cluster_demand inp s.g.clusters w ≤ (inp.vehicle w).capacity) := by
  refine ⟨fun w hw => h.later w (by omega), fun w hw => ?_⟩
  by_cases hwv : w = v
  · subst hwv
    have h1 := h.nonneg
    have h2 := h.left
    omega
  · exact h.other w hw hwv

/-- Between two vehicles of the sequential heuristic the clusters of the
vehicles not reached yet are empty and the demands of every cluster are within
the capacity. -/
theorem sequential_capacity_vehicles (inp : input) (cfg : config) (init : INIT_T)
    (hcap : ∀ v, v < inp.V → 0 ≤ (inp.vehicle v).capacity) :
    ∀ k, k ≤ inp.V →
      (∀ w, k ≤ w → (sequential_vehicles inp cfg init k).clusters w = []) ∧
      (∀ w, w < inp.V →
        cluster_demand inp (sequential_vehicles inp cfg init k).clusters w ≤
          (inp.vehicle w).capacity) := by
  intro k
  induction k with
  | zero =>
    intro _
    refine ⟨fun w _ => rfl, fun w hw => ?_⟩
    have : cluster_demand inp (sequential_vehicles inp cfg init 0).clusters w = 0 := rfl
    rw [this]
    exact hcap w hw
  | succ n ih =>
    intro hn
    obtain ⟨h1, h2⟩ := ih (by omega)
    have hs := capacity_inv_seed inp cfg init n (sequential_vehicles inp cfg init n)
      (hcap n (by omega)) h1 h2
    have := capacity_inv_end inp n _
      (capacity_inv_loop inp cfg (sequential_regrets inp cfg n) n
        (sequential_seed inp cfg init n
          (sequential_begin inp cfg n (sequential_vehicles inp cfg init n))).candidates.length
        _ hs)
    unfold sequential_vehicles
    rw [List.range_succ, List.foldl_append]
    exact this

/-- The facts on the capacity hold after the seeding of a vehicle of the
sequential heuristic and after every iteration of its loop. -/
theorem sequential_capacity_steps (inp : input) (cfg : config) (init : INIT_T)
    (hcap : ∀ v, v < inp.V → 0 ≤ (inp.vehicle v).capacity) (v n : Nat) (hv : v < inp.V) :
    capacity_inv inp v (sequential_steps inp cfg init v n) := by
  obtain ⟨h1, h2⟩ := sequential_capacity_vehicles inp cfg init hcap v (by omega)
  exact capacity_inv_loop inp cfg _ v n _
    (capacity_inv_seed inp cfg init v _ (hcap v hv) h1 h2)

/-- C23 (where the capacity bound is enforced).  For an input whose vehicles
have a non-negative capacity: (a) in the sequential heuristic, for every
policy, after the seeding of vehicle `v` and after every iteration of its
loop, the remaining `capacity` is not negative and is the capacity of `v` less
the demands of `clusters[v]`, and in these states and between two vehicles the
demands of every cluster sum to at most the capacity of its vehicle; (b) in
the parallel heuristic without a seed, in every state, `capacities[v]` is not
negative and is the capacity of `v` less the demands of `clusters[v]`, which
therefore sum to at most the capacity.  (The demands need not be
non-negative for this.) -/
theorem capacity_enforced (inp : input) (cfg : config)
    (hcap : ∀ v, v < inp.V → 0 ≤ (inp.vehicle v).capacity) :
    (∀ init v n, v < inp.V →
      0 ≤ (sequential_steps inp cfg init v n).capacity ∧
      (sequential_steps inp cfg init v n).capacity =
        (inp.vehicle v).capacity -
          cluster_demand inp (sequential_steps inp cfg init v n).g.clusters v ∧
      ∀ w, w < inp.V →
        cluster_demand inp (sequential_steps inp cfg init v n).g.clusters w ≤
          (inp.vehicle w).capacity) ∧
    (∀ init k w, k ≤ inp.V → w < inp.V →
      cluster_demand inp (sequential_vehicles inp cfg init k).clusters w ≤
        (inp.vehicle w).capacity) ∧
    (∀ st, parallel_reach inp cfg INIT_T.NONE st → ∀ v, v < inp.V →
      0 ≤ st.capacities v ∧
      st.capacities v = (inp.vehicle v).capacity - cluster_demand inp st.clusters v ∧
      cluster_demand inp st.clusters v ≤ (inp.vehicle v).capacity) := by
  refine ⟨?_, ?_, ?_⟩
  · intro init v n hv
    have h := sequential_capacity_steps inp cfg init hcap v n hv
    exact ⟨h.nonneg, h.left, (capacity_inv_end inp v _ h).2⟩
  · intro init k w hk hw
    exact (sequential_capacity_vehicles inp cfg init hcap k hk).2 w hw
  · intro st hr v hv
    obtain ⟨h1, h2⟩ := parallel_capacity inp cfg hcap st hr
    have h3 := h1 v
    have h4 := h2 v hv
    exact ⟨h4, h3, by omega⟩

/-- C23 at scenario 2 of the specification: the finished sequential run with
NEAREST leaves the three jobs, of total demand `3`, in the cluster of the
vehicle of capacity `100`. -/
theorem capacity_enforced_witness :
    cluster_demand scenario2
        (sequential_vehicles scenario2 (cfg32 3) INIT_T.NEAREST scenario2.V).clusters 0 = 3 ∧
    cluster_demand scenario2
        (sequential_vehicles scenario2 (cfg32 3) INIT_T.NEAREST scenario2.V).clusters 0 ≤
      (scenario2.vehicle 0).capacity :=
  ⟨by decide,
    (capacity_enforced scenario2 (cfg32 3)
      (fun v hv => by
        have h1 : scenario2.V = 1 := rfl
        have h0 : v = 0 := by omega
        subst h0
        decide)).2.1 INIT_T.NEAREST scenario2.V 0 (le_refl _) (by decide)⟩

end Vroom
